import Mathlib

/-! CPP_MLP: dense matrices and a multilayer perceptron

A shallow embedding of `matrix.h` (namespace `linalg`) and `nn.h` (namespace `nn`).

* Scalars (`Type` in the C++ template, `double` in `main.cpp`) are a type `α` with the
  arithmetic operations the code uses; the exponential used by `sigmoid` is a parameter.  The
  algebraic results take `α` to be a commutative ring or a field, the analytic ones the reals,
  and the results on the range of `sigmoid` the type `ieee.Double`, a model of IEEE 754
  binary64 with round-to-nearest-even, infinities and NaN.
* `assert` failures are the error `Err.dimensionMismatch`.
* Indexing a `std::vector` out of bounds and `back()` on an empty vector are the error
  `Err.undefinedBehaviour`.
* `size_t` subtraction wraps modulo `2 ^ 64`; the `int` loop counters of `forward` and
  `backprop` are exact for networks of at most `2 ^ 31` widths, which `WellShaped` requires.
* The methods of `MLP` mutate the object in place; they are modelled as functions from the
  state before the call to an outcome that carries the state at the moment the call
  returned or stopped.
-/

namespace linalg

/-- The two ways an operation can stop: a failed `assert`, or behaviour the language leaves
undefined (out-of-range vector access). -/
inductive Err where
  | dimensionMismatch
  | undefinedBehaviour
  deriving DecidableEq, Repr

/-- Loop `for (size_t i = 0; i < n; ++i) body` over a state `σ`. -/
def forRange {σ : Type} (n : Nat) (body : Nat → σ → σ) (init : σ) : σ :=
  (List.range n).foldl (fun s i => body i s) init

/-- Class `Matrix<Type>`: private `cols`, `rows` and the public row-major buffer `data`. -/
structure Matrix (α : Type) where
  cols : Nat
  rows : Nat
  data : List α
  deriving DecidableEq, Repr

namespace Matrix

variable {α : Type}

/-- The public member `shape`, set to `{rows, cols}` by both constructors and never
reassigned. -/
def shape (m : Matrix α) : Nat × Nat := (m.rows, m.cols)

/-- The member `int numel = rows * cols`: the `size_t` product, which wraps modulo `2 ^ 64`,
converted to a 32-bit `int`. -/
def numel (m : Matrix α) : Int :=
  (((m.rows * m.cols) % 2 ^ 64 + 2 ^ 31) % 2 ^ 32 : Nat) - 2 ^ 31

/-- The class invariant `data.size() == rows * cols` established by the constructors. -/
def WF (m : Matrix α) : Prop := m.data.length = m.rows * m.cols

instance (m : Matrix α) : Decidable m.WF := by unfold WF; infer_instance

/-- Constructor `Matrix(rows, cols)`: a buffer of `cols * rows` value-initialised entries. -/
def new [Zero α] (rows cols : Nat) : Matrix α :=
  { cols := cols, rows := rows, data := List.replicate (cols * rows) 0 }

/-- Default constructor `Matrix()`. -/
def empty : Matrix α := { cols := 0, rows := 0, data := [] }

/-- Reading `(*this)(row, col)`, that is `data[row * cols + col]`.  Reading outside the buffer
(undefined in C++) yields `0`; no operation below does so on well-formed matrices. -/
def get [Zero α] (m : Matrix α) (row col : Nat) : α :=
  m.data.getD (row * m.cols + col) 0

/-- Writing `(*this)(row, col) = v`. -/
def set (m : Matrix α) (row col : Nat) (v : α) : Matrix α :=
  { m with data := m.data.set (row * m.cols + col) v }

section Ring

variable [Zero α] [Add α] [Mul α] [Neg α]

/-- Method `matmul`. -/
def matmul (self target : Matrix α) : Except Err (Matrix α) :=
  if self.cols ≠ target.rows then .error .dimensionMismatch
  else
    let output : Matrix α := Matrix.new self.rows target.cols
    .ok (forRange output.rows (fun r output =>
      forRange output.cols (fun c output =>
        forRange target.rows (fun k output =>
          output.set r c (output.get r c + self.get r k * target.get k c)) output) output) output)

/-- Method `multiply_elementwise`. -/
def multiply_elementwise (self target : Matrix α) : Except Err (Matrix α) :=
  if self.rows ≠ target.rows then .error .dimensionMismatch
  else if self.cols ≠ target.cols then .error .dimensionMismatch
  else
    let output : Matrix α := Matrix.new self.rows self.cols
    .ok (forRange self.rows (fun r output =>
      forRange self.cols (fun c output =>
        output.set r c (output.get r c + self.get r c * target.get r c)) output) output)

/-- Method `square`. -/
def square (self : Matrix α) : Except Err (Matrix α) :=
  self.multiply_elementwise self

/-- Method `multiply_scalar`. -/
def multiply_scalar (self : Matrix α) (scalar : α) : Matrix α :=
  let output : Matrix α := Matrix.new self.rows self.cols
  forRange self.rows (fun r output =>
    forRange self.cols (fun c output =>
      output.set r c (output.get r c + self.get r c * scalar)) output) output

/-- Method `add` (also `operator+`). -/
def add (self target : Matrix α) : Except Err (Matrix α) :=
  if self.shape ≠ target.shape then .error .dimensionMismatch
  else
    let output : Matrix α := Matrix.new self.rows self.cols
    .ok (forRange self.rows (fun r output =>
      forRange self.cols (fun c output =>
        output.set r c (output.get r c + (self.get r c + target.get r c))) output) output)

/-- Unary `operator-`. -/
def neg (self : Matrix α) : Matrix α :=
  let output : Matrix α := Matrix.new self.rows self.cols
  forRange self.rows (fun r output =>
    forRange self.cols (fun c output =>
      output.set r c (- self.get r c)) output) output

/-- Method `sub` (also binary `operator-`). -/
def sub (self target : Matrix α) : Except Err (Matrix α) :=
  let neg_target := target.neg
  self.add neg_target

/-- Method `transpose` (also `T`). -/
def transpose (self : Matrix α) : Matrix α :=
  let output : Matrix α := Matrix.new self.cols self.rows
  forRange self.rows (fun r output =>
    forRange self.cols (fun c output =>
      output.set c r (output.get c r + self.get r c)) output) output

/-- Method `apply_function`. -/
def apply_function (self : Matrix α) (function : α → α) : Matrix α :=
  let output : Matrix α := Matrix.new self.rows self.cols
  forRange self.rows (fun r output =>
    forRange self.cols (fun c output =>
      output.set r c (function (self.get r c))) output) output

/-- Method `fill_`, the one operation that writes into its receiver. -/
def fill_ (self : Matrix α) (val : α) : Matrix α :=
  forRange self.rows (fun r self =>
    forRange self.cols (fun c self => self.set r c val) self) self

end Ring

end Matrix

/-- Static `mtx<T>::randn(rows, cols)`: every cell of a fresh `Matrix(rows, cols)`, in row-major
order, receives the next draw of the generator created for this call.  The generator is the
stream `draw`; the second component of the loop state counts the draws made. -/
def mtx.randn {α : Type} [Zero α] (draw : Nat → α) (rows cols : Nat) : Matrix α :=
  let M : Matrix α := Matrix.new rows cols
  (forRange rows (fun r (s : Matrix α × Nat) =>
    forRange cols (fun c (s : Matrix α × Nat) => (s.1.set r c (draw s.2), s.2 + 1)) s) (M, 0)).1

/-- Static `mtx<T>::zeros`. -/
def mtx.zeros {α : Type} [Zero α] (rows cols : Nat) : Matrix α :=
  (Matrix.new rows cols : Matrix α).fill_ 0

/-- Static `mtx<T>::ones`. -/
def mtx.ones {α : Type} [Zero α] [One α] (rows cols : Nat) : Matrix α :=
  (Matrix.new rows cols : Matrix α).fill_ 1

end linalg

/-! ## Member functions with state -/

namespace linalg

/-- Outcome of a member function called on an object whose state has type `σ`: either it
returns `value`, or it stops with `e`; both carry the state of the object at that moment. -/
inductive Outcome (σ ρ : Type) where
  | ok (value : ρ) (state : σ)
  | fail (e : Err) (state : σ)

/-- A member function: from the state of the object before the call to its outcome. -/
def Method (σ ρ : Type) : Type := σ → Outcome σ ρ

namespace Method

variable {σ ρ τ β : Type}

/-- Returning a value leaves the state as it is. -/
def ret (r : ρ) : Method σ ρ := fun s => .ok r s

/-- Sequencing: the second part runs on the state the first one left; a stop ends the call. -/
def seq (x : Method σ ρ) (f : ρ → Method σ τ) : Method σ τ := fun s =>
  match x s with
  | .ok r s' => f r s'
  | .fail e s' => .fail e s'

instance : Monad (Method σ) where
  pure := ret
  bind := seq

/-- Evaluating an expression that may trip an `assert`. -/
def lift (x : Except Err ρ) : Method σ ρ := fun s =>
  match x with
  | .ok r => .ok r s
  | .error e => .fail e s

/-- Statement `assert(c)`. -/
def assert (c : σ → Bool) : Method σ Unit := fun s =>
  if c s then .ok () s else .fail .dimensionMismatch s

/-- Reading `v[i]` of a vector member `v`; out of range is undefined. -/
def index (v : σ → List β) (i : Nat) : Method σ β := fun s =>
  match (v s)[i]? with
  | some x => .ok x s
  | none => .fail .undefinedBehaviour s

/-- Reading `v.back()` of a vector member `v`; undefined on an empty vector. -/
def back (v : σ → List β) : Method σ β := fun s =>
  match (v s).getLast? with
  | some x => .ok x s
  | none => .fail .undefinedBehaviour s

/-- Reading a member. -/
def read (f : σ → ρ) : Method σ ρ := fun s => .ok (f s) s

/-- Assignment `v[i] = x` to an element of a vector member; out of range is undefined. -/
def assign (v : σ → List β) (put : σ → List β → σ) (i : Nat) (x : β) : Method σ Unit := fun s =>
  if i < (v s).length then .ok () (put s ((v s).set i x)) else .fail .undefinedBehaviour s

end Method

/-- Unsigned 64-bit subtraction, as in `v.size() - 1` on `size_t`. -/
def size_t_sub (a b : Nat) : Nat := (a + 2 ^ 64 - b % 2 ^ 64) % 2 ^ 64

/-- Conversion of a `size_t` to `int` (two's complement, 32 bits). -/
def to_int (v : Nat) : Int := ((v + 2 ^ 31) % 2 ^ 32 : Nat) - 2 ^ 31

/-- Method `std::vector::resize(n)`: truncates, or pads with default-constructed elements. -/
def resize {β : Type} (v : List β) (n : Nat) (dflt : β) : List β :=
  v.take n ++ List.replicate (n - v.length) dflt

end linalg

namespace nn

open linalg

variable {α : Type} [Zero α] [One α] [Add α] [Sub α] [Mul α] [Div α] [Neg α]

/-- Function `sigmoid`: `1.0 / (1 + exp(-x))`, with `exp` the library exponential. -/
def sigmoid (exp : α → α) (x : α) : α :=
  let result := 1 / (1 + exp (-x))
  result

/-- Function `d_sigmoid`: `x * (1 - x)`. -/
def d_sigmoid (x : α) : α := x * (1 - x)

/-- Class `MLP<T>`. -/
structure MLP (α : Type) where
  units_per_layer : List Nat
  bias_vectors : List (linalg.Matrix α)
  weight_matrices : List (linalg.Matrix α)
  activations : List (linalg.Matrix α)
  lr : α

namespace MLP

/-- Body of the constructor's loop `for (size_t i = 0; i < units_per_layer.size() - 1; i++)`;
`todo` is the number of iterations still to run.  `draw k` is the generator of the `k`-th call
of `randn`. -/
def ctorLoop (draw : Nat → Nat → α) : (todo : Nat) → (i : Nat) → MLP α → Except Err (MLP α)
  | 0, _, m => .ok m
  | todo + 1, i, m =>
    match m.units_per_layer[i + 1]?, m.units_per_layer[i]? with
    | some out_channels, some in_channels =>
      let W := mtx.randn (draw (2 * i)) out_channels in_channels
      let m := { m with weight_matrices := m.weight_matrices ++ [W] }
      let b := mtx.randn (draw (2 * i + 1)) out_channels 1
      let m := { m with bias_vectors := m.bias_vectors ++ [b] }
      let m := { m with
        activations := resize m.activations m.units_per_layer.length Matrix.empty }
      ctorLoop draw todo (i + 1) m
    | _, _ => .error .undefinedBehaviour

/-- Constructor `MLP(units_per_layer, lr)`. -/
def new (draw : Nat → Nat → α) (units_per_layer : List Nat) (lr : α) : Except Err (MLP α) :=
  ctorLoop draw (size_t_sub units_per_layer.length 1) 0
    { units_per_layer := units_per_layer, lr := lr, bias_vectors := [], weight_matrices := [],
      activations := [] }

/-- One iteration of the loop of `forward`, for layer `i`; returns the new `prev`. -/
def forwardStep (exp : α → α) (i : Nat) (prev : linalg.Matrix α) :
    Method (MLP α) (linalg.Matrix α) := do
  let W ← Method.index (fun m : MLP α => m.weight_matrices) i
  let y ← Method.lift (W.matmul prev)
  let b ← Method.index (fun m : MLP α => m.bias_vectors) i
  let y ← Method.lift (y.add b)
  let y := y.apply_function (sigmoid exp)
  Method.assign (fun m : MLP α => m.activations) (fun m a => { m with activations := a }) (i + 1) y
  pure y

/-- The loop `for (int i = 0; i < units_per_layer.size() - 1; ++i)` of `forward`; `todo` is the
number of iterations still to run.  The counter is exact for at most `2 ^ 31` widths. -/
def forwardLoop (exp : α → α) : (todo : Nat) → (i : Nat) → linalg.Matrix α →
    Method (MLP α) (linalg.Matrix α)
  | 0, _, prev => pure prev
  | todo + 1, i, prev => do
    let y ← forwardStep exp i prev
    forwardLoop exp todo (i + 1) y

/-- Method `forward` (also `operator()`). -/
def forward (exp : α → α) (x : linalg.Matrix α) : Method (MLP α) (linalg.Matrix α) := do
  let w0 ← Method.index (fun m : MLP α => m.units_per_layer) 0
  Method.assert (fun _ => decide (x.shape.1 = w0) && decide (x.shape.2 ≠ 0))
  Method.assign (fun m : MLP α => m.activations) (fun m a => { m with activations := a }) 0 x
  let prev := x
  let n ← Method.read (fun m : MLP α => size_t_sub m.units_per_layer.length 1)
  forwardLoop exp n 0 prev

/-- One iteration of the loop of `backprop`, for layer `i`; returns the new `error`. -/
def backpropStep (i : Nat) (error : linalg.Matrix α) : Method (MLP α) (linalg.Matrix α) := do
  let W ← Method.index (fun m : MLP α => m.weight_matrices) i
  let Wt := W.transpose
  let prev_errors ← Method.lift (Wt.matmul error)
  let a ← Method.index (fun m : MLP α => m.activations) (i + 1)
  let d_outputs := a.apply_function d_sigmoid
  let gradients ← Method.lift (error.multiply_elementwise d_outputs)
  let lr ← Method.read (fun m : MLP α => m.lr)
  let gradients := gradients.multiply_scalar lr
  let a ← Method.index (fun m : MLP α => m.activations) i
  let a_trans := a.transpose
  let weight_gradients ← Method.lift (gradients.matmul a_trans)
  let b ← Method.index (fun m : MLP α => m.bias_vectors) i
  let b ← Method.lift (b.add gradients)
  Method.assign (fun m : MLP α => m.bias_vectors) (fun m v => { m with bias_vectors := v }) i b
  let W ← Method.index (fun m : MLP α => m.weight_matrices) i
  let W ← Method.lift (W.add weight_gradients)
  Method.assign (fun m : MLP α => m.weight_matrices)
    (fun m v => { m with weight_matrices := v }) i W
  pure prev_errors

/-- The loop `for (int i = weight_matrices.size() - 1; i >= 0; --i)` of `backprop`, entered
with `i = k - 1`; it ends when `k = 0`. -/
def backpropLoop : (k : Nat) → linalg.Matrix α → Method (MLP α) Unit
  | 0, _ => pure ()
  | i + 1, error => do
    let prev_errors ← backpropStep i error
    backpropLoop i prev_errors

/-- Method `backprop`. -/
def backprop (target : linalg.Matrix α) : Method (MLP α) Unit := do
  let last ← Method.back (fun m : MLP α => m.units_per_layer)
  Method.assert (fun _ => decide (target.shape.1 = last))
  let y_hat ← Method.back (fun m : MLP α => m.activations)
  let error ← Method.lift (target.sub y_hat)
  let i ← Method.read (fun m : MLP α => to_int (size_t_sub m.weight_matrices.length 1))
  backpropLoop (i + 1).toNat error

/-- A network with widths `[w0, ..., wn]`, `n ≥ 1` (at most `2 ^ 31` of them, so that the `int`
loop counters are exact): `n` weight matrices and bias vectors, `n + 1` activation slots,
`weights[i]` of shape `(w(i+1), w(i))` and `biases[i]` of shape `(w(i+1), 1)`. -/
def WellShaped (m : MLP α) : Prop :=
  2 ≤ m.units_per_layer.length ∧ m.units_per_layer.length ≤ 2 ^ 31 ∧
  m.weight_matrices.length + 1 = m.units_per_layer.length ∧
  m.bias_vectors.length + 1 = m.units_per_layer.length ∧
  m.activations.length = m.units_per_layer.length ∧
  ∀ i < m.weight_matrices.length,
    (m.weight_matrices.getD i Matrix.empty).shape
      = (m.units_per_layer.getD (i + 1) 0, m.units_per_layer.getD i 0) ∧
    (m.weight_matrices.getD i Matrix.empty).WF ∧
    (m.bias_vectors.getD i Matrix.empty).shape = (m.units_per_layer.getD (i + 1) 0, 1) ∧
    (m.bias_vectors.getD i Matrix.empty).WF

instance (m : MLP α) : Decidable m.WellShaped := by unfold WellShaped; infer_instance

/-- The cache holds, for every layer boundary `j`, a well-formed column of height `w(j)`, as it
does after a completed `forward`. -/
def Cached (m : MLP α) : Prop :=
  ∀ j < m.activations.length,
    (m.activations.getD j Matrix.empty).shape = (m.units_per_layer.getD j 0, 1) ∧
    (m.activations.getD j Matrix.empty).WF

instance (m : MLP α) : Decidable m.Cached := by unfold Cached; infer_instance

/-- A column vector fitting the input layer. -/
def ValidInput (m : MLP α) (x : linalg.Matrix α) : Prop :=
  x.shape = (m.units_per_layer.getD 0 0, 1) ∧ x.WF

instance (m : MLP α) (x : linalg.Matrix α) : Decidable (m.ValidInput x) := by
  unfold ValidInput; infer_instance

/-- A column vector fitting the output layer. -/
def ValidTarget (m : MLP α) (t : linalg.Matrix α) : Prop :=
  t.shape = (m.units_per_layer.getD (m.units_per_layer.length - 1) 0, 1) ∧ t.WF

instance (m : MLP α) (t : linalg.Matrix α) : Decidable (m.ValidTarget t) := by
  unfold ValidTarget; infer_instance

/-- Slot `j + 1` of the cache holds `sigmoid` applied cell by cell to
`matmul(weights[j], activations[j]) + biases[j]`. -/
def LayerComputed (exp : α → α) (m : MLP α) (j : Nat) : Prop :=
  ∃ W b a p q, m.weight_matrices[j]? = some W ∧ m.bias_vectors[j]? = some b ∧
    m.activations[j]? = some a ∧ W.matmul a = .ok p ∧ p.add b = .ok q ∧
    m.activations[j + 1]? = some (q.apply_function (sigmoid exp))

/-- The two states agree on everything but the activation cache. -/
def SameParams (m m' : MLP α) : Prop :=
  m'.units_per_layer = m.units_per_layer ∧ m'.weight_matrices = m.weight_matrices ∧
  m'.bias_vectors = m.bias_vectors ∧ m'.lr = m.lr

/-- The error entering layer `n - 1 - k`, in the words of the specification:
`e(n-1) = target - activations[n]` and `e(i-1) = matmul(transpose(W(i)), e(i))`, with `W(i)`
read from the state `m` before the call. -/
def specError (m : MLP α) (target : linalg.Matrix α) : (k : Nat) → Except Err (linalg.Matrix α)
  | 0 => target.sub (m.activations.getD (m.units_per_layer.length - 1) Matrix.empty)
  | k + 1 => do
    let e ← specError m target k
    (m.weight_matrices.getD (m.units_per_layer.length - 2 - k) Matrix.empty).transpose.matmul e

/-- The update of layer `i`, in the words of the specification: with `e(i)` the error entering
the layer and `g(i) = lr * (e(i) elementwise-times d_sigmoid(activations[i+1]))`, the new state
`m'` has `biases[i] = biases[i] + g(i)` and
`weights[i] = weights[i] + matmul(g(i), transpose(activations[i]))`, all operands read from the
state `m` before the call. -/
def specLayerUpdate (m m' : MLP α) (target : linalg.Matrix α) (i : Nat) : Prop :=
  ∃ e g0 wg b' W',
    specError m target (m.units_per_layer.length - 2 - i) = .ok e ∧
    e.multiply_elementwise
      ((m.activations.getD (i + 1) Matrix.empty).apply_function d_sigmoid) = .ok g0 ∧
    (g0.multiply_scalar m.lr).matmul (m.activations.getD i Matrix.empty).transpose = .ok wg ∧
    (m.bias_vectors.getD i Matrix.empty).add (g0.multiply_scalar m.lr) = .ok b' ∧
    m'.bias_vectors[i]? = some b' ∧
    (m.weight_matrices.getD i Matrix.empty).add wg = .ok W' ∧
    m'.weight_matrices[i]? = some W'

/-- One pass of the body of the training loop of `main`: `model.forward(x)` followed by
`model.backprop(y)`; the sample `(x, y)` is given and the logging is left out.  Returns the
prediction. -/
def trainStep (exp : α → α) (x y : linalg.Matrix α) : Method (MLP α) (linalg.Matrix α) := do
  let y_hat ← forward exp x
  backprop y
  pure y_hat

/-- The training loop of `main`, run over a given sequence of samples `(x, y)`. -/
def trainLoop (exp : α → α) : List (linalg.Matrix α × linalg.Matrix α) → Method (MLP α) Unit
  | [] => pure ()
  | (x, y) :: rest => do
    let _ ← trainStep exp x y
    trainLoop exp rest

end MLP

end nn

/-! ## The scalar type `double` -/

namespace ieee

/-- Values of the C++ type `double` (IEEE 754 binary64): a finite number, an infinity or a NaN.
A finite value is carried as the rational number it denotes; every operation rounds its exact
result with `round`, and the rationals `q` that are doubles are those with `round q = fin q`.
The two zeros are identified (their sign matters only when dividing by zero, where the zero is
taken as `+0`) and the payload of a NaN is ignored. -/
inductive Double where
  | fin (q : ℚ)
  | pinf
  | ninf
  | nan
  deriving DecidableEq

namespace Double

/-- Rounding to the nearest integer, ties to the even one. -/
def roundHalfEven (x : ℚ) : ℤ :=
  let f := ⌊x⌋
  if x - f < 1 / 2 then f
  else if 1 / 2 < x - f then f + 1
  else if f % 2 = 0 then f else f + 1

/-- Rounding of an exact result to binary64, to nearest with ties to even: 53 significant bits,
least exponent `-1022` (below it the spacing stays `2 ^ (-1074)`, gradual underflow), and
overflow to an infinity once the rounded magnitude reaches `2 ^ 1024`. -/
def round (q : ℚ) : Double :=
  let e : ℤ := max (Int.log 2 |q|) (-1022)
  let ulp : ℚ := 2 ^ (e - 52)
  let r : ℚ := roundHalfEven (q / ulp) * ulp
  if 2 ^ (1024 : ℤ) ≤ r then pinf
  else if r ≤ -2 ^ (1024 : ℤ) then ninf
  else fin r

/-- Unary minus. -/
def neg : Double → Double
  | fin a => fin (-a)
  | pinf => ninf
  | ninf => pinf
  | nan => nan

/-- Addition: the exact sum, rounded; `inf + (-inf)` is a NaN. -/
def add : Double → Double → Double
  | fin a, fin b => round (a + b)
  | nan, _ => nan
  | _, nan => nan
  | pinf, ninf => nan
  | ninf, pinf => nan
  | pinf, _ => pinf
  | _, pinf => pinf
  | ninf, _ => ninf
  | _, ninf => ninf

/-- Subtraction `a - b`, the same operation as `a + (-b)`. -/
def sub (a b : Double) : Double := add a (neg b)

/-- Multiplication: the exact product, rounded; `0 * inf` is a NaN. -/
def mul : Double → Double → Double
  | fin a, fin b => round (a * b)
  | nan, _ => nan
  | _, nan => nan
  | fin a, pinf => if a = 0 then nan else if 0 < a then pinf else ninf
  | fin a, ninf => if a = 0 then nan else if 0 < a then ninf else pinf
  | pinf, fin b => if b = 0 then nan else if 0 < b then pinf else ninf
  | ninf, fin b => if b = 0 then nan else if 0 < b then ninf else pinf
  | pinf, pinf => pinf
  | ninf, ninf => pinf
  | pinf, ninf => ninf
  | ninf, pinf => ninf

/-- Division: the exact quotient, rounded; `0 / 0` and `inf / inf` are NaNs, a nonzero number
over zero is an infinity, a finite number over an infinity is zero. -/
def div : Double → Double → Double
  | fin a, fin b =>
    if b = 0 then (if a = 0 then nan else if 0 < a then pinf else ninf) else round (a / b)
  | nan, _ => nan
  | _, nan => nan
  | fin _, pinf => fin 0
  | fin _, ninf => fin 0
  | pinf, fin b => if 0 ≤ b then pinf else ninf
  | ninf, fin b => if 0 ≤ b then ninf else pinf
  | pinf, pinf => nan
  | pinf, ninf => nan
  | ninf, pinf => nan
  | ninf, ninf => nan

instance : Zero Double := ⟨fin 0⟩

instance : One Double := ⟨fin 1⟩

instance : Neg Double := ⟨neg⟩

instance : Add Double := ⟨add⟩

instance : Sub Double := ⟨sub⟩

instance : Mul Double := ⟨mul⟩

instance : Div Double := ⟨div⟩

/-- What the results below use of the C library function `exp` on `double` arguments: it never
returns a negative number or `-inf`, so each result is a NaN, `+inf` or a non-negative finite
number. -/
def LibExp (exp : Double → Double) : Prop :=
  ∀ s : Double, exp s = nan ∨ exp s = pinf ∨ ∃ e : ℚ, exp s = fin e ∧ 0 ≤ e

/-- A library function known at one argument only: `b` at `a`, a NaN elsewhere.  It supplies
the one value of `exp` that a worked instance reads. -/
def single (a b : Double) : Double → Double := fun s => if s = a then b else nan

/-- The value lies in the closed interval `[0, 1]`. -/
def InUnit (s : Double) : Prop := ∃ q : ℚ, s = fin q ∧ 0 ≤ q ∧ q ≤ 1

end Double

end ieee

/-! ## Loops that write one buffer cell per iteration -/

namespace linalg

section Buffer

variable {α : Type} {ι : Type}

theorem forRange_inv {σ : Type} (P : σ → Prop) (n : Nat) (body : Nat → σ → σ) (init : σ)
    (hstep : ∀ i s, P s → P (body i s)) (h0 : P init) : P (forRange n body init) := by
  unfold forRange
  generalize List.range n = l
  induction l generalizing init with
  | nil => simpa using h0
  | cons a l ih => simpa using ih _ (hstep a init h0)

theorem forRange_congr_inv {σ : Type} (P : σ → Prop) (n : Nat) (b1 b2 : Nat → σ → σ) (init : σ)
    (hstep : ∀ i s, P s → P (b2 i s)) (heq : ∀ i s, P s → b1 i s = b2 i s) (h0 : P init) :
    forRange n b1 init = forRange n b2 init := by
  unfold forRange
  generalize List.range n = l
  induction l generalizing init with
  | nil => rfl
  | cons a l ih =>
    rw [List.foldl_cons, List.foldl_cons, heq a init h0]
    exact ih _ (hstep a init h0)

theorem foldl_foldl_product {σ κ : Type} (L1 : List ι) (L2 : List κ) (body : ι → κ → σ → σ)
    (s : σ) :
    L1.foldl (fun s r => L2.foldl (fun s c => body r c s) s) s
      = (L1 ×ˢ L2).foldl (fun s rc => body rc.1 rc.2 s) s := by
  induction L1 generalizing s with
  | nil => simp
  | cons a L1 ih =>
    rw [List.product_cons, List.foldl_append, List.foldl_map, List.foldl_cons, ih]

theorem set_getD_self [Zero α] (d : List α) (i : Nat) : d.set i (d.getD i 0) = d := by
  apply List.ext_getElem?
  intro n
  rw [List.getElem?_set]
  by_cases h : i = n
  · subst h
    by_cases hl : i < d.length
    · simp [hl, List.getD_eq_getElem?_getD]
    · simp [hl, List.getElem?_eq_none (Nat.le_of_not_lt hl)]
  · simp [h]

theorem getD_set_self [Zero α] (d : List α) (i : Nat) (v : α) (h : i < d.length) :
    (d.set i v).getD i 0 = v := by
  simp [List.getD_eq_getElem?_getD, h]

theorem getD_set_ne [Zero α] (d : List α) (i j : Nat) (v : α) (h : i ≠ j) :
    (d.set i v).getD j 0 = d.getD j 0 := by
  simp [List.getD_eq_getElem?_getD, List.getElem?_set_ne h]

/-- A loop of single-cell writes keeps the length of the buffer. -/
theorem foldl_set_length (l : List ι) (p : ι → Nat) (h : ι → List α → α) (d : List α) :
    (l.foldl (fun d i => d.set (p i) (h i d)) d).length = d.length := by
  induction l generalizing d with
  | nil => rfl
  | cons a l ih => simp [List.foldl_cons, ih]

/-- A cell that no iteration addresses keeps its value. -/
theorem foldl_set_getD_other [Zero α] (l : List ι) (p : ι → Nat) (h : ι → List α → α)
    (d : List α) (j : Nat) (hj : ∀ i ∈ l, p i ≠ j) :
    (l.foldl (fun d i => d.set (p i) (h i d)) d).getD j 0 = d.getD j 0 := by
  induction l generalizing d with
  | nil => rfl
  | cons a l ih =>
    rw [List.foldl_cons, ih _ (fun i hi => hj i (List.mem_cons_of_mem _ hi)),
      getD_set_ne _ _ _ _ (hj a (List.mem_cons_self _ _))]

/-- When distinct iterations address distinct cells, the cell of iteration `i` ends up holding
the value iteration `i` computes from the initial content of that cell. -/
theorem foldl_set_getD_mem [Zero α] (l : List ι) (p : ι → Nat) (g : ι → α → α) (d : List α)
    (hnd : l.Nodup) (hinj : ∀ x ∈ l, ∀ y ∈ l, p x = p y → x = y)
    (i : ι) (hi : i ∈ l) (hlt : p i < d.length) :
    (l.foldl (fun d i => d.set (p i) (g i (d.getD (p i) 0))) d).getD (p i) 0
      = g i (d.getD (p i) 0) := by
  induction l generalizing d with
  | nil => simp at hi
  | cons a l ih =>
    rw [List.foldl_cons]
    have hnd' := (List.nodup_cons.mp hnd)
    have hinj' : ∀ x ∈ l, ∀ y ∈ l, p x = p y → x = y := fun x hx y hy =>
      hinj x (List.mem_cons_of_mem _ hx) y (List.mem_cons_of_mem _ hy)
    rcases List.mem_cons.mp hi with rfl | hi'
    · rw [foldl_set_getD_other l p (fun i d => g i (d.getD (p i) 0))]
      · exact getD_set_self _ _ _ hlt
      · intro j hj hpj
        have := hinj j (List.mem_cons_of_mem _ hj) i (List.mem_cons_self _ _) hpj
        exact hnd'.1 (this ▸ hj)
    · have hne : p a ≠ p i := by
        intro hpa
        have := hinj a (List.mem_cons_self _ _) i hi hpa
        exact hnd'.1 (this ▸ hi')
      rw [ih _ hnd'.2 hinj' hi' (by simpa using hlt), getD_set_ne _ _ _ _ hne]

end Buffer

end linalg

/-! ## Cell-wise loop nests over a matrix -/

namespace linalg

namespace Matrix

section Cells

variable {α : Type} {ι : Type}

theorem idx_inj {C r c r' c' : Nat} (hc : c < C) (hc' : c' < C)
    (h : r * C + c = r' * C + c') : r = r' ∧ c = c' := by
  have hC : 0 < C := Nat.lt_of_le_of_lt (Nat.zero_le _) hc
  have h1 : (r * C + c) / C = r := by
    rw [Nat.mul_comm, Nat.mul_add_div hC, Nat.div_eq_of_lt hc, Nat.add_zero]
  have h2 : (r' * C + c') / C = r' := by
    rw [Nat.mul_comm, Nat.mul_add_div hC, Nat.div_eq_of_lt hc', Nat.add_zero]
  have hr : r = r' := by rw [← h1, ← h2, h]
  subst hr
  exact ⟨rfl, Nat.add_left_cancel h⟩

theorem idx_lt {R C r c : Nat} (hr : r < R) (hc : c < C) : r * C + c < R * C := by
  calc r * C + c < r * C + C := Nat.add_lt_add_left hc _
    _ = (r + 1) * C := by rw [Nat.add_mul, Nat.one_mul]
    _ ≤ R * C := Nat.mul_le_mul_right _ hr

@[simp] theorem set_cols (m : Matrix α) (r c : Nat) (v : α) : (m.set r c v).cols = m.cols := rfl

@[simp] theorem set_rows (m : Matrix α) (r c : Nat) (v : α) : (m.set r c v).rows = m.rows := rfl

@[simp] theorem new_cols [Zero α] (R C : Nat) : (Matrix.new R C : Matrix α).cols = C := rfl

@[simp] theorem new_rows [Zero α] (R C : Nat) : (Matrix.new R C : Matrix α).rows = R := rfl

theorem new_length [Zero α] (R C : Nat) : (Matrix.new R C : Matrix α).data.length = R * C := by
  simp [Matrix.new, Nat.mul_comm]

theorem new_get [Zero α] (R C r c : Nat) : (Matrix.new R C : Matrix α).get r c = 0 := by
  simp only [Matrix.get, Matrix.new, List.getD_eq_getElem?_getD, List.getElem?_replicate]
  split <;> rfl

/-- A loop whose iterations each rewrite one cell from its current content acts on the buffer
alone. -/
theorem foldl_cell [Zero α] (l : List ι) (ρ κ : ι → Nat) (g : ι → α → α) (out : Matrix α) :
    l.foldl (fun out i => out.set (ρ i) (κ i) (g i (out.get (ρ i) (κ i)))) out
      = { out with data := (l.foldl (fun d i => d.set (ρ i * out.cols + κ i)
            (g i (d.getD (ρ i * out.cols + κ i) 0))) out.data) } := by
  induction l generalizing out with
  | nil => rfl
  | cons a l ih =>
    rw [List.foldl_cons, ih]
    rfl

/-- The two nested `for` loops over `r < R` and `c < C`, each iteration rewriting the cell
`(ρ r c, κ r c)`. -/
theorem loop2_eq [Zero α] (R C : Nat) (ρ κ : Nat → Nat → Nat) (g : Nat → Nat → α → α)
    (out : Matrix α) :
    forRange R (fun r out => forRange C (fun c out =>
        out.set (ρ r c) (κ r c) (g r c (out.get (ρ r c) (κ r c)))) out) out
      = { out with data := ((List.range R ×ˢ List.range C).foldl
            (fun d rc => d.set (ρ rc.1 rc.2 * out.cols + κ rc.1 rc.2)
              (g rc.1 rc.2 (d.getD (ρ rc.1 rc.2 * out.cols + κ rc.1 rc.2) 0))) out.data) } := by
  unfold forRange
  rw [foldl_foldl_product (List.range R) (List.range C)
    (fun r c out => out.set (ρ r c) (κ r c) (g r c (out.get (ρ r c) (κ r c)))) out]
  exact foldl_cell (List.range R ×ˢ List.range C) (fun rc => ρ rc.1 rc.2) (fun rc => κ rc.1 rc.2)
    (fun rc => g rc.1 rc.2) out

/-- Shape and content of the result of a loop nest that rewrites cell `(ρ r c, κ r c)` at
iteration `(r, c)`, when distinct iterations address distinct cells inside the buffer. -/
theorem loop2_spec [Zero α] (R C : Nat) (ρ κ : Nat → Nat → Nat) (g : Nat → Nat → α → α)
    (out : Matrix α)
    (hinj : ∀ r < R, ∀ c < C, ∀ r' < R, ∀ c' < C,
      ρ r c * out.cols + κ r c = ρ r' c' * out.cols + κ r' c' → r = r' ∧ c = c')
    (hlt : ∀ r < R, ∀ c < C, ρ r c * out.cols + κ r c < out.data.length) :
    (forRange R (fun r out => forRange C (fun c out =>
        out.set (ρ r c) (κ r c) (g r c (out.get (ρ r c) (κ r c)))) out) out).rows = out.rows ∧
    (forRange R (fun r out => forRange C (fun c out =>
        out.set (ρ r c) (κ r c) (g r c (out.get (ρ r c) (κ r c)))) out) out).cols = out.cols ∧
    (forRange R (fun r out => forRange C (fun c out =>
        out.set (ρ r c) (κ r c) (g r c (out.get (ρ r c) (κ r c)))) out) out).data.length
        = out.data.length ∧
    ∀ r < R, ∀ c < C,
      (forRange R (fun r out => forRange C (fun c out =>
        out.set (ρ r c) (κ r c) (g r c (out.get (ρ r c) (κ r c)))) out) out).get (ρ r c) (κ r c)
        = g r c (out.get (ρ r c) (κ r c)) := by
  rw [loop2_eq]
  refine ⟨rfl, rfl, ?_, ?_⟩
  · exact foldl_set_length (List.range R ×ˢ List.range C)
      (fun rc => ρ rc.1 rc.2 * out.cols + κ rc.1 rc.2)
      (fun rc d => g rc.1 rc.2 (d.getD (ρ rc.1 rc.2 * out.cols + κ rc.1 rc.2) 0)) out.data
  · intro r hr c hc
    have hmem : (r, c) ∈ List.range R ×ˢ List.range C := by
      simp [List.mem_product, hr, hc]
    exact foldl_set_getD_mem (List.range R ×ˢ List.range C)
      (fun rc => ρ rc.1 rc.2 * out.cols + κ rc.1 rc.2) (fun rc => g rc.1 rc.2) out.data
      ((List.nodup_range R).product (List.nodup_range C))
      (by
        rintro ⟨x1, x2⟩ hx ⟨y1, y2⟩ hy hxy
        simp only [List.mem_product, List.mem_range] at hx hy
        obtain ⟨h1, h2⟩ := hinj x1 hx.1 x2 hx.2 y1 hy.1 y2 hy.2 hxy
        rw [h1, h2])
      (r, c) hmem (hlt r hr c hc)

end Cells

end Matrix

end linalg

/-! ## What each matrix operation computes -/

namespace linalg

namespace Matrix

section Shapes

variable {α : Type}

/-- The loop nest of the cell-wise methods, run on a fresh `Matrix(R, C)`. -/
theorem cellwise_new [Zero α] (R C : Nat) (g : Nat → Nat → α → α) :
    (forRange R (fun r out => forRange C (fun c out =>
        out.set r c (g r c (out.get r c))) out) (Matrix.new R C : Matrix α)).rows = R ∧
    (forRange R (fun r out => forRange C (fun c out =>
        out.set r c (g r c (out.get r c))) out) (Matrix.new R C : Matrix α)).cols = C ∧
    (forRange R (fun r out => forRange C (fun c out =>
        out.set r c (g r c (out.get r c))) out) (Matrix.new R C : Matrix α)).data.length
        = R * C ∧
    ∀ r < R, ∀ c < C,
      (forRange R (fun r out => forRange C (fun c out =>
        out.set r c (g r c (out.get r c))) out) (Matrix.new R C : Matrix α)).get r c
        = g r c 0 := by
  have h := loop2_spec R C (fun r _ => r) (fun _ c => c) g (Matrix.new R C : Matrix α)
    (fun r _ c hc r' _ c' hc' he => idx_inj hc hc' he)
    (fun r hr c hc => by rw [new_length]; exact idx_lt hr hc)
  refine ⟨h.1, h.2.1, h.2.2.1.trans (new_length R C), ?_⟩
  intro r hr c hc
  rw [h.2.2.2 r hr c hc, new_get]

/-- The loop nest of `transpose`, run on a fresh `Matrix(C, R)`. -/
theorem cellwise_new_swap [Zero α] (R C : Nat) (g : Nat → Nat → α → α) :
    (forRange R (fun r out => forRange C (fun c out =>
        out.set c r (g r c (out.get c r))) out) (Matrix.new C R : Matrix α)).rows = C ∧
    (forRange R (fun r out => forRange C (fun c out =>
        out.set c r (g r c (out.get c r))) out) (Matrix.new C R : Matrix α)).cols = R ∧
    (forRange R (fun r out => forRange C (fun c out =>
        out.set c r (g r c (out.get c r))) out) (Matrix.new C R : Matrix α)).data.length
        = C * R ∧
    ∀ r < R, ∀ c < C,
      (forRange R (fun r out => forRange C (fun c out =>
        out.set c r (g r c (out.get c r))) out) (Matrix.new C R : Matrix α)).get c r
        = g r c 0 := by
  have h := loop2_spec R C (fun _ c => c) (fun r _ => r) g (Matrix.new C R : Matrix α)
    (fun r hr c _ r' hr' c' _ he => (idx_inj hr hr' he).symm)
    (fun r hr c hc => by rw [new_length]; exact idx_lt hc hr)
  refine ⟨h.1, h.2.1, h.2.2.1.trans (new_length C R), ?_⟩
  intro r hr c hc
  rw [h.2.2.2 r hr c hc, new_get]

/-- The innermost loop of `matmul` accumulates into the single cell `(r, c)`. -/
theorem foldl_acc_cell [Zero α] [Add α] (K : List Nat) (r c : Nat) (f : Nat → α) (out : Matrix α) :
    K.foldl (fun out k => out.set r c (out.get r c + f k)) out
      = out.set r c (K.foldl (fun acc k => acc + f k) (out.get r c)) := by
  induction K generalizing out with
  | nil =>
    simp only [List.foldl_nil, Matrix.set, Matrix.get]
    rw [set_getD_self]
  | cons k K ih =>
    rw [List.foldl_cons, ih, List.foldl_cons]
    by_cases hb : r * out.cols + c < out.data.length
    · simp only [Matrix.set, Matrix.get, List.set_set]
      rw [getD_set_self _ _ _ hb]
    · have hle := Nat.le_of_not_lt hb
      simp only [Matrix.set, Matrix.get, List.set_eq_of_length_le hle]

/-- The loop nest of `matmul` is a cell-wise loop nest whose cell `(r, c)` accumulates the
products `self(r, k) * target(k, c)`. -/
theorem matmul_loop_eq [Zero α] [Add α] [Mul α] (A B : Matrix α) :
    forRange (Matrix.new A.rows B.cols : Matrix α).rows (fun r output =>
      forRange output.cols (fun c output =>
        forRange B.rows (fun k output =>
          output.set r c (output.get r c + A.get r k * B.get k c)) output) output)
        (Matrix.new A.rows B.cols)
      = forRange A.rows (fun r out => forRange B.cols (fun c out =>
          out.set r c ((fun r c v => (List.range B.rows).foldl
            (fun acc k => acc + A.get r k * B.get k c) v) r c (out.get r c))) out)
          (Matrix.new A.rows B.cols) := by
  apply forRange_congr_inv (fun s : Matrix α => s.cols = B.cols)
  · intro r s hs
    exact forRange_inv (fun s : Matrix α => s.cols = B.cols) _ _ _ (fun c s hs => hs) hs
  · intro r s hs
    rw [hs]
    congr 1
    funext c out
    exact foldl_acc_cell (List.range B.rows) r c (fun k => A.get r k * B.get k c) out
  · rfl

/-- On matching inner dimensions `matmul` returns a well-formed matrix of shape
`(A.rows, B.cols)`; its cell `(r, c)` accumulates the products in index order, from zero. -/
theorem matmul_shape [Zero α] [Add α] [Mul α] (A B : Matrix α) (h : A.cols = B.rows) :
    ∃ M, A.matmul B = .ok M ∧ M.rows = A.rows ∧ M.cols = B.cols ∧ M.WF ∧
      ∀ r < A.rows, ∀ c < B.cols,
        M.get r c = (List.range B.rows).foldl (fun acc k => acc + A.get r k * B.get k c) 0 := by
  refine ⟨_, by simp only [matmul, h, ne_eq, not_true_eq_false, if_false]; rfl, ?_⟩
  rw [matmul_loop_eq]
  have hs := cellwise_new A.rows B.cols (fun r c v => (List.range B.rows).foldl
            (fun acc k => acc + A.get r k * B.get k c) v)
  refine ⟨hs.1, hs.2.1, ?_, hs.2.2.2⟩
  unfold WF
  rw [hs.2.2.1, hs.1, hs.2.1]

/-- On equal shapes `add` returns a well-formed matrix of that shape; its cell `(r, c)` is the
sum of the two cells, added to the zero of the fresh buffer. -/
theorem add_shape [Zero α] [Add α] (A B : Matrix α) (h : A.shape = B.shape) :
    ∃ M, A.add B = .ok M ∧ M.rows = A.rows ∧ M.cols = A.cols ∧ M.WF ∧
      ∀ r < A.rows, ∀ c < A.cols, M.get r c = 0 + (A.get r c + B.get r c) := by
  refine ⟨_, by simp only [add, h, ne_eq, not_true_eq_false, if_false]; rfl, ?_⟩
  have hs := cellwise_new A.rows A.cols (fun r c v => v + (A.get r c + B.get r c))
  refine ⟨hs.1, hs.2.1, ?_, hs.2.2.2⟩
  exact hs.2.2.1.trans (congrArg₂ (· * ·) hs.1.symm hs.2.1.symm)

theorem apply_function_spec [Zero α] (A : Matrix α) (f : α → α) :
    (A.apply_function f).rows = A.rows ∧ (A.apply_function f).cols = A.cols ∧
    (A.apply_function f).WF ∧
    ∀ r < A.rows, ∀ c < A.cols, (A.apply_function f).get r c = f (A.get r c) := by
  have hs := cellwise_new A.rows A.cols (fun r c _ => f (A.get r c))
  refine ⟨hs.1, hs.2.1, ?_, hs.2.2.2⟩
  exact hs.2.2.1.trans (congrArg₂ (· * ·) hs.1.symm hs.2.1.symm)

end Shapes

section Ops

variable {α : Type} [CommRing α]

/-- Accumulating from zero in index order gives the finite sum. -/
theorem foldl_acc_sum (n : Nat) (f : Nat → α) :
    (List.range n).foldl (fun acc k => acc + f k) 0 = ∑ k in Finset.range n, f k := by
  induction n with
  | zero => simp
  | succ n ih => rw [List.range_succ, List.foldl_concat, ih, Finset.sum_range_succ]

theorem matmul_err (A B : Matrix α) (h : A.cols ≠ B.rows) :
    A.matmul B = .error .dimensionMismatch := by
  simp [matmul, h]

/-- On matching inner dimensions `matmul` returns a well-formed matrix of shape
`(A.rows, B.cols)` whose entries are the row-by-column sums. -/
theorem matmul_spec (A B : Matrix α) (h : A.cols = B.rows) :
    ∃ M, A.matmul B = .ok M ∧ M.rows = A.rows ∧ M.cols = B.cols ∧ M.WF ∧
      ∀ r < A.rows, ∀ c < B.cols,
        M.get r c = ∑ k in Finset.range A.cols, A.get r k * B.get k c := by
  refine ⟨_, by simp only [matmul, h, ne_eq, not_true_eq_false, if_false]; rfl, ?_⟩
  rw [matmul_loop_eq]
  have hs := cellwise_new A.rows B.cols (fun r c v => (List.range B.rows).foldl
            (fun acc k => acc + A.get r k * B.get k c) v)
  refine ⟨hs.1, hs.2.1, ?_, ?_⟩
  · unfold WF
    rw [hs.2.2.1, hs.1, hs.2.1]
  · intro r hr c hc
    rw [hs.2.2.2 r hr c hc, h]
    exact foldl_acc_sum B.rows (fun k => A.get r k * B.get k c)

theorem multiply_elementwise_err (A B : Matrix α) (h : A.shape ≠ B.shape) :
    A.multiply_elementwise B = .error .dimensionMismatch := by
  unfold multiply_elementwise
  by_cases hr : A.rows = B.rows
  · have hc : A.cols ≠ B.cols := fun hc => h (by simp [shape, hr, hc])
    simp [hr, hc]
  · simp [hr]

theorem multiply_elementwise_spec (A B : Matrix α) (h : A.shape = B.shape) :
    ∃ M, A.multiply_elementwise B = .ok M ∧ M.rows = A.rows ∧ M.cols = A.cols ∧ M.WF ∧
      ∀ r < A.rows, ∀ c < A.cols, M.get r c = A.get r c * B.get r c := by
  have hr : A.rows = B.rows := congrArg Prod.fst h
  have hc : A.cols = B.cols := congrArg Prod.snd h
  refine ⟨_, by
    simp only [multiply_elementwise, hr, hc, ne_eq, not_true_eq_false, if_false]; rfl, ?_⟩
  have hs := cellwise_new B.rows B.cols (fun r c v => v + A.get r c * B.get r c)
  rw [hr, hc]
  refine ⟨hs.1, hs.2.1, ?_, ?_⟩
  · unfold WF
    rw [hs.2.2.1, hs.1, hs.2.1]
  · intro r hr c hc
    rw [hs.2.2.2 r hr c hc, zero_add]

theorem multiply_scalar_spec (A : Matrix α) (s : α) :
    (A.multiply_scalar s).rows = A.rows ∧ (A.multiply_scalar s).cols = A.cols ∧
    (A.multiply_scalar s).WF ∧
    ∀ r < A.rows, ∀ c < A.cols, (A.multiply_scalar s).get r c = A.get r c * s := by
  have hs := cellwise_new A.rows A.cols (fun r c v => v + A.get r c * s)
  refine ⟨hs.1, hs.2.1, ?_, ?_⟩
  · exact hs.2.2.1.trans (congrArg₂ (· * ·) hs.1.symm hs.2.1.symm)
  · intro r hr c hc
    exact (hs.2.2.2 r hr c hc).trans (zero_add _)

theorem add_err (A B : Matrix α) (h : A.shape ≠ B.shape) :
    A.add B = .error .dimensionMismatch := by
  simp [add, h]

theorem add_spec (A B : Matrix α) (h : A.shape = B.shape) :
    ∃ M, A.add B = .ok M ∧ M.rows = A.rows ∧ M.cols = A.cols ∧ M.WF ∧
      ∀ r < A.rows, ∀ c < A.cols, M.get r c = A.get r c + B.get r c := by
  refine ⟨_, by simp only [add, h, ne_eq, not_true_eq_false, if_false]; rfl, ?_⟩
  have hs := cellwise_new A.rows A.cols (fun r c v => v + (A.get r c + B.get r c))
  refine ⟨hs.1, hs.2.1, ?_, ?_⟩
  · exact hs.2.2.1.trans (congrArg₂ (· * ·) hs.1.symm hs.2.1.symm)
  · intro r hr c hc
    exact (hs.2.2.2 r hr c hc).trans (zero_add _)

theorem neg_spec (A : Matrix α) :
    A.neg.rows = A.rows ∧ A.neg.cols = A.cols ∧ A.neg.WF ∧
    ∀ r < A.rows, ∀ c < A.cols, A.neg.get r c = - A.get r c := by
  have hs := cellwise_new A.rows A.cols (fun r c _ => - A.get r c)
  refine ⟨hs.1, hs.2.1, ?_, hs.2.2.2⟩
  exact hs.2.2.1.trans (congrArg₂ (· * ·) hs.1.symm hs.2.1.symm)

theorem transpose_spec (A : Matrix α) :
    A.transpose.rows = A.cols ∧ A.transpose.cols = A.rows ∧ A.transpose.WF ∧
    ∀ r < A.rows, ∀ c < A.cols, A.transpose.get c r = A.get r c := by
  have hs := cellwise_new_swap A.rows A.cols (fun r c v => v + A.get r c)
  refine ⟨hs.1, hs.2.1, ?_, ?_⟩
  · exact hs.2.2.1.trans (congrArg₂ (· * ·) hs.1.symm hs.2.1.symm)
  · intro r hr c hc
    exact (hs.2.2.2 r hr c hc).trans (zero_add _)

theorem sub_err (A B : Matrix α) (h : A.shape ≠ B.shape) :
    A.sub B = .error .dimensionMismatch := by
  unfold sub
  apply add_err
  simpa [shape, (neg_spec B).1, (neg_spec B).2.1] using h

theorem sub_spec (A B : Matrix α) (h : A.shape = B.shape) :
    ∃ M, A.sub B = .ok M ∧ M.rows = A.rows ∧ M.cols = A.cols ∧ M.WF ∧
      ∀ r < A.rows, ∀ c < A.cols, M.get r c = A.get r c - B.get r c := by
  have hr : A.rows = B.rows := congrArg Prod.fst h
  have hc : A.cols = B.cols := congrArg Prod.snd h
  obtain ⟨M, hM, h1, h2, h3, h4⟩ := add_spec A B.neg
    (by simpa [shape, (neg_spec B).1, (neg_spec B).2.1] using h)
  refine ⟨M, hM, h1, h2, h3, ?_⟩
  intro r hr' c hc'
  rw [h4 r hr' c hc', (neg_spec B).2.2.2 r (hr ▸ hr') c (hc ▸ hc'), sub_eq_add_neg]

/-- Two well-formed matrices of one shape with equal entries are equal. -/
theorem ext_get {A B : Matrix α} (hA : A.WF) (hB : B.WF) (hr : A.rows = B.rows)
    (hc : A.cols = B.cols) (h : ∀ r < A.rows, ∀ c < A.cols, A.get r c = B.get r c) : A = B := by
  obtain ⟨ac, ar, ad⟩ := A
  obtain ⟨bc, br, bd⟩ := B
  simp only at hr hc
  subst hr hc
  simp only [WF] at hA hB
  have hd : ad = bd := by
    apply List.ext_getElem (hA.trans hB.symm)
    intro n h1 h2
    have hn : n < ar * ac := hA ▸ h1
    have hpos : 0 < ac := by
      rcases Nat.eq_zero_or_pos ac with h0 | h0
      · rw [h0, Nat.mul_zero] at hn; exact absurd hn (Nat.not_lt_zero _)
      · exact h0
    have hdiv : n / ac < ar := (Nat.div_lt_iff_lt_mul hpos).mpr hn
    have hmod : n % ac < ac := Nat.mod_lt _ hpos
    have hidx : n / ac * ac + n % ac = n := by
      rw [Nat.mul_comm]; exact Nat.div_add_mod n ac
    have := h (n / ac) hdiv (n % ac) hmod
    simp only [get, hidx, List.getD_eq_getElem?_getD, List.getElem?_eq_getElem h1,
      List.getElem?_eq_getElem h2, Option.getD_some] at this
    exact this
  rw [hd]

/-- C5: `matmul(A, B)` returns exactly when `A.cols == B.rows` (and stops with a dimension
mismatch otherwise); the matrix it returns has shape `(A.rows, B.cols)`, its entry `(r, c)` is
the sum over `k < A.cols` of `A[r,k] * B[k,c]`, and it is the all-zero matrix when
`A.cols == 0`. -/
theorem matmul_contract (A B : Matrix α) :
    ((∃ M, A.matmul B = .ok M) ↔ A.cols = B.rows) ∧
    (A.cols ≠ B.rows → A.matmul B = .error .dimensionMismatch) ∧
    ∀ M, A.matmul B = .ok M →
      M.shape = (A.rows, B.cols) ∧ M.WF ∧
      (∀ r < A.rows, ∀ c < B.cols,
        M.get r c = ∑ k in Finset.range A.cols, A.get r k * B.get k c) ∧
      (A.cols = 0 → M = Matrix.new A.rows B.cols) := by
  refine ⟨⟨?_, ?_⟩, matmul_err A B, ?_⟩
  · rintro ⟨M, hM⟩
    by_contra hne
    rw [matmul_err A B hne] at hM
    cases hM
  · intro h
    obtain ⟨M, hM, _⟩ := matmul_spec A B h
    exact ⟨M, hM⟩
  · intro M hM
    have h : A.cols = B.rows := by
      by_contra hne
      rw [matmul_err A B hne] at hM
      cases hM
    obtain ⟨M', hM', hr, hc, hwf, hent⟩ := matmul_spec A B h
    have hMM : M' = M := Except.ok.inj (hM'.symm.trans hM)
    subst hMM
    refine ⟨Prod.ext hr hc, hwf, hent, ?_⟩
    intro h0
    apply ext_get hwf
    · show (Matrix.new A.rows B.cols : Matrix α).data.length = _
      rw [new_length]; rfl
    · exact hr
    · exact hc
    · intro r hr' c hc'
      rw [hent r (hr ▸ hr') c (hc ▸ hc'), h0, Finset.sum_range_zero, new_get]

/-- C5 at a `2 × 2` integer product. -/
theorem matmul_contract_witness :
    (⟨2, 2, [1, 2, 3, 4]⟩ : Matrix ℤ).matmul ⟨2, 2, [0, 1, 1, 0]⟩ = .ok ⟨2, 2, [2, 1, 4, 3]⟩ ∧
    (⟨2, 2, [2, 1, 4, 3]⟩ : Matrix ℤ).shape = (2, 2) ∧
    (⟨2, 2, [2, 1, 4, 3]⟩ : Matrix ℤ).WF :=
  ⟨rfl, ((matmul_contract (⟨2, 2, [1, 2, 3, 4]⟩ : Matrix ℤ) ⟨2, 2, [0, 1, 1, 0]⟩).2.2
      ⟨2, 2, [2, 1, 4, 3]⟩ rfl).1,
    ((matmul_contract (⟨2, 2, [1, 2, 3, 4]⟩ : Matrix ℤ) ⟨2, 2, [0, 1, 1, 0]⟩).2.2
      ⟨2, 2, [2, 1, 4, 3]⟩ rfl).2.1⟩

/-! ### Algebraic laws -/

/-- C11: when `A.cols == B.rows`, both `matmul(A, B)` and `matmul(transpose(B), transpose(A))`
return, the transpose of the first equals the second, and this matrix has shape
`(B.cols, A.rows)`. -/
theorem transpose_matmul (A B : Matrix α) (h : A.cols = B.rows) :
    ∃ M N, A.matmul B = .ok M ∧ B.transpose.matmul A.transpose = .ok N ∧
      M.transpose = N ∧ N.shape = (B.cols, A.rows) := by
  obtain ⟨M, hM, hMr, hMc, _, hMe⟩ := matmul_spec A B h
  obtain ⟨hAr, hAc, _, hAe⟩ := transpose_spec A
  obtain ⟨hBr, hBc, _, hBe⟩ := transpose_spec B
  obtain ⟨N, hN, hNr, hNc, hNw, hNe⟩ := matmul_spec B.transpose A.transpose
    (by rw [hBc, hAr, h])
  obtain ⟨hTr, hTc, hTw, hTe⟩ := transpose_spec M
  refine ⟨M, N, hM, hN, ?_, Prod.ext (hNr.trans hBr) (hNc.trans hAc)⟩
  apply ext_get hTw hNw
  · rw [hTr, hMc, hNr, hBr]
  · rw [hTc, hMr, hNc, hAc]
  · intro c hc r hr
    rw [hTr, hMc] at hc
    rw [hTc, hMr] at hr
    rw [hTe r (by rw [hMr]; exact hr) c (by rw [hMc]; exact hc), hMe r hr c hc,
      hNe c (by rw [hBr]; exact hc) r (by rw [hAc]; exact hr), hBc, h]
    apply Finset.sum_congr rfl
    intro k hk
    have hk' : k < B.rows := Finset.mem_range.mp hk
    rw [hBe k hk' c hc, hAe r hr k (by rw [h]; exact hk'), mul_comm]

/-- C11 at a `1 × 2` by `2 × 1` integer product. -/
theorem transpose_matmul_witness :
    (⟨2, 1, [1, 2]⟩ : Matrix ℤ).cols = (⟨1, 2, [3, 4]⟩ : Matrix ℤ).rows ∧
    ∃ M N, (⟨2, 1, [1, 2]⟩ : Matrix ℤ).matmul ⟨1, 2, [3, 4]⟩ = .ok M ∧
      (⟨1, 2, [3, 4]⟩ : Matrix ℤ).transpose.matmul (⟨2, 1, [1, 2]⟩ : Matrix ℤ).transpose
        = .ok N ∧
      M.transpose = N ∧ N.shape = (1, 1) :=
  ⟨rfl, transpose_matmul (⟨2, 1, [1, 2]⟩ : Matrix ℤ) ⟨1, 2, [3, 4]⟩ rfl⟩

/-- C12: for every matrix `A`, empty ones included, `transpose(A)` has shape
`(A.cols, A.rows)` and entry `(c, r)` equal to `A[r,c]`; `transpose(transpose(A))` has the shape
of `A` and the entries of `A`, and is `A` itself (`A` holding `rows * cols` values, as every
constructed matrix does). -/
theorem transpose_involution (A : Matrix α) :
    A.transpose.shape = (A.cols, A.rows) ∧
    (∀ r < A.rows, ∀ c < A.cols, A.transpose.get c r = A.get r c) ∧
    A.transpose.transpose.shape = A.shape ∧
    (∀ r < A.rows, ∀ c < A.cols, A.transpose.transpose.get r c = A.get r c) ∧
    (A.WF → A.transpose.transpose = A) := by
  obtain ⟨hr, hc, _, he⟩ := transpose_spec A
  obtain ⟨hr2, hc2, hw2, he2⟩ := transpose_spec A.transpose
  have hent : ∀ r < A.rows, ∀ c < A.cols, A.transpose.transpose.get r c = A.get r c := by
    intro r hr' c hc'
    rw [he2 c (by rw [hr]; exact hc') r (by rw [hc]; exact hr'), he r hr' c hc']
  refine ⟨Prod.ext hr hc, he, Prod.ext (hr2.trans hc) (hc2.trans hr), hent, ?_⟩
  intro hA
  apply ext_get hw2 hA (hr2.trans hc) (hc2.trans hr)
  intro r hr' c hc'
  exact hent r (by rw [← hc, ← hr2]; exact hr') c (by rw [← hr, ← hc2]; exact hc')

/-- C12 at a `2 × 3` integer matrix and at the matrix with no rows and no columns. -/
theorem transpose_involution_witness :
    (⟨3, 2, [1, 2, 3, 4, 5, 6]⟩ : Matrix ℤ).WF ∧
    (⟨3, 2, [1, 2, 3, 4, 5, 6]⟩ : Matrix ℤ).transpose.transpose = ⟨3, 2, [1, 2, 3, 4, 5, 6]⟩ ∧
    (Matrix.empty : Matrix ℤ).transpose.transpose = Matrix.empty :=
  ⟨by decide,
    (transpose_involution (⟨3, 2, [1, 2, 3, 4, 5, 6]⟩ : Matrix ℤ)).2.2.2.2 (by decide),
    (transpose_involution (Matrix.empty : Matrix ℤ)).2.2.2.2 (by decide)⟩

/-- C13: `add(A, B)` returns exactly when `A` and `B` have the same shape (as does
`add(B, A)`), and stops with a dimension mismatch otherwise; the matrix it returns has that
shape and entry `(r, c)` equal to `A[r,c] + B[r,c]`; and `add(A, B) == add(B, A)`. -/
theorem add_contract (A B : Matrix α) :
    ((∃ M, A.add B = .ok M) ↔ A.shape = B.shape) ∧
    ((∃ M, A.add B = .ok M) → ∃ N, B.add A = .ok N) ∧
    (A.shape ≠ B.shape → A.add B = .error .dimensionMismatch) ∧
    (∀ M, A.add B = .ok M →
      M.shape = A.shape ∧ M.WF ∧
      ∀ r < A.rows, ∀ c < A.cols, M.get r c = A.get r c + B.get r c) ∧
    A.add B = B.add A := by
  have hiff : (∃ M, A.add B = .ok M) ↔ A.shape = B.shape := by
    constructor
    · rintro ⟨M, hM⟩
      by_contra hne
      rw [add_err A B hne] at hM
      cases hM
    · intro h
      obtain ⟨M, hM, _⟩ := add_spec A B h
      exact ⟨M, hM⟩
  refine ⟨hiff, ?_, add_err A B, ?_, ?_⟩
  · intro h
    obtain ⟨N, hN, _⟩ := add_spec B A (hiff.mp h).symm
    exact ⟨N, hN⟩
  · intro M hM
    obtain ⟨M', hM', hr, hc, hw, he⟩ := add_spec A B (hiff.mp ⟨M, hM⟩)
    have hMM : M' = M := Except.ok.inj (hM'.symm.trans hM)
    subst hMM
    exact ⟨Prod.ext hr hc, hw, he⟩
  · by_cases h : A.shape = B.shape
    · obtain ⟨M, hM, hr, hc, hw, he⟩ := add_spec A B h
      obtain ⟨N, hN, hr', hc', hw', he'⟩ := add_spec B A h.symm
      have hAr : A.rows = B.rows := congrArg Prod.fst h
      have hAc : A.cols = B.cols := congrArg Prod.snd h
      rw [hM, hN]
      congr 1
      apply ext_get hw hw' (by rw [hr, hr', hAr]) (by rw [hc, hc', hAc])
      intro r hr1 c hc1
      rw [hr] at hr1
      rw [hc] at hc1
      rw [he r hr1 c hc1, he' r (hAr ▸ hr1) c (hAc ▸ hc1), add_comm]
    · rw [add_err A B h, add_err B A (fun h' => h h'.symm)]

/-- C13 at two `1 × 2` integer matrices. -/
theorem add_contract_witness :
    (⟨2, 1, [1, 2]⟩ : Matrix ℤ).add ⟨2, 1, [10, 20]⟩ = .ok ⟨2, 1, [11, 22]⟩ ∧
    (∃ N, (⟨2, 1, [10, 20]⟩ : Matrix ℤ).add ⟨2, 1, [1, 2]⟩ = .ok N) ∧
    (⟨2, 1, [11, 22]⟩ : Matrix ℤ).shape = (⟨2, 1, [1, 2]⟩ : Matrix ℤ).shape :=
  ⟨rfl,
    (add_contract (⟨2, 1, [1, 2]⟩ : Matrix ℤ) ⟨2, 1, [10, 20]⟩).2.1 ⟨_, rfl⟩,
    ((add_contract (⟨2, 1, [1, 2]⟩ : Matrix ℤ) ⟨2, 1, [10, 20]⟩).2.2.2.1
      ⟨2, 1, [11, 22]⟩ rfl).1⟩

/-- C14: `sub(A, B)` is `add(A, negate(B))`; for `A` and `B` of one shape it returns a matrix
of that shape with entry `(r, c)` equal to `A[r,c] - B[r,c]`; and for every `A`, `sub(A, A)`
returns the all-zero matrix of the shape of `A`. -/
theorem sub_contract (A B : Matrix α) :
    A.sub B = A.add B.neg ∧
    (A.shape = B.shape → ∃ M, A.sub B = .ok M ∧ M.shape = A.shape ∧
      ∀ r < A.rows, ∀ c < A.cols, M.get r c = A.get r c - B.get r c) ∧
    A.sub A = .ok (Matrix.new A.rows A.cols) := by
  refine ⟨rfl, ?_, ?_⟩
  · intro h
    obtain ⟨M, hM, hr, hc, _, he⟩ := sub_spec A B h
    exact ⟨M, hM, Prod.ext hr hc, he⟩
  · obtain ⟨M, hM, hr, hc, hw, he⟩ := sub_spec A A rfl
    rw [hM]
    congr 1
    apply ext_get hw
    · show (Matrix.new A.rows A.cols : Matrix α).data.length = _
      rw [new_length]; rfl
    · exact hr
    · exact hc
    · intro r hr' c hc'
      rw [he r (hr ▸ hr') c (hc ▸ hc'), sub_self, new_get]

/-- C14 at two `1 × 2` integer matrices. -/
theorem sub_contract_witness :
    (⟨2, 1, [5, 7]⟩ : Matrix ℤ).shape = (⟨2, 1, [1, 2]⟩ : Matrix ℤ).shape ∧
    (⟨2, 1, [5, 7]⟩ : Matrix ℤ).sub ⟨2, 1, [1, 2]⟩ = .ok ⟨2, 1, [4, 5]⟩ ∧
    ∃ M, (⟨2, 1, [5, 7]⟩ : Matrix ℤ).sub ⟨2, 1, [1, 2]⟩ = .ok M ∧
      M.shape = (⟨2, 1, [5, 7]⟩ : Matrix ℤ).shape ∧
      ∀ r < 1, ∀ c < 2, M.get r c
        = (⟨2, 1, [5, 7]⟩ : Matrix ℤ).get r c - (⟨2, 1, [1, 2]⟩ : Matrix ℤ).get r c :=
  ⟨rfl, rfl, (sub_contract (⟨2, 1, [5, 7]⟩ : Matrix ℤ) ⟨2, 1, [1, 2]⟩).2.1 rfl⟩

end Ops

end Matrix

end linalg

/-! ## Running member functions -/

namespace linalg

namespace Method

variable {σ ρ τ β : Type}

theorem bind_ok {x : Method σ ρ} {f : ρ → Method σ τ} {s s' : σ} {r : ρ}
    (h : x s = .ok r s') : (x >>= f) s = f r s' := by
  show Method.seq x f s = _
  simp only [Method.seq, h]

theorem bind_fail {x : Method σ ρ} {f : ρ → Method σ τ} {s s' : σ} {e : Err}
    (h : x s = .fail e s') : (x >>= f) s = .fail e s' := by
  show Method.seq x f s = _
  simp only [Method.seq, h]

theorem pure_run (r : ρ) (s : σ) : (pure r : Method σ ρ) s = .ok r s := rfl

theorem lift_ok {x : Except Err ρ} {r : ρ} (h : x = .ok r) (s : σ) :
    (lift x : Method σ ρ) s = .ok r s := by
  subst h; rfl

theorem lift_error {x : Except Err ρ} {e : Err} (h : x = .error e) (s : σ) :
    (lift x : Method σ ρ) s = .fail e s := by
  subst h; rfl

theorem index_ok {v : σ → List β} {i : Nat} {s : σ} {x : β} (h : (v s)[i]? = some x) :
    index v i s = .ok x s := by
  simp only [index, h]

theorem back_ok {v : σ → List β} {s : σ} {x : β} (h : (v s).getLast? = some x) :
    back v s = .ok x s := by
  simp only [back, h]

theorem assert_ok {c : σ → Bool} {s : σ} (h : c s = true) : assert c s = .ok () s := by
  simp only [assert, h, if_true]

theorem assert_fail {c : σ → Bool} {s : σ} (h : c s = false) :
    assert c s = .fail .dimensionMismatch s := by
  simp [assert, h]

theorem assign_ok {v : σ → List β} {put : σ → List β → σ} {i : Nat} {x : β} {s : σ}
    (h : i < (v s).length) : assign v put i x s = .ok () (put s ((v s).set i x)) := by
  simp only [assign, h, if_true]

end Method

end linalg

/-! ## Rounding to `double` -/

namespace ieee

namespace Double

theorem roundHalfEven_ge (x : ℚ) (n : ℤ) (h : (n : ℚ) ≤ x) : n ≤ roundHalfEven x := by
  have hf : n ≤ ⌊x⌋ := Int.le_floor.mpr h
  unfold roundHalfEven
  simp only
  split_ifs <;> omega

theorem roundHalfEven_le (x : ℚ) (n : ℤ) (h : x ≤ (n : ℚ)) : roundHalfEven x ≤ n := by
  have hfx : (⌊x⌋ : ℚ) ≤ x := Int.floor_le x
  have hf : ⌊x⌋ ≤ n := by exact_mod_cast hfx.trans h
  unfold roundHalfEven
  simp only
  split_ifs with h1 h2 h3
  · exact hf
  · have hlt : (⌊x⌋ : ℚ) < n := by linarith
    have : ⌊x⌋ < n := by exact_mod_cast hlt
    omega
  · exact hf
  · have hlt : (⌊x⌋ : ℚ) < n := by
      have : x - ⌊x⌋ = 1 / 2 := le_antisymm (not_lt.mp h2) (not_lt.mp h1)
      linarith
    have : ⌊x⌋ < n := by exact_mod_cast hlt
    omega

theorem roundHalfEven_intCast (n : ℤ) : roundHalfEven (n : ℚ) = n :=
  le_antisymm (roundHalfEven_le _ n le_rfl) (roundHalfEven_ge _ n le_rfl)

/-- A quotient at most half a unit above an even integer rounds to that integer. -/
theorem roundHalfEven_of_le_half (x : ℚ) (n : ℤ) (h0 : (n : ℚ) ≤ x) (h1 : x ≤ n + 1 / 2)
    (hn : n % 2 = 0) : roundHalfEven x = n := by
  have hf : ⌊x⌋ = n := Int.floor_eq_iff.mpr ⟨h0, by linarith⟩
  unfold roundHalfEven
  simp only [hf]
  split_ifs with h2 h3
  · rfl
  · exact absurd h3 (not_lt.mpr (by linarith))
  · rfl

theorem two_zpow_pos (k : ℤ) : (0 : ℚ) < 2 ^ k := zpow_pos (by norm_num) k

theorem log_nonneg_of_one_le (q : ℚ) (h : 1 ≤ q) : 0 ≤ Int.log 2 q := by
  have hq : (0 : ℚ) < q := by linarith
  apply (Int.zpow_le_iff_le_log (by norm_num : 1 < 2) hq).mp
  simpa using h

theorem log_nonpos_of_le_one (q : ℚ) (h0 : 0 < q) (h : q ≤ 1) : Int.log 2 q ≤ 0 := by
  have : Int.log 2 q < 1 := by
    apply (Int.lt_zpow_iff_log_lt (by norm_num : 1 < 2) h0).mp
    norm_num
    linarith
  omega

theorem zpow_log_le (q : ℚ) (h0 : 0 < q) : (2 : ℚ) ^ Int.log 2 q ≤ q := by
  have := Int.zpow_log_le_self (b := 2) (r := q) (by norm_num) h0
  simpa using this

/-- An exact result of at least `1` rounds to `+inf` or to a finite number of at least `1`. -/
theorem round_of_one_le (q : ℚ) (h : 1 ≤ q) :
    round q = pinf ∨ ∃ r : ℚ, round q = fin r ∧ 1 ≤ r := by
  have hq : (0 : ℚ) < q := by linarith
  have habs : |q| = q := abs_of_pos hq
  have hk := log_nonneg_of_one_le q h
  have he : max (Int.log 2 q) (-1022) = Int.log 2 q := max_eq_left (by omega)
  have hulp := two_zpow_pos (Int.log 2 q - 52)
  have hx : ((2 ^ 52 : ℤ) : ℚ) ≤ q / 2 ^ (Int.log 2 q - 52) := by
    rw [le_div_iff₀ hulp]
    have h1 : (2 : ℚ) ^ (Int.log 2 q) ≤ q := zpow_log_le q hq
    have h2 : ((2 ^ 52 : ℤ) : ℚ) * 2 ^ (Int.log 2 q - 52) = 2 ^ (Int.log 2 q) := by
      rw [zpow_sub₀ (by norm_num : (2 : ℚ) ≠ 0)]
      norm_num
      field_simp
    rw [h2]
    exact h1
  have hn := roundHalfEven_ge _ _ hx
  have hr : (1 : ℚ) ≤ roundHalfEven (q / 2 ^ (Int.log 2 q - 52)) * 2 ^ (Int.log 2 q - 52) := by
    have h3 : ((2 ^ 52 : ℤ) : ℚ) ≤ roundHalfEven (q / 2 ^ (Int.log 2 q - 52)) := by
      exact_mod_cast hn
    have h4 : (1 : ℚ) ≤ ((2 ^ 52 : ℤ) : ℚ) * 2 ^ (Int.log 2 q - 52) := by
      have : (2 : ℚ) ^ (0 : ℤ) ≤ 2 ^ (Int.log 2 q) :=
        zpow_le_zpow_right₀ (by norm_num) hk
      rw [zpow_sub₀ (by norm_num : (2 : ℚ) ≠ 0)]
      norm_num at this ⊢
      field_simp
      exact this
    exact h4.trans (mul_le_mul_of_nonneg_right h3 hulp.le)
  unfold round
  simp only [habs, he]
  split_ifs with h1 h2
  · exact Or.inl rfl
  · exact absurd h2 (not_le.mpr (by
      have : -(2 : ℚ) ^ (1024 : ℤ) < 0 := neg_neg_of_pos (two_zpow_pos 1024)
      linarith))
  · exact Or.inr ⟨_, rfl, hr⟩

/-- An exact result in `[0, 1]` rounds to a finite number in `[0, 1]`. -/
theorem round_of_unit (q : ℚ) (h0 : 0 ≤ q) (h1 : q ≤ 1) : InUnit (round q) := by
  have habs : |q| = q := abs_of_nonneg h0
  have he0 : max (Int.log 2 q) (-1022) ≤ 0 := by
    rcases h0.eq_or_lt with h | h
    · rw [← h, Int.log_zero_right]; decide
    · exact max_le (log_nonpos_of_le_one q h h1) (by decide)
  generalize he : max (Int.log 2 q) (-1022) = e at he0
  have hulp := two_zpow_pos (e - 52)
  have hx0 : ((0 : ℤ) : ℚ) ≤ q / 2 ^ (e - 52) := by
    simpa using div_nonneg h0 hulp.le
  have hN : (((2 : ℤ) ^ (52 - e).toNat : ℤ) : ℚ) = 2 ^ (52 - e) := by
    have : ((52 - e).toNat : ℤ) = 52 - e := Int.toNat_of_nonneg (by omega)
    rw [Int.cast_pow, ← zpow_natCast, this]
    norm_num
  have hmul : (2 : ℚ) ^ (52 - e) * 2 ^ (e - 52) = 1 := by
    rw [← zpow_add₀ (by norm_num : (2 : ℚ) ≠ 0)]
    have : 52 - e + (e - 52) = 0 := by ring
    rw [this, zpow_zero]
  have hx1 : q / 2 ^ (e - 52) ≤ (((2 : ℤ) ^ (52 - e).toNat : ℤ) : ℚ) := by
    rw [hN, div_le_iff₀ hulp, hmul]
    exact h1
  have hn0 := roundHalfEven_ge _ _ hx0
  have hn1 := roundHalfEven_le _ _ hx1
  have hr0 : (0 : ℚ) ≤ roundHalfEven (q / 2 ^ (e - 52)) * 2 ^ (e - 52) :=
    mul_nonneg (by exact_mod_cast hn0) hulp.le
  have hr1 : (roundHalfEven (q / 2 ^ (e - 52)) : ℚ) * 2 ^ (e - 52) ≤ 1 := by
    have h3 : (roundHalfEven (q / 2 ^ (e - 52)) : ℚ) ≤ (((2 : ℤ) ^ (52 - e).toNat : ℤ) : ℚ) := by
      exact_mod_cast hn1
    calc (roundHalfEven (q / 2 ^ (e - 52)) : ℚ) * 2 ^ (e - 52)
        ≤ (((2 : ℤ) ^ (52 - e).toNat : ℤ) : ℚ) * 2 ^ (e - 52) :=
          mul_le_mul_of_nonneg_right h3 hulp.le
      _ = 1 := by rw [hN, hmul]
  have hbig : (1 : ℚ) < 2 ^ (1024 : ℤ) := by
    have : (2 : ℚ) ^ (0 : ℤ) < 2 ^ (1024 : ℤ) := zpow_lt_zpow_right₀ (by norm_num) (by norm_num)
    simpa using this
  unfold round
  simp only [habs, he]
  split_ifs with h2 h3
  · exact absurd h2 (not_le.mpr (by linarith))
  · exact absurd h3 (not_le.mpr (by linarith))
  · exact ⟨_, rfl, hr0, hr1⟩

theorem log_eq_of_bounds (q : ℚ) (k : ℤ) (h1 : (2 : ℚ) ^ k ≤ q) (h2 : q < 2 ^ (k + 1)) :
    Int.log 2 q = k := by
  have hq : (0 : ℚ) < q := lt_of_lt_of_le (two_zpow_pos k) h1
  have ha : k ≤ Int.log 2 q := by
    apply (Int.zpow_le_iff_le_log (by norm_num : 1 < 2) hq).mp
    simpa using h1
  have hb : Int.log 2 q < k + 1 := by
    apply (Int.lt_zpow_iff_log_lt (by norm_num : 1 < 2) hq).mp
    simpa using h2
  omega

/-- A positive normal number with at most 53 significant bits is a double. -/
theorem round_of_repr (q : ℚ) (k n : ℤ) (hk : -1022 ≤ k) (hk2 : k < 1024)
    (h1 : (2 : ℚ) ^ k ≤ q) (h2 : q < 2 ^ (k + 1)) (hn : q = n * 2 ^ (k - 52)) :
    round q = fin q := by
  have hq : (0 : ℚ) < q := lt_of_lt_of_le (two_zpow_pos k) h1
  have habs : |q| = q := abs_of_pos hq
  have hlog := log_eq_of_bounds q k h1 h2
  have he : max k (-1022) = k := max_eq_left hk
  have hulp := two_zpow_pos (k - 52)
  have hx : q / 2 ^ (k - 52) = (n : ℚ) := by
    rw [hn, mul_div_assoc, div_self hulp.ne', mul_one]
  have hbig : q < 2 ^ (1024 : ℤ) :=
    lt_of_lt_of_le h2 (zpow_le_zpow_right₀ (by norm_num) (by omega))
  unfold round
  simp only [habs, hlog, he, hx, roundHalfEven_intCast, ← hn]
  split_ifs with h3 h4
  · exact absurd h3 (not_le.mpr hbig)
  · exact absurd h4 (not_le.mpr (by
      have : -(2 : ℚ) ^ (1024 : ℤ) < 0 := neg_neg_of_pos (two_zpow_pos 1024)
      linarith))
  · rfl

theorem round_zero : round 0 = fin 0 := by
  have h := roundHalfEven_intCast 0
  simp only [Int.cast_zero] at h
  unfold round
  simp only [abs_zero, Int.log_zero_right, zero_div, h, Int.cast_zero, zero_mul]
  split_ifs with h3 h4
  · exact absurd h3 (not_le.mpr (two_zpow_pos 1024))
  · exact absurd h4 (not_le.mpr (neg_neg_of_pos (two_zpow_pos 1024)))
  · rfl

theorem round_one : round 1 = fin 1 :=
  round_of_repr 1 0 (2 ^ 52) (by norm_num) (by norm_num) (by norm_num) (by norm_num)
    (by norm_num)

/-- Adding at most half a unit in the last place of `1` to `1` gives `1`. -/
theorem round_one_add (d : ℚ) (h0 : 0 ≤ d) (h1 : d ≤ 1 / 2 ^ 53) : round (1 + d) = fin 1 := by
  have hq1 : (1 : ℚ) ≤ 1 + d := by linarith
  have habs : |1 + d| = 1 + d := abs_of_pos (by linarith)
  have hlog : Int.log 2 (1 + d) = 0 :=
    log_eq_of_bounds (1 + d) 0 (by simpa using hq1) (by norm_num at h1 ⊢; linarith)
  have he : max (0 : ℤ) (-1022) = 0 := by decide
  have hulp : (2 : ℚ) ^ ((0 : ℤ) - 52) = 1 / 2 ^ 52 := by
    rw [zero_sub, zpow_neg, one_div]
    norm_num
  have hr : roundHalfEven ((1 + d) / (1 / 2 ^ 52)) = 2 ^ 52 := by
    apply roundHalfEven_of_le_half
    · rw [le_div_iff₀ (by norm_num)]
      norm_num
      exact h0
    · rw [div_le_iff₀ (by norm_num)]
      norm_num at h1 ⊢
      linarith
    · decide
  unfold round
  simp only [habs, hlog, he, hulp, hr]
  norm_num

theorem one_def : (1 : Double) = fin 1 := rfl

theorem zero_def : (0 : Double) = fin 0 := rfl

theorem neg_def (a : Double) : -a = neg a := rfl

theorem add_def (a b : Double) : a + b = add a b := rfl

theorem mul_def (a b : Double) : a * b = mul a b := rfl

theorem div_def (a b : Double) : a / b = div a b := rfl

theorem inUnit_zero : InUnit (fin 0) := ⟨0, rfl, le_rfl, zero_le_one⟩

theorem single_self (a b : Double) : single a b a = b := if_pos rfl

theorem libExp_single (a : Double) (e : ℚ) (he : 0 ≤ e) : LibExp (single a (fin e)) := by
  intro s
  unfold single
  split_ifs
  · exact Or.inr (Or.inr ⟨e, rfl, he⟩)
  · exact Or.inl rfl

end Double

end ieee


/-! ## The nonlinearity -/

namespace nn

open ieee ieee.Double

theorem sigmoid_real_eq (v : ℝ) : sigmoid Real.exp v = (1 + Real.exp (-v))⁻¹ := by
  simp only [sigmoid, one_div]

/-- In exact real arithmetic `sigmoid` is positive. -/
theorem sigmoid_pos (v : ℝ) : 0 < sigmoid Real.exp v := by
  rw [sigmoid_real_eq]
  exact inv_pos.mpr (by have := Real.exp_pos (-v); linarith)

/-- In exact real arithmetic `sigmoid` is below `1`. -/
theorem sigmoid_lt_one (v : ℝ) : sigmoid Real.exp v < 1 := by
  rw [sigmoid_real_eq]
  exact inv_lt_one_of_one_lt₀ (by have := Real.exp_pos (-v); linarith)

/-- The derivative of `sigmoid` at `v` is `d_sigmoid` of its value at `v`. -/
theorem sigmoid_hasDerivAt (v : ℝ) :
    HasDerivAt (sigmoid Real.exp) (d_sigmoid (sigmoid Real.exp v)) v := by
  have hpos : (1 : ℝ) + Real.exp (-v) ≠ 0 := by
    have := Real.exp_pos (-v); linarith
  have h1 : HasDerivAt (fun x : ℝ => Real.exp (-x)) (Real.exp (-v) * -1) v :=
    (Real.hasDerivAt_exp (-v)).comp v (hasDerivAt_neg v)
  have h2 : HasDerivAt (fun x : ℝ => 1 + Real.exp (-x)) (Real.exp (-v) * -1) v :=
    h1.const_add 1
  have h3 := h2.inv hpos
  have hfun : sigmoid Real.exp = fun x : ℝ => (1 + Real.exp (-x))⁻¹ := by
    funext x; exact sigmoid_real_eq x
  rw [hfun]
  convert h3 using 1
  simp only [d_sigmoid]
  field_simp
  ring

/-- In `double` arithmetic `sigmoid` of a NaN exponential is a NaN. -/
theorem sigmoid_double_nan (exp : Double → Double) (s : Double) (h : exp (-s) = Double.nan) :
    sigmoid exp s = Double.nan := by
  simp only [sigmoid, h, one_def, add_def, div_def, Double.add, Double.div]

/-- In `double` arithmetic `sigmoid` is `0` where the exponential overflows. -/
theorem sigmoid_double_pinf (exp : Double → Double) (s : Double) (h : exp (-s) = Double.pinf) :
    sigmoid exp s = Double.fin 0 := by
  simp only [sigmoid, h, one_def, add_def, div_def, Double.add, Double.div]

/-- In `double` arithmetic `sigmoid` lies in `[0, 1]` where the exponential is a non-negative
number. -/
theorem sigmoid_double_fin (exp : Double → Double) (s : Double) (e : ℚ)
    (h : exp (-s) = Double.fin e) (he : 0 ≤ e) : InUnit (sigmoid exp s) := by
  simp only [sigmoid, h, one_def, add_def, div_def, Double.add]
  rcases round_of_one_le (1 + e) (by linarith) with h1 | ⟨r, h1, hr⟩
  · rw [h1]
    exact inUnit_zero
  · rw [h1]
    have hr0 : r ≠ 0 := by intro h0; rw [h0] at hr; linarith
    simp only [Double.div, hr0, if_false]
    have hpos : (0 : ℚ) < r := by linarith
    exact round_of_unit (1 / r) (by positivity) (by rw [div_le_iff₀ hpos]; linarith)

/-- In `double` arithmetic `sigmoid` is exactly `1` where the exponential is at most half a
unit in the last place of `1`. -/
theorem sigmoid_double_one (exp : Double → Double) (s : Double) (e : ℚ)
    (h : exp (-s) = Double.fin e) (h0 : 0 ≤ e) (h1 : e ≤ 1 / 2 ^ 53) :
    sigmoid exp s = Double.fin 1 := by
  simp only [sigmoid, h, one_def, add_def, div_def, Double.add]
  rw [round_one_add e h0 h1]
  simp only [Double.div, one_ne_zero, if_false, div_one]
  exact round_one

/-- With a library `exp` that never returns a negative number, `sigmoid` in `double`
arithmetic is a number in `[0, 1]` or a NaN. -/
theorem sigmoid_double_range (exp : Double → Double) (hexp : LibExp exp) (s : Double) :
    InUnit (sigmoid exp s) ∨ sigmoid exp s = Double.nan := by
  rcases hexp (-s) with h | h | ⟨e, h, he⟩
  · exact Or.inr (sigmoid_double_nan exp s h)
  · exact Or.inl (by rw [sigmoid_double_pinf exp s h]; exact inUnit_zero)
  · exact Or.inl (sigmoid_double_fin exp s e h he)

/-- Bounds on `e ^ (-n)` from ten digits of `e`. -/
theorem exp_neg_nat_bounds (n : ℕ) (hn : n ≠ 0) :
    1 / (2.7182818286 : ℝ) ^ n < Real.exp (-(n : ℝ)) ∧
    Real.exp (-(n : ℝ)) < 1 / (2.7182818283 : ℝ) ^ n := by
  have h : Real.exp (-(n : ℝ)) = 1 / Real.exp 1 ^ n := by
    rw [Real.exp_neg, Real.exp_one_pow, one_div]
  rw [h]
  have hL : (2.7182818283 : ℝ) ^ n < Real.exp 1 ^ n :=
    pow_lt_pow_left₀ Real.exp_one_gt_d9 (by norm_num) hn
  have hU : Real.exp 1 ^ n < (2.7182818286 : ℝ) ^ n :=
    pow_lt_pow_left₀ Real.exp_one_lt_d9 (Real.exp_pos 1).le hn
  exact ⟨one_div_lt_one_div_of_lt (pow_pos (Real.exp_pos 1) n) hU,
    one_div_lt_one_div_of_lt (by positivity) hL⟩

/-- The number `e ^ 710` is above every finite `double`. -/
theorem exp_710_overflows : (2 : ℝ) ^ 1024 < Real.exp 710 := by
  have h : Real.exp 710 = Real.exp 1 ^ 710 := by
    rw [Real.exp_one_pow]
    norm_num
  rw [h]
  have hL : (2.7182818283 : ℝ) ^ 710 < Real.exp 1 ^ 710 :=
    pow_lt_pow_left₀ Real.exp_one_gt_d9 (by norm_num) (by norm_num)
  have hn : (2 : ℝ) ^ 1024 < (2.7182818283 : ℝ) ^ 710 := by norm_num
  exact hn.trans hL

/-- C15, counterexample: in the `double` arithmetic of the program `sigmoid(37.0)` is exactly
`1.0` and `sigmoid(-710.0)` is exactly `0.0`, so neither strict bound holds at every finite
argument.  The library value of `exp(-37.0)` is the double `0x1.898471fca6055p-54`
(`6922830684512341 / 2 ^ 106`, within `10 ^ (-24)` of `e ^ (-37)`); it is below `2 ^ (-53)`, half
a unit in the last place of `1`, so `1 + exp(-37.0)` rounds to `1` and `1.0 / 1` is `1.0`.  The
number `e ^ 710` is above the largest double, so `exp(710.0)` is `+inf` and `1.0 / +inf` is
`0.0`. -/
theorem sigmoid_double_saturates :
    Double.round (6922830684512341 / 2 ^ 106) = Double.fin (6922830684512341 / 2 ^ 106) ∧
    |((6922830684512341 / 2 ^ 106 : ℚ) : ℝ) - Real.exp (-37)| < 1 / 10 ^ 24 ∧
    sigmoid (Double.single (Double.fin (-37)) (Double.fin (6922830684512341 / 2 ^ 106)))
      (Double.fin 37) = Double.fin 1 ∧
    (2 : ℝ) ^ 1024 < Real.exp 710 ∧
    sigmoid (Double.single (Double.fin 710) Double.pinf) (Double.fin (-710)) = Double.fin 0 := by
  refine ⟨?_, ?_, ?_, exp_710_overflows, ?_⟩
  · exact round_of_repr _ (-54) 6922830684512341 (by norm_num) (by norm_num) (by norm_num)
      (by norm_num) (by norm_num)
  · obtain ⟨h1, h2⟩ := exp_neg_nat_bounds 37 (by norm_num)
    have hc : ((37 : ℕ) : ℝ) = 37 := by norm_num
    rw [hc] at h1 h2
    have hlo : (6922830684512341 / 2 ^ 106 : ℝ) - 1 / 10 ^ 24
        < 1 / (2.7182818286 : ℝ) ^ 37 := by norm_num
    have hhi : 1 / (2.7182818283 : ℝ) ^ 37
        < (6922830684512341 / 2 ^ 106 : ℝ) + 1 / 10 ^ 24 := by norm_num
    rw [abs_lt]
    push_cast
    constructor <;> linarith
  · exact sigmoid_double_one _ (Double.fin 37) (6922830684512341 / 2 ^ 106)
      (Double.single_self _ _) (by norm_num) (by norm_num)
  · apply sigmoid_double_pinf
    simp [Double.single, Double.neg_def, Double.neg]

/-- C15, amended: in the `double` arithmetic of the program, at every finite argument `v` at
which the library `exp` returns a non-negative number or `+inf` (which it does at every finite
argument), `sigmoid(v) = 1 / (1 + exp(-v))` is a finite number in the closed interval
`[0, 1]`, and `d_sigmoid(sigmoid(v)) == sigmoid(v) * (1 - sigmoid(v))`. -/
theorem sigmoid_closed_range (exp : Double → Double) (v : ℚ)
    (hexp : exp (Double.fin (-v)) = Double.pinf ∨
      ∃ e : ℚ, exp (Double.fin (-v)) = Double.fin e ∧ 0 ≤ e) :
    sigmoid exp (Double.fin v) = 1 / (1 + exp (-(Double.fin v))) ∧
    (∃ q : ℚ, sigmoid exp (Double.fin v) = Double.fin q ∧ 0 ≤ q ∧ q ≤ 1) ∧
    d_sigmoid (sigmoid exp (Double.fin v))
      = sigmoid exp (Double.fin v) * (1 - sigmoid exp (Double.fin v)) := by
  refine ⟨rfl, ?_, rfl⟩
  rcases hexp with h | ⟨e, h, he⟩
  · rw [sigmoid_double_pinf exp (Double.fin v) h]
    exact inUnit_zero
  · exact sigmoid_double_fin exp (Double.fin v) e h he

/-- C15, amended, at the argument `37.0` with the library value of `exp(-37.0)`. -/
theorem sigmoid_closed_range_witness :
    (Double.single (Double.fin (-37)) (Double.fin (6922830684512341 / 2 ^ 106))
        (Double.fin (-37)) = Double.pinf ∨
      ∃ e : ℚ, Double.single (Double.fin (-37)) (Double.fin (6922830684512341 / 2 ^ 106))
        (Double.fin (-37)) = Double.fin e ∧ 0 ≤ e) ∧
    ∃ q : ℚ, sigmoid (Double.single (Double.fin (-37)) (Double.fin (6922830684512341 / 2 ^ 106)))
      (Double.fin 37) = Double.fin q ∧ 0 ≤ q ∧ q ≤ 1 :=
  ⟨Or.inr ⟨_, Double.single_self _ _, by norm_num⟩,
    (sigmoid_closed_range
      (Double.single (Double.fin (-37)) (Double.fin (6922830684512341 / 2 ^ 106))) 37
      (Or.inr ⟨_, Double.single_self _ _, by norm_num⟩)).2.1⟩

/-- C16: for every real `v`, `d_sigmoid(sigmoid(v))` is the derivative of `sigmoid` at `v`: the
local derivative that `backprop` computes from a cached activation `sigmoid(z)` is the
derivative of the nonlinearity at the pre-activation `z`. -/
theorem d_sigmoid_is_derivative (v : ℝ) :
    HasDerivAt (sigmoid Real.exp) (d_sigmoid (sigmoid Real.exp v)) v ∧
    deriv (sigmoid Real.exp) v = d_sigmoid (sigmoid Real.exp v) ∧
    ∀ z : linalg.Matrix ℝ, ∀ r < z.rows, ∀ c < z.cols,
      ((z.apply_function (sigmoid Real.exp)).apply_function d_sigmoid).get r c
        = deriv (sigmoid Real.exp) (z.get r c) := by
  refine ⟨sigmoid_hasDerivAt v, (sigmoid_hasDerivAt v).deriv, ?_⟩
  intro z r hr c hc
  obtain ⟨h1, h2, _, h4⟩ := linalg.Matrix.apply_function_spec z (sigmoid Real.exp)
  rw [(linalg.Matrix.apply_function_spec _ d_sigmoid).2.2.2 r (by rw [h1]; exact hr) c
    (by rw [h2]; exact hc), h4 r hr c hc, (sigmoid_hasDerivAt (z.get r c)).deriv]

/-- C16 at the pre-activation `0` and at the `1 × 1` matrix holding it. -/
theorem d_sigmoid_is_derivative_witness :
    (0 : Nat) < (⟨1, 1, [0]⟩ : linalg.Matrix ℝ).rows ∧
    (0 : Nat) < (⟨1, 1, [0]⟩ : linalg.Matrix ℝ).cols ∧
    (((⟨1, 1, [0]⟩ : linalg.Matrix ℝ).apply_function (sigmoid Real.exp)).apply_function
        d_sigmoid).get 0 0
      = deriv (sigmoid Real.exp) ((⟨1, 1, [0]⟩ : linalg.Matrix ℝ).get 0 0) :=
  ⟨by decide, by decide,
    (d_sigmoid_is_derivative 0).2.2 ⟨1, 1, [0]⟩ 0 (by decide) 0 (by decide)⟩

end nn

namespace nn

namespace MLP

open linalg ieee

section Forward

variable {α : Type}

theorem getElem?_of_getD {β : Type} (l : List β) (i : Nat) (d : β) (h : i < l.length) :
    l[i]? = some (l.getD i d) := by
  simp [List.getD_eq_getElem?_getD, List.getElem?_eq_getElem h]

theorem getD_of_getElem? {β : Type} {l : List β} {i : Nat} {x : β} (d : β)
    (h : l[i]? = some x) : l.getD i d = x := by
  simp [List.getD_eq_getElem?_getD, h]

/-- One layer of `forward` on a state whose layer `i` accepts `prev`. -/
theorem forwardStep_ok [Zero α] [One α] [Add α] [Mul α] [Div α] [Neg α] (exp : α → α) (i : Nat) (prev : linalg.Matrix α) (m : MLP α)
    (W b p q : linalg.Matrix α)
    (hW : m.weight_matrices[i]? = some W) (hb : m.bias_vectors[i]? = some b)
    (hp : W.matmul prev = .ok p) (hq : p.add b = .ok q) (hi : i + 1 < m.activations.length) :
    forwardStep exp i prev m = .ok (q.apply_function (sigmoid exp))
      { m with activations := m.activations.set (i + 1) (q.apply_function (sigmoid exp)) } := by
  unfold forwardStep
  rw [Method.bind_ok (Method.index_ok hW), Method.bind_ok (Method.lift_ok hp m),
    Method.bind_ok (Method.index_ok hb), Method.bind_ok (Method.lift_ok hq m),
    Method.bind_ok (Method.assign_ok hi)]
  rfl

/-- Layer `i` of a well-shaped network accepts a well-formed column of height `w(i)` and
produces a well-formed column of height `w(i+1)`. -/
theorem layer_accepts [Zero α] [Add α] [Mul α] (m : MLP α) (hm : m.WellShaped) (i : Nat)
    (hi : i < m.weight_matrices.length) (prev : linalg.Matrix α)
    (hs : prev.shape = (m.units_per_layer.getD i 0, 1)) :
    ∃ W b p q, m.weight_matrices[i]? = some W ∧ m.bias_vectors[i]? = some b ∧
      W.matmul prev = .ok p ∧ p.add b = .ok q ∧
      q.shape = (m.units_per_layer.getD (i + 1) 0, 1) ∧ q.WF := by
  obtain ⟨_, _, hnW, hnb, _, hsh⟩ := hm
  obtain ⟨hWs, _, hbs, _⟩ := hsh i hi
  have hib : i < m.bias_vectors.length := by omega
  have hWc : (m.weight_matrices.getD i Matrix.empty).cols = prev.rows :=
    (congrArg Prod.snd hWs).trans (congrArg Prod.fst hs).symm
  obtain ⟨p, hp, hpr, hpc, _, _⟩ := Matrix.matmul_shape _ prev hWc
  have hps : p.shape = (m.bias_vectors.getD i Matrix.empty).shape := by
    rw [hbs]
    exact Prod.ext (hpr.trans (congrArg Prod.fst hWs)) (hpc.trans (congrArg Prod.snd hs))
  obtain ⟨q, hq, hqr, hqc, hqw, _⟩ := Matrix.add_shape p _ hps
  refine ⟨_, _, p, q, getElem?_of_getD _ i Matrix.empty hi,
    getElem?_of_getD _ i Matrix.empty hib, hp, hq, ?_, hqw⟩
  rw [← hbs, ← hps]
  exact Prod.ext hqr hqc

theorem apply_function_shape [Zero α] (A : linalg.Matrix α) (f : α → α) :
    (A.apply_function f).shape = A.shape :=
  Prod.ext (Matrix.apply_function_spec A f).1 (Matrix.apply_function_spec A f).2.1

/-- The loop of `forward`, entered at layer `i` with `prev` the content of slot `i`, runs to
completion: it fills the slots above `i`, leaves the slots up to `i` and all parameters as they
were, and returns the content of the last slot. -/
theorem forwardLoop_spec [Zero α] [One α] [Add α] [Mul α] [Div α] [Neg α] (exp : α → α) (todo : Nat) :
    ∀ (i : Nat) (prev : linalg.Matrix α) (m : MLP α), m.WellShaped →
      i + todo + 1 = m.units_per_layer.length → m.activations[i]? = some prev →
      prev.shape = (m.units_per_layer.getD i 0, 1) →
      ∃ m', forwardLoop exp todo i prev m = .ok (m'.activations.getD (i + todo) Matrix.empty) m' ∧
        SameParams m m' ∧ m'.activations.length = m.activations.length ∧
        (∀ j ≤ i, m'.activations[j]? = m.activations[j]?) ∧
        (∀ j, i ≤ j → j < i + todo → LayerComputed exp m' j) ∧
        (∀ j, i < j → j ≤ i + todo →
          (m'.activations.getD j Matrix.empty).shape = (m.units_per_layer.getD j 0, 1) ∧
          (m'.activations.getD j Matrix.empty).WF) := by
  induction todo with
  | zero =>
    intro i prev m _ _ hprev _
    refine ⟨m, ?_, ⟨rfl, rfl, rfl, rfl⟩, rfl, fun _ _ => rfl, ?_, ?_⟩
    · rw [Nat.add_zero, getD_of_getElem? _ hprev]; rfl
    · intro j h1 h2; omega
    · intro j h1 h2; omega
  | succ todo ih =>
    intro i prev m hm hlen hprev hshape
    have hm' := hm
    obtain ⟨h2, h31, hnW, hnb, hnA, hsh⟩ := hm'
    have hiW : i < m.weight_matrices.length := by omega
    obtain ⟨W, b, p, q, hW, hb, hp, hq, hqs, hqw⟩ := layer_accepts m hm i hiW prev hshape
    have hiA : i + 1 < m.activations.length := by omega
    have hstep := forwardStep_ok exp i prev m W b p q hW hb hp hq hiA
    have hm1 : WellShaped { m with activations :=
        (m.activations.set (i + 1) (q.apply_function (sigmoid exp))) } := by
      refine ⟨h2, h31, hnW, hnb, ?_, hsh⟩
      simpa using hnA
    have hy1 : ({ m with activations :=
        (m.activations.set (i + 1) (q.apply_function (sigmoid exp))) } : MLP α).activations[i + 1]?
          = some (q.apply_function (sigmoid exp)) := by
      simp [hiA]
    obtain ⟨m', hrun, hsame, hlen', hlow, hcomp, hshapes⟩ :=
      ih (i + 1) (q.apply_function (sigmoid exp)) _ hm1 (by simpa using (by omega))
        hy1 (by rw [apply_function_shape]; exact hqs)
    have hidx : i + 1 + todo = i + (todo + 1) := by omega
    refine ⟨m', ?_, hsame, ?_, ?_, ?_, ?_⟩
    · show (forwardStep exp i prev >>= fun y => forwardLoop exp todo (i + 1) y) m = _
      rw [Method.bind_ok hstep, hrun, hidx]
    · simpa using hlen'
    · intro j hj
      rw [hlow j (by omega)]
      simp only
      rw [List.getElem?_set_ne (by omega)]
    · intro j h1 h2
      rcases Nat.eq_or_lt_of_le h1 with rfl | hlt
      · refine ⟨W, b, prev, p, q, ?_, ?_, ?_, hp, hq, ?_⟩
        · rw [hsame.2.1]; exact hW
        · rw [hsame.2.2.1]; exact hb
        · rw [hlow i (by omega)]
          simp only
          rw [List.getElem?_set_ne (by omega)]
          exact hprev
        · rw [hlow (i + 1) (Nat.le_refl _)]
          exact hy1
      · exact hcomp j hlt (by omega)
    · intro j h1 h2
      rcases Nat.eq_or_lt_of_le h1 with rfl | hlt
      · have : m'.activations.getD (i + 1) Matrix.empty = q.apply_function (sigmoid exp) :=
          getD_of_getElem? _ ((hlow (i + 1) (Nat.le_refl _)).trans hy1)
        rw [this, apply_function_shape]
        exact ⟨hqs, (Matrix.apply_function_spec q _).2.2.1⟩
      · exact hshapes j hlt (by omega)

theorem size_t_sub_one_lt (a : Nat) (h1 : 1 ≤ a) (h2 : a < 2 ^ 64) :
    size_t_sub a 1 = a - 1 := by
  unfold size_t_sub
  norm_num at h2 ⊢
  omega

theorem size_t_sub_one (a : Nat) (h1 : 1 ≤ a) (h2 : a ≤ 2 ^ 31) : size_t_sub a 1 = a - 1 :=
  size_t_sub_one_lt a h1 (Nat.lt_of_le_of_lt h2 (by norm_num))

theorem SameParams.wellShaped {m m' : MLP α} (h : SameParams m m')
    (hlen : m'.activations.length = m.activations.length) (hm : m.WellShaped) :
    m'.WellShaped := by
  obtain ⟨h1, h2, h3, h4⟩ := h
  unfold WellShaped
  rw [h1, h2, h3, hlen]
  exact hm

/-- Method `forward` on a well-shaped network and a fitting input runs to completion; the cache
then holds the input in slot `0` and the output of layer `j` in slot `j + 1`. -/
theorem forward_spec [Zero α] [One α] [Add α] [Mul α] [Div α] [Neg α] (exp : α → α) (m : MLP α) (x : linalg.Matrix α) (hm : m.WellShaped)
    (hx : m.ValidInput x) :
    ∃ m', forward exp x m
        = .ok (m'.activations.getD (m.units_per_layer.length - 1) Matrix.empty) m' ∧
      SameParams m m' ∧ m'.activations.length = m.activations.length ∧
      m'.activations[0]? = some x ∧
      (∀ j, j + 1 < m.units_per_layer.length → LayerComputed exp m' j) ∧ m'.Cached := by
  have hm' := hm
  obtain ⟨h2, h31, hnW, hnb, hnA, hsh⟩ := hm'
  have hu0 : m.units_per_layer[0]? = some (m.units_per_layer.getD 0 0) :=
    getElem?_of_getD _ 0 0 (by omega)
  have hassert : Method.assert (fun _ : MLP α =>
      decide (x.shape.1 = m.units_per_layer.getD 0 0) && decide (x.shape.2 ≠ 0)) m
      = .ok () m := by
    apply Method.assert_ok
    simp [hx.1]
  have h0A : 0 < m.activations.length := by omega
  have hm0 : WellShaped { m with activations := (m.activations.set 0 x) } := by
    refine ⟨h2, h31, hnW, hnb, ?_, hsh⟩
    simpa using hnA
  have hx0 : ({ m with activations := (m.activations.set 0 x) } : MLP α).activations[0]?
      = some x := by
    simp [h0A]
  obtain ⟨m', hrun, hsame, hlen', hlow, hcomp, hshapes⟩ :=
    forwardLoop_spec exp (m.units_per_layer.length - 1) 0 x _ hm0
      (by simp only; omega) hx0 hx.1
  refine ⟨m', ?_, hsame, by simpa using hlen', (hlow 0 (Nat.le_refl _)).trans hx0, ?_, ?_⟩
  · unfold forward
    rw [Method.bind_ok (Method.index_ok hu0), Method.bind_ok hassert,
      Method.bind_ok (Method.assign_ok h0A)]
    have hread : Method.read (fun m : MLP α => size_t_sub m.units_per_layer.length 1)
        ({ m with activations := (m.activations.set 0 x) } : MLP α)
        = .ok (m.units_per_layer.length - 1) { m with activations := (m.activations.set 0 x) } := by
      simp only [Method.read]
      rw [size_t_sub_one _ (by omega) h31]
    rw [Method.bind_ok hread, hrun, Nat.zero_add]
  · intro j hj
    exact hcomp j (Nat.zero_le _) (by omega)
  · intro j hj
    have hu : m'.units_per_layer = m.units_per_layer := hsame.1
    rw [hu]
    rcases Nat.eq_zero_or_pos j with rfl | hpos
    · rw [getD_of_getElem? _ ((hlow 0 (Nat.le_refl _)).trans hx0)]
      exact hx
    · have hl : m'.activations.length = m.units_per_layer.length := by
        rw [hlen']; simpa using hnA
      exact hshapes j hpos (by omega)

/-- A property of all cells of a well-formed matrix holds of every value in its buffer. -/
theorem forall_data_of_get [Zero α] (A : linalg.Matrix α) (P : α → Prop) (hA : A.WF)
    (h : ∀ r < A.rows, ∀ c < A.cols, P (A.get r c)) : ∀ v ∈ A.data, P v := by
  intro v hv
  obtain ⟨j, hj, hjv⟩ := List.getElem_of_mem hv
  have hn : j < A.rows * A.cols := hA ▸ hj
  have hpos : 0 < A.cols := by
    rcases Nat.eq_zero_or_pos A.cols with h0 | h0
    · rw [h0, Nat.mul_zero] at hn; exact absurd hn (Nat.not_lt_zero _)
    · exact h0
  have hdiv : j / A.cols < A.rows := (Nat.div_lt_iff_lt_mul hpos).mpr hn
  have hmod : j % A.cols < A.cols := Nat.mod_lt _ hpos
  have hidx : j / A.cols * A.cols + j % A.cols = j := by
    rw [Nat.mul_comm]; exact Nat.div_add_mod j A.cols
  have := h (j / A.cols) hdiv (j % A.cols) hmod
  simp only [Matrix.get, hidx, List.getD_eq_getElem?_getD, List.getElem?_eq_getElem hj,
    Option.getD_some, hjv] at this
  exact this

/-- Every value in the buffer of `apply_function(f)` is a value of `f`. -/
theorem apply_function_data [Zero α] (A : linalg.Matrix α) (f : α → α) (P : α → Prop)
    (hP : ∀ v, P (f v)) : ∀ v ∈ (A.apply_function f).data, P v := by
  obtain ⟨_, _, hw, he⟩ := Matrix.apply_function_spec A f
  apply forall_data_of_get _ P hw
  intro r hr c hc
  obtain ⟨h1, h2, _, _⟩ := Matrix.apply_function_spec A f
  rw [he r (h1 ▸ hr) c (h2 ▸ hc)]
  exact hP _

/-- Method `forward` on the one-layer network with widths `[2, 1]`, over any scalar type: the
cell of the output accumulates the two products from zero, then the bias is added. -/
theorem forward_2x1 [Zero α] [One α] [Add α] [Mul α] [Div α] [Neg α]
    (exp : α → α) (w1 w2 b lr x1 x2 : α) (a0 a1 : linalg.Matrix α) :
    forward exp ⟨1, 2, [x1, x2]⟩ ⟨[2, 1], [⟨1, 1, [b]⟩], [⟨2, 1, [w1, w2]⟩], [a0, a1], lr⟩
      = .ok ⟨1, 1, [sigmoid exp (0 + (0 + w1 * x1 + w2 * x2 + b))]⟩
          ⟨[2, 1], [⟨1, 1, [b]⟩], [⟨2, 1, [w1, w2]⟩],
            [⟨1, 2, [x1, x2]⟩, ⟨1, 1, [sigmoid exp (0 + (0 + w1 * x1 + w2 * x2 + b))]⟩], lr⟩ := by
  have hstep := forwardStep_ok exp 0 ⟨1, 2, [x1, x2]⟩
    (⟨[2, 1], [⟨1, 1, [b]⟩], [⟨2, 1, [w1, w2]⟩], [⟨1, 2, [x1, x2]⟩, a1], lr⟩ : MLP α)
    ⟨2, 1, [w1, w2]⟩ ⟨1, 1, [b]⟩ ⟨1, 1, [0 + w1 * x1 + w2 * x2]⟩
    ⟨1, 1, [0 + (0 + w1 * x1 + w2 * x2 + b)]⟩ rfl rfl rfl rfl (Nat.lt_add_one 1)
  unfold forward
  have hw0 : Method.index (fun m : MLP α => m.units_per_layer) 0
      (⟨[2, 1], [⟨1, 1, [b]⟩], [⟨2, 1, [w1, w2]⟩], [a0, a1], lr⟩ : MLP α)
      = .ok 2 ⟨[2, 1], [⟨1, 1, [b]⟩], [⟨2, 1, [w1, w2]⟩], [a0, a1], lr⟩ := rfl
  rw [Method.bind_ok hw0]
  have hassert : Method.assert (fun _ : MLP α =>
      decide ((⟨1, 2, [x1, x2]⟩ : linalg.Matrix α).shape.1 = 2)
        && decide ((⟨1, 2, [x1, x2]⟩ : linalg.Matrix α).shape.2 ≠ 0))
      (⟨[2, 1], [⟨1, 1, [b]⟩], [⟨2, 1, [w1, w2]⟩], [a0, a1], lr⟩ : MLP α) = .ok () _ := rfl
  rw [Method.bind_ok hassert]
  have hasg : Method.assign (fun m : MLP α => m.activations)
      (fun m a => { m with activations := a }) 0 (⟨1, 2, [x1, x2]⟩ : linalg.Matrix α)
      (⟨[2, 1], [⟨1, 1, [b]⟩], [⟨2, 1, [w1, w2]⟩], [a0, a1], lr⟩ : MLP α)
      = .ok () ⟨[2, 1], [⟨1, 1, [b]⟩], [⟨2, 1, [w1, w2]⟩], [⟨1, 2, [x1, x2]⟩, a1], lr⟩ := rfl
  rw [Method.bind_ok hasg]
  have hread : Method.read (fun m : MLP α => size_t_sub m.units_per_layer.length 1)
      (⟨[2, 1], [⟨1, 1, [b]⟩], [⟨2, 1, [w1, w2]⟩], [⟨1, 2, [x1, x2]⟩, a1], lr⟩ : MLP α)
      = .ok 1 ⟨[2, 1], [⟨1, 1, [b]⟩], [⟨2, 1, [w1, w2]⟩], [⟨1, 2, [x1, x2]⟩, a1], lr⟩ := by
    simp only [Method.read]
    rw [size_t_sub_one _ (by decide) (by decide)]
    rfl
  rw [Method.bind_ok hread]
  show (forwardStep exp 0 ⟨1, 2, [x1, x2]⟩ >>= fun y => forwardLoop exp 0 (0 + 1) y) _ = _
  rw [Method.bind_ok hstep]
  rfl

end Forward

variable {α : Type} [Field α]

/-- Method `forward` stops at its `assert`, with the object untouched, when the input has another
row count than the first layer width. -/
theorem forward_rows_mismatch (exp : α → α) (m : MLP α) (x : linalg.Matrix α) (w0 : Nat)
    (hw : m.units_per_layer[0]? = some w0) (hx : x.rows ≠ w0) :
    forward exp x m = .fail .dimensionMismatch m := by
  unfold forward
  rw [Method.bind_ok (Method.index_ok hw)]
  apply Method.bind_fail
  apply Method.assert_fail
  simp [Matrix.shape, hx]

/-- One iteration of the loop of `backprop` whose every shape check passes. -/
theorem backpropStep_ok (i : Nat) (error : linalg.Matrix α) (m : MLP α)
    (W a1 a0 b pe g0 wg b' W' : linalg.Matrix α)
    (hW : m.weight_matrices[i]? = some W) (hpe : W.transpose.matmul error = .ok pe)
    (ha1 : m.activations[i + 1]? = some a1)
    (hg0 : error.multiply_elementwise (a1.apply_function d_sigmoid) = .ok g0)
    (ha0 : m.activations[i]? = some a0)
    (hwg : (g0.multiply_scalar m.lr).matmul a0.transpose = .ok wg)
    (hb : m.bias_vectors[i]? = some b) (hb' : b.add (g0.multiply_scalar m.lr) = .ok b')
    (hW' : W.add wg = .ok W') :
    backpropStep i error m = .ok pe
      { m with bias_vectors := (m.bias_vectors.set i b'),
               weight_matrices := (m.weight_matrices.set i W') } := by
  have hib : i < m.bias_vectors.length := by
    rcases Nat.lt_or_ge i m.bias_vectors.length with h | h
    · exact h
    · rw [List.getElem?_eq_none h] at hb; cases hb
  have hiW : i < m.weight_matrices.length := by
    rcases Nat.lt_or_ge i m.weight_matrices.length with h | h
    · exact h
    · rw [List.getElem?_eq_none h] at hW; cases hW
  unfold backpropStep
  rw [Method.bind_ok (Method.index_ok hW), Method.bind_ok (Method.lift_ok hpe m),
    Method.bind_ok (Method.index_ok ha1), Method.bind_ok (Method.lift_ok hg0 m)]
  have hread : Method.read (fun m : MLP α => m.lr) m = .ok m.lr m := rfl
  rw [Method.bind_ok hread, Method.bind_ok (Method.index_ok ha0),
    Method.bind_ok (Method.lift_ok hwg m), Method.bind_ok (Method.index_ok hb),
    Method.bind_ok (Method.lift_ok hb' m), Method.bind_ok (Method.assign_ok hib)]
  have hW2 : Method.index (fun m : MLP α => m.weight_matrices) i
      ({ m with bias_vectors := (m.bias_vectors.set i b') } : MLP α)
      = .ok W { m with bias_vectors := (m.bias_vectors.set i b') } := Method.index_ok hW
  rw [Method.bind_ok hW2, Method.bind_ok (Method.lift_ok hW' _)]
  have hasg : Method.assign (fun m : MLP α => m.weight_matrices)
      (fun m v => { m with weight_matrices := v }) i W'
      ({ m with bias_vectors := (m.bias_vectors.set i b') } : MLP α)
      = .ok () { m with bias_vectors := (m.bias_vectors.set i b'),
                        weight_matrices := (m.weight_matrices.set i W') } :=
    Method.assign_ok hiW
  rw [Method.bind_ok hasg]
  rfl

theorem transpose_shape (A : linalg.Matrix α) : A.transpose.shape = (A.cols, A.rows) :=
  Prod.ext (Matrix.transpose_spec A).1 (Matrix.transpose_spec A).2.1

theorem multiply_scalar_shape (A : linalg.Matrix α) (c : α) :
    (A.multiply_scalar c).shape = A.shape :=
  Prod.ext (Matrix.multiply_scalar_spec A c).1 (Matrix.multiply_scalar_spec A c).2.1

/-- The shape checks of one iteration of `backprop` pass when the weight matrix is `o × n`, the
bias and the cached output are `o × 1`, the cached input is `n × 1` and the error is `o × 1`;
the new bias and weight matrix are well-formed and keep their shapes, and the error handed to
the layer below is `n × 1`. -/
theorem backprop_layer_accepts (o n : Nat) (lr : α) (W b a1 a0 error : linalg.Matrix α)
    (hW : W.shape = (o, n)) (hb : b.shape = (o, 1)) (ha1 : a1.shape = (o, 1))
    (ha0 : a0.shape = (n, 1)) (he : error.shape = (o, 1)) :
    ∃ pe g0 wg b' W', W.transpose.matmul error = .ok pe ∧
      error.multiply_elementwise (a1.apply_function d_sigmoid) = .ok g0 ∧
      (g0.multiply_scalar lr).matmul a0.transpose = .ok wg ∧
      b.add (g0.multiply_scalar lr) = .ok b' ∧ W.add wg = .ok W' ∧
      pe.shape = (n, 1) ∧ b'.shape = (o, 1) ∧ b'.WF ∧ W'.shape = (o, n) ∧ W'.WF := by
  have hWr : W.rows = o := congrArg Prod.fst hW
  have hWc : W.cols = n := congrArg Prod.snd hW
  have her : error.rows = o := congrArg Prod.fst he
  have hec : error.cols = 1 := congrArg Prod.snd he
  obtain ⟨pe, hpe, hper, hpec, _, _⟩ := Matrix.matmul_spec W.transpose error
    (by rw [(Matrix.transpose_spec W).2.1, hWr, her])
  obtain ⟨g0, hg0, hgr, hgc, _, _⟩ := Matrix.multiply_elementwise_spec error
    (a1.apply_function d_sigmoid) (by rw [apply_function_shape, he, ha1])
  have hgs : (g0.multiply_scalar lr).shape = (o, 1) := by
    rw [multiply_scalar_shape]
    exact Prod.ext (hgr.trans her) (hgc.trans hec)
  obtain ⟨wg, hwg, hwr, hwc, _, _⟩ := Matrix.matmul_spec (g0.multiply_scalar lr) a0.transpose
    (by rw [(Matrix.transpose_spec a0).1]
        exact (congrArg Prod.snd hgs).trans (congrArg Prod.snd ha0).symm)
  obtain ⟨b', hb', hbr, hbc, hbw, _⟩ := Matrix.add_spec b (g0.multiply_scalar lr)
    (by rw [hb, hgs])
  have hwgs : wg.shape = (o, n) := by
    refine Prod.ext (hwr.trans (congrArg Prod.fst hgs)) ?_
    exact hwc.trans ((Matrix.transpose_spec a0).2.1.trans (congrArg Prod.fst ha0))
  obtain ⟨W', hW', hWr', hWc', hWw, _⟩ := Matrix.add_spec W wg (by rw [hW, hwgs])
  refine ⟨pe, g0, wg, b', W', hpe, hg0, hwg, hb', hW', ?_, ?_, hbw, ?_, hWw⟩
  · exact Prod.ext (hper.trans ((Matrix.transpose_spec W).1.trans hWc)) (hpec.trans hec)
  · rw [← hb]; exact Prod.ext hbr hbc
  · rw [← hW]; exact Prod.ext hWr' hWc'

theorem specError_succ (m : MLP α) (t : linalg.Matrix α) (k : Nat) (e : linalg.Matrix α)
    (h : specError m t k = .ok e) :
    specError m t (k + 1)
      = (m.weight_matrices.getD (m.units_per_layer.length - 2 - k)
          Matrix.empty).transpose.matmul e := by
  show (specError m t k >>= _) = _
  rw [h]
  rfl

theorem getD_set_eq {β : Type} (l : List β) (i : Nat) (x d : β) (h : i < l.length) :
    (l.set i x).getD i d = x := by
  simp [List.getD_eq_getElem?_getD, h]

theorem getD_set_other {β : Type} (l : List β) (i j : Nat) (x d : β) (h : i ≠ j) :
    (l.set i x).getD j d = l.getD j d := by
  simp [List.getD_eq_getElem?_getD, List.getElem?_set_ne h]

omit [Field α] in
/-- Replacing the bias and the weight matrix of layer `i` by well-formed matrices of the same
shapes keeps a network well-shaped. -/
theorem wellShaped_set (s : MLP α) (hs : s.WellShaped) (i : Nat) (b' W' : linalg.Matrix α)
    (hb : b'.shape = (s.units_per_layer.getD (i + 1) 0, 1)) (hbw : b'.WF)
    (hW : W'.shape = (s.units_per_layer.getD (i + 1) 0, s.units_per_layer.getD i 0))
    (hWw : W'.WF) :
    WellShaped { s with bias_vectors := (s.bias_vectors.set i b'),
                        weight_matrices := (s.weight_matrices.set i W') } := by
  obtain ⟨h2, h31, hnW, hnb, hnA, hsh⟩ := hs
  refine ⟨h2, h31, by simpa using hnW, by simpa using hnb, hnA, ?_⟩
  intro j hj
  have hj' : j < s.weight_matrices.length := by simpa using hj
  simp only
  by_cases hij : i = j
  · subst hij
    rw [getD_set_eq _ _ _ _ hj', getD_set_eq _ _ _ _ (by omega)]
    exact ⟨hW, hWw, hb, hbw⟩
  · rw [getD_set_other _ _ _ _ _ hij, getD_set_other _ _ _ _ _ hij]
    exact hsh j hj'

/-- The loop of `backprop`, entered at `i = k - 1` with the layers from `k` upwards already
updated and `error` the error entering layer `k - 1`, runs to completion and updates the
remaining layers as the specification says. -/
theorem backpropLoop_spec (m : MLP α) (hm : m.WellShaped) (hc : m.Cached)
    (t : linalg.Matrix α) (k : Nat) :
    ∀ (s : MLP α) (error : linalg.Matrix α), k ≤ m.weight_matrices.length →
      s.WellShaped → s.units_per_layer = m.units_per_layer →
      s.activations = m.activations → s.lr = m.lr →
      (∀ j < k, s.weight_matrices[j]? = m.weight_matrices[j]? ∧
        s.bias_vectors[j]? = m.bias_vectors[j]?) →
      (∀ j, k ≤ j → j < m.weight_matrices.length → specLayerUpdate m s t j) →
      specError m t (m.weight_matrices.length - k) = .ok error →
      error.shape = (m.units_per_layer.getD k 0, 1) →
      ∃ m', backpropLoop k error s = .ok () m' ∧ m'.WellShaped ∧
        m'.units_per_layer = m.units_per_layer ∧ m'.activations = m.activations ∧
        m'.lr = m.lr ∧ ∀ j < m.weight_matrices.length, specLayerUpdate m m' t j := by
  induction k with
  | zero =>
    intro s error _ hs hu ha hl _ hupd _ _
    exact ⟨s, rfl, hs, hu, ha, hl, fun j hj => hupd j (Nat.zero_le _) hj⟩
  | succ i ih =>
    intro s error hk hs hu ha hl hlow hupd herr hshape
    have hm' := hm
    obtain ⟨h2, h31, hnW, hnb, hnA, hsh⟩ := hm'
    have hiW : i < m.weight_matrices.length := by omega
    obtain ⟨hWs, _, hbs, _⟩ := hsh i hiW
    have ha1 := (hc (i + 1) (by omega)).1
    have ha0 := (hc i (by omega)).1
    obtain ⟨pe, g0, wg, b', W', hpe, hg0, hwg, hb', hW', hpes, hb's, hb'w, hW's, hW'w⟩ :=
      backprop_layer_accepts _ _ m.lr _ _ _ _ error hWs hbs ha1 ha0 hshape
    have hsW : s.weight_matrices[i]? = some (m.weight_matrices.getD i Matrix.empty) :=
      (hlow i (Nat.lt_succ_self i)).1.trans (getElem?_of_getD _ i _ hiW)
    have hsb : s.bias_vectors[i]? = some (m.bias_vectors.getD i Matrix.empty) :=
      (hlow i (Nat.lt_succ_self i)).2.trans (getElem?_of_getD _ i _ (by omega))
    have hsa1 : s.activations[i + 1]? = some (m.activations.getD (i + 1) Matrix.empty) := by
      rw [ha]; exact getElem?_of_getD _ _ _ (by omega)
    have hsa0 : s.activations[i]? = some (m.activations.getD i Matrix.empty) := by
      rw [ha]; exact getElem?_of_getD _ _ _ (by omega)
    have hstep := backpropStep_ok i error s _ _ _ _ pe g0 wg b' W' hsW hpe hsa1 hg0 hsa0
      (by rw [hl]; exact hwg) hsb
      (by rw [hl]; exact hb') hW'
    have hs1 := wellShaped_set s hs i b' W' (by rw [hu]; exact hb's) hb'w
      (by rw [hu]; exact hW's) hW'w
    have hidx : m.units_per_layer.length - 2 - i = m.weight_matrices.length - (i + 1) := by
      omega
    have hsnb : i < s.bias_vectors.length := by
      have := hs.2.2.2.1
      rw [hu] at this
      omega
    have hsnW : i < s.weight_matrices.length := by
      have := hs.2.2.1
      rw [hu] at this
      omega
    obtain ⟨m', hrun, hfinal⟩ := ih _ pe (by omega) hs1 hu ha hl
      (by
        intro j hj
        have hne : i ≠ j := by omega
        simp only
        rw [List.getElem?_set_ne hne, List.getElem?_set_ne hne]
        exact hlow j (by omega))
      (by
        intro j h1 h2
        rcases Nat.eq_or_lt_of_le h1 with rfl | hlt
        · refine ⟨error, g0, wg, b', W', ?_, hg0, hwg, hb', ?_, hW', ?_⟩
          · rw [hidx]; exact herr
          · simp only
            rw [List.getElem?_set_self hsnb]
          · simp only
            rw [List.getElem?_set_self hsnW]
        · obtain ⟨e, g, w, bb, WW, q1, q2, q3, q4, q5, q6, q7⟩ := hupd j hlt h2
          have hne : i ≠ j := by omega
          refine ⟨e, g, w, bb, WW, q1, q2, q3, q4, ?_, q6, ?_⟩
          · simp only
            rw [List.getElem?_set_ne hne]; exact q5
          · simp only
            rw [List.getElem?_set_ne hne]; exact q7)
      (by
        have h3 : m.weight_matrices.length - i = (m.weight_matrices.length - (i + 1)) + 1 := by
          omega
        rw [h3, specError_succ m t _ error herr]
        have h4 : m.units_per_layer.length - 2 - (m.weight_matrices.length - (i + 1)) = i := by
          omega
        rw [h4]
        exact hpe)
      hpes
    refine ⟨m', ?_, hfinal⟩
    show (backpropStep i error >>= fun prev_errors => backpropLoop i prev_errors) s = _
    rw [Method.bind_ok hstep, hrun]

theorem backprop_start (n : Nat) (h1 : 1 ≤ n) (h2 : n < 2 ^ 31) :
    (to_int (size_t_sub n 1) + 1).toNat = n := by
  rw [size_t_sub_one n h1 (Nat.le_of_lt h2)]
  unfold to_int
  norm_num at h2 ⊢
  omega

theorem getLast?_of_getD {β : Type} (l : List β) (d : β) (h : 0 < l.length) :
    l.getLast? = some (l.getD (l.length - 1) d) := by
  rw [List.getLast?_eq_getElem?]
  exact getElem?_of_getD l _ d (by omega)

/-- Method `backprop` on a well-shaped network with a filled cache and a fitting target runs to
completion, updates every layer as the specification says and leaves the network well-shaped. -/
theorem backprop_spec (m : MLP α) (hm : m.WellShaped) (hc : m.Cached) (t : linalg.Matrix α)
    (ht : t.shape = (m.units_per_layer.getD (m.units_per_layer.length - 1) 0, 1)) :
    ∃ m', backprop t m = .ok () m' ∧ m'.WellShaped ∧
      m'.units_per_layer = m.units_per_layer ∧ m'.activations = m.activations ∧
      m'.lr = m.lr ∧ ∀ j < m.weight_matrices.length, specLayerUpdate m m' t j := by
  have hm' := hm
  obtain ⟨h2, h31, hnW, hnb, hnA, hsh⟩ := hm'
  have hlast := getLast?_of_getD m.units_per_layer 0 (by omega)
  have hassert : Method.assert (fun _ : MLP α => decide (t.shape.1
      = m.units_per_layer.getD (m.units_per_layer.length - 1) 0)) m = .ok () m := by
    apply Method.assert_ok
    simp [ht]
  have hyhat := getLast?_of_getD m.activations Matrix.empty (by omega)
  have hys := (hc (m.activations.length - 1) (by omega)).1
  rw [hnA] at hys
  obtain ⟨error, herr, her, hec, _, _⟩ := Matrix.sub_spec t
    (m.activations.getD (m.activations.length - 1) Matrix.empty) (by rw [hnA, ht, hys])
  have herr0 : specError m t (m.weight_matrices.length - m.weight_matrices.length)
      = .ok error := by
    rw [Nat.sub_self]
    show t.sub _ = _
    rw [← hnA]; exact herr
  have hes : error.shape = (m.units_per_layer.getD m.weight_matrices.length 0, 1) := by
    have : m.weight_matrices.length = m.units_per_layer.length - 1 := by omega
    rw [this]
    exact Prod.ext (her.trans (congrArg Prod.fst ht)) (hec.trans (congrArg Prod.snd ht))
  obtain ⟨m', hrun, hfinal⟩ := backpropLoop_spec m hm hc t m.weight_matrices.length m error
    (Nat.le_refl _) hm rfl rfl rfl (fun _ _ => ⟨rfl, rfl⟩) (fun j h1 h2 => by omega) herr0 hes
  refine ⟨m', ?_, hfinal⟩
  unfold backprop
  rw [Method.bind_ok (Method.back_ok hlast), Method.bind_ok hassert,
    Method.bind_ok (Method.back_ok hyhat), Method.bind_ok (Method.lift_ok herr m)]
  have hread : Method.read (fun m : MLP α => to_int (size_t_sub m.weight_matrices.length 1)) m
      = .ok (to_int (size_t_sub m.weight_matrices.length 1)) m := rfl
  rw [Method.bind_ok hread, backprop_start _ (by omega) (by omega), hrun]

theorem matmul_1x1 (a b : α) :
    (⟨1, 1, [a]⟩ : linalg.Matrix α).matmul ⟨1, 1, [b]⟩ = .ok ⟨1, 1, [a * b]⟩ := by
  have h : (⟨1, 1, [a]⟩ : linalg.Matrix α).matmul ⟨1, 1, [b]⟩ = .ok ⟨1, 1, [0 + a * b]⟩ := rfl
  rw [h, zero_add]

theorem add_1x1 (a b : α) :
    (⟨1, 1, [a]⟩ : linalg.Matrix α).add ⟨1, 1, [b]⟩ = .ok ⟨1, 1, [a + b]⟩ := by
  have h : (⟨1, 1, [a]⟩ : linalg.Matrix α).add ⟨1, 1, [b]⟩ = .ok ⟨1, 1, [0 + (a + b)]⟩ := rfl
  rw [h, zero_add]

theorem sub_1x1 (a b : α) :
    (⟨1, 1, [a]⟩ : linalg.Matrix α).sub ⟨1, 1, [b]⟩ = .ok ⟨1, 1, [a - b]⟩ := by
  have h : (⟨1, 1, [a]⟩ : linalg.Matrix α).sub ⟨1, 1, [b]⟩ = .ok ⟨1, 1, [0 + (a + -b)]⟩ := rfl
  rw [h, zero_add, sub_eq_add_neg]

theorem multiply_elementwise_1x1 (a b : α) :
    (⟨1, 1, [a]⟩ : linalg.Matrix α).multiply_elementwise ⟨1, 1, [b]⟩ = .ok ⟨1, 1, [a * b]⟩ := by
  have h : (⟨1, 1, [a]⟩ : linalg.Matrix α).multiply_elementwise ⟨1, 1, [b]⟩
      = .ok ⟨1, 1, [0 + a * b]⟩ := rfl
  rw [h, zero_add]

theorem multiply_scalar_1x1 (a c : α) :
    (⟨1, 1, [a]⟩ : linalg.Matrix α).multiply_scalar c = ⟨1, 1, [a * c]⟩ := by
  have h : (⟨1, 1, [a]⟩ : linalg.Matrix α).multiply_scalar c = ⟨1, 1, [0 + a * c]⟩ := rfl
  rw [h, zero_add]

theorem transpose_1x1 (a : α) :
    (⟨1, 1, [a]⟩ : linalg.Matrix α).transpose = ⟨1, 1, [a]⟩ := by
  have h : (⟨1, 1, [a]⟩ : linalg.Matrix α).transpose = ⟨1, 1, [0 + a]⟩ := rfl
  rw [h, zero_add]

theorem apply_function_1x1 (a : α) (f : α → α) :
    (⟨1, 1, [a]⟩ : linalg.Matrix α).apply_function f = ⟨1, 1, [f a]⟩ := rfl

/-- Method `forward` on the one-layer network with widths `[1, 1]`. -/
theorem forward_1x1 (exp : α → α) (w b lr x : α) (a0 a1 : linalg.Matrix α) :
    forward exp ⟨1, 1, [x]⟩ ⟨[1, 1], [⟨1, 1, [b]⟩], [⟨1, 1, [w]⟩], [a0, a1], lr⟩
      = .ok ⟨1, 1, [sigmoid exp (w * x + b)]⟩
          ⟨[1, 1], [⟨1, 1, [b]⟩], [⟨1, 1, [w]⟩],
            [⟨1, 1, [x]⟩, ⟨1, 1, [sigmoid exp (w * x + b)]⟩], lr⟩ := by
  have hstep := forwardStep_ok exp 0 ⟨1, 1, [x]⟩
    (⟨[1, 1], [⟨1, 1, [b]⟩], [⟨1, 1, [w]⟩], [⟨1, 1, [x]⟩, a1], lr⟩ : MLP α)
    ⟨1, 1, [w]⟩ ⟨1, 1, [b]⟩ ⟨1, 1, [w * x]⟩ ⟨1, 1, [w * x + b]⟩ rfl rfl (matmul_1x1 w x)
    (add_1x1 (w * x) b)
    (Nat.lt_add_one 1)
  unfold forward
  have hw0 : Method.index (fun m : MLP α => m.units_per_layer) 0
      (⟨[1, 1], [⟨1, 1, [b]⟩], [⟨1, 1, [w]⟩], [a0, a1], lr⟩ : MLP α)
      = .ok 1 ⟨[1, 1], [⟨1, 1, [b]⟩], [⟨1, 1, [w]⟩], [a0, a1], lr⟩ := rfl
  rw [Method.bind_ok hw0]
  have hassert : Method.assert (fun _ : MLP α =>
      decide ((⟨1, 1, [x]⟩ : linalg.Matrix α).shape.1 = 1)
        && decide ((⟨1, 1, [x]⟩ : linalg.Matrix α).shape.2 ≠ 0))
      (⟨[1, 1], [⟨1, 1, [b]⟩], [⟨1, 1, [w]⟩], [a0, a1], lr⟩ : MLP α) = .ok () _ := rfl
  rw [Method.bind_ok hassert]
  have hasg : Method.assign (fun m : MLP α => m.activations)
      (fun m a => { m with activations := a }) 0 (⟨1, 1, [x]⟩ : linalg.Matrix α)
      (⟨[1, 1], [⟨1, 1, [b]⟩], [⟨1, 1, [w]⟩], [a0, a1], lr⟩ : MLP α)
      = .ok () ⟨[1, 1], [⟨1, 1, [b]⟩], [⟨1, 1, [w]⟩], [⟨1, 1, [x]⟩, a1], lr⟩ := rfl
  rw [Method.bind_ok hasg]
  have hread : Method.read (fun m : MLP α => size_t_sub m.units_per_layer.length 1)
      (⟨[1, 1], [⟨1, 1, [b]⟩], [⟨1, 1, [w]⟩], [⟨1, 1, [x]⟩, a1], lr⟩ : MLP α)
      = .ok 1 ⟨[1, 1], [⟨1, 1, [b]⟩], [⟨1, 1, [w]⟩], [⟨1, 1, [x]⟩, a1], lr⟩ := by
    simp only [Method.read]
    rw [size_t_sub_one _ (by decide) (by decide)]
    rfl
  rw [Method.bind_ok hread]
  show (forwardStep exp 0 ⟨1, 1, [x]⟩ >>= fun y => forwardLoop exp 0 (0 + 1) y) _ = _
  rw [Method.bind_ok hstep]
  rfl

/-- Method `backprop` on the one-layer network with widths `[1, 1]` whose cache holds the
input `x` and the output `y`. -/
theorem backprop_1x1 (w b lr x y t : α) :
    backprop ⟨1, 1, [t]⟩
        ⟨[1, 1], [⟨1, 1, [b]⟩], [⟨1, 1, [w]⟩], [⟨1, 1, [x]⟩, ⟨1, 1, [y]⟩], lr⟩
      = .ok () ⟨[1, 1], [⟨1, 1, [b + (t - y) * d_sigmoid y * lr]⟩],
          [⟨1, 1, [w + (t - y) * d_sigmoid y * lr * x]⟩], [⟨1, 1, [x]⟩, ⟨1, 1, [y]⟩], lr⟩ := by
  have hstep := backpropStep_ok 0 ⟨1, 1, [t - y]⟩
    (⟨[1, 1], [⟨1, 1, [b]⟩], [⟨1, 1, [w]⟩], [⟨1, 1, [x]⟩, ⟨1, 1, [y]⟩], lr⟩ : MLP α)
    ⟨1, 1, [w]⟩ ⟨1, 1, [y]⟩ ⟨1, 1, [x]⟩ ⟨1, 1, [b]⟩
    ⟨1, 1, [w * (t - y)]⟩ ⟨1, 1, [(t - y) * d_sigmoid y]⟩
    ⟨1, 1, [(t - y) * d_sigmoid y * lr * x]⟩
    ⟨1, 1, [b + (t - y) * d_sigmoid y * lr]⟩
    ⟨1, 1, [w + (t - y) * d_sigmoid y * lr * x]⟩
    rfl (by rw [transpose_1x1, matmul_1x1]) rfl
    (by rw [apply_function_1x1, multiply_elementwise_1x1]) rfl
    (by rw [multiply_scalar_1x1, transpose_1x1, matmul_1x1]) rfl
    (by rw [multiply_scalar_1x1, add_1x1]) (add_1x1 _ _)
  unfold backprop
  have hlast : Method.back (fun m : MLP α => m.units_per_layer)
      (⟨[1, 1], [⟨1, 1, [b]⟩], [⟨1, 1, [w]⟩], [⟨1, 1, [x]⟩, ⟨1, 1, [y]⟩], lr⟩ : MLP α)
      = .ok 1 ⟨[1, 1], [⟨1, 1, [b]⟩], [⟨1, 1, [w]⟩], [⟨1, 1, [x]⟩, ⟨1, 1, [y]⟩], lr⟩ := rfl
  have hyhat : Method.back (fun m : MLP α => m.activations)
      (⟨[1, 1], [⟨1, 1, [b]⟩], [⟨1, 1, [w]⟩], [⟨1, 1, [x]⟩, ⟨1, 1, [y]⟩], lr⟩ : MLP α)
      = .ok ⟨1, 1, [y]⟩ ⟨[1, 1], [⟨1, 1, [b]⟩], [⟨1, 1, [w]⟩], [⟨1, 1, [x]⟩, ⟨1, 1, [y]⟩], lr⟩ := rfl
  rw [Method.bind_ok hlast]
  have hassert : Method.assert (fun _ : MLP α =>
      decide ((⟨1, 1, [t]⟩ : linalg.Matrix α).shape.1 = 1))
      (⟨[1, 1], [⟨1, 1, [b]⟩], [⟨1, 1, [w]⟩], [⟨1, 1, [x]⟩, ⟨1, 1, [y]⟩], lr⟩ : MLP α)
      = .ok () ⟨[1, 1], [⟨1, 1, [b]⟩], [⟨1, 1, [w]⟩], [⟨1, 1, [x]⟩, ⟨1, 1, [y]⟩], lr⟩ := rfl
  rw [Method.bind_ok hassert, Method.bind_ok hyhat,
    Method.bind_ok (Method.lift_ok (sub_1x1 t y) _)]
  have hread : Method.read (fun m : MLP α => to_int (size_t_sub m.weight_matrices.length 1))
      (⟨[1, 1], [⟨1, 1, [b]⟩], [⟨1, 1, [w]⟩], [⟨1, 1, [x]⟩, ⟨1, 1, [y]⟩], lr⟩ : MLP α)
      = .ok (to_int (size_t_sub 1 1))
          ⟨[1, 1], [⟨1, 1, [b]⟩], [⟨1, 1, [w]⟩], [⟨1, 1, [x]⟩, ⟨1, 1, [y]⟩], lr⟩ := rfl
  rw [Method.bind_ok hread, backprop_start 1 (by decide) (by decide)]
  show (backpropStep 0 ⟨1, 1, [t - y]⟩ >>= fun prev_errors => backpropLoop 0 prev_errors) _ = _
  rw [Method.bind_ok hstep]
  rfl

/-- Method `backprop` stops at its `assert`, with the object untouched, when the target has
another row count than the last layer width. -/
theorem backprop_rows_mismatch (m : MLP α) (t : linalg.Matrix α) (last : Nat)
    (hl : m.units_per_layer.getLast? = some last) (ht : t.rows ≠ last) :
    backprop t m = .fail .dimensionMismatch m := by
  unfold backprop
  rw [Method.bind_ok (Method.back_ok hl)]
  apply Method.bind_fail
  apply Method.assert_fail
  simp [Matrix.shape, ht]

/-- Method `backprop` stops in `target - y_hat`, with the object untouched, when the target has
another shape than the cached output. -/
theorem backprop_shape_mismatch (m : MLP α) (t y_hat : linalg.Matrix α) (last : Nat)
    (hl : m.units_per_layer.getLast? = some last) (ht : t.rows = last)
    (hy : m.activations.getLast? = some y_hat) (hs : t.shape ≠ y_hat.shape) :
    backprop t m = .fail .dimensionMismatch m := by
  unfold backprop
  rw [Method.bind_ok (Method.back_ok hl)]
  have hassert : Method.assert (fun _ : MLP α => decide (t.shape.1 = last)) m = .ok () m := by
    apply Method.assert_ok
    simp [Matrix.shape, ht]
  rw [Method.bind_ok hassert, Method.bind_ok (Method.back_ok hy)]
  apply Method.bind_fail
  exact Method.lift_error (Matrix.sub_err t y_hat hs) m

/-- Entries of the output of one layer: `sigmoid` of the row-by-column sum plus the bias. -/
theorem layer_entries (f : α → α) (o n : Nat) (W b a p q : linalg.Matrix α)
    (hW : W.shape = (o, n)) (hb : b.shape = (o, 1)) (ha : a.shape = (n, 1))
    (hp : W.matmul a = .ok p) (hq : p.add b = .ok q) :
    q.shape = (o, 1) ∧ ∀ r < o,
      (q.apply_function f).get r 0 = f (q.get r 0) ∧
      q.get r 0 = (∑ k in Finset.range n, W.get r k * a.get k 0) + b.get r 0 := by
  have hWr : W.rows = o := congrArg Prod.fst hW
  have hWc : W.cols = n := congrArg Prod.snd hW
  obtain ⟨p', hp', hpr, hpc, _, hpe⟩ := Matrix.matmul_spec W a
    (hWc.trans (congrArg Prod.fst ha).symm)
  have hpp : p' = p := Except.ok.inj (hp'.symm.trans hp)
  subst hpp
  have hac : a.cols = 1 := congrArg Prod.snd ha
  have hps : p'.shape = b.shape := by
    rw [hb]; exact Prod.ext (hpr.trans hWr) (hpc.trans hac)
  obtain ⟨q', hq', hqr, hqc, _, hqe⟩ := Matrix.add_spec p' b hps
  have hqq : q' = q := Except.ok.inj (hq'.symm.trans hq)
  subst hqq
  have hqs : q'.shape = (o, 1) := Prod.ext (hqr.trans (hpr.trans hWr)) (hqc.trans (hpc.trans hac))
  refine ⟨hqs, ?_⟩
  intro r hr
  have hqr' : q'.rows = o := congrArg Prod.fst hqs
  have hqc' : q'.cols = 1 := congrArg Prod.snd hqs
  have hr1 : r < q'.rows := by rw [hqr']; exact hr
  have hc1 : 0 < q'.cols := by rw [hqc']; exact Nat.one_pos
  refine ⟨(Matrix.apply_function_spec q' f).2.2.2 r hr1 0 hc1, ?_⟩
  rw [hqe r (by rw [hpr, hWr]; exact hr) 0 (by rw [hpc, hac]; exact Nat.one_pos),
    hpe r (by rw [hWr]; exact hr) 0 (by rw [hac]; exact Nat.one_pos), hWc]

/-- Entries of the bias and weight matrix written by one iteration of `backprop`. -/
theorem update_entries (o n : Nat) (lr : α) (W b a1 a0 e g0 wg b' W' : linalg.Matrix α)
    (hW : W.shape = (o, n)) (hb : b.shape = (o, 1)) (ha1 : a1.shape = (o, 1))
    (ha0 : a0.shape = (n, 1))
    (hg0 : e.multiply_elementwise (a1.apply_function d_sigmoid) = .ok g0)
    (hwg : (g0.multiply_scalar lr).matmul a0.transpose = .ok wg)
    (hb' : b.add (g0.multiply_scalar lr) = .ok b') (hW' : W.add wg = .ok W') :
    ∀ r < o,
      b'.get r 0 = b.get r 0 + e.get r 0 * d_sigmoid (a1.get r 0) * lr ∧
      ∀ c < n, W'.get r c
        = W.get r c + e.get r 0 * d_sigmoid (a1.get r 0) * lr * a0.get c 0 := by
  have hes : e.shape = (a1.apply_function d_sigmoid).shape := by
    by_contra hne
    rw [Matrix.multiply_elementwise_err e _ hne] at hg0
    cases hg0
  have hes' : e.shape = (o, 1) := by rw [hes, apply_function_shape, ha1]
  have her : e.rows = o := congrArg Prod.fst hes'
  have hec : e.cols = 1 := congrArg Prod.snd hes'
  have ha1r : a1.rows = o := congrArg Prod.fst ha1
  have ha1c : a1.cols = 1 := congrArg Prod.snd ha1
  have ha0r : a0.rows = n := congrArg Prod.fst ha0
  have ha0c : a0.cols = 1 := congrArg Prod.snd ha0
  obtain ⟨g, hg, hgr, hgc, _, hge⟩ := Matrix.multiply_elementwise_spec e _ hes
  have hgg : g = g0 := Except.ok.inj (hg.symm.trans hg0)
  subst hgg
  obtain ⟨hsr, hsc, _, hse⟩ := Matrix.multiply_scalar_spec g lr
  obtain ⟨htr, htc, _, hte⟩ := Matrix.transpose_spec a0
  obtain ⟨wg', hwg', hwr, hwc, _, hwe⟩ := Matrix.matmul_spec (g.multiply_scalar lr)
    a0.transpose (by rw [hsc, hgc, hec, htr, ha0c])
  have hww : wg' = wg := Except.ok.inj (hwg'.symm.trans hwg)
  subst hww
  obtain ⟨b1, hb1, _, _, _, hbe⟩ := Matrix.add_spec b (g.multiply_scalar lr)
    (by rw [hb]; exact (Prod.ext (hsr.trans (hgr.trans her)) (hsc.trans (hgc.trans hec))).symm)
  have hbb : b1 = b' := Except.ok.inj (hb1.symm.trans hb')
  subst hbb
  obtain ⟨W1, hW1, _, _, _, hWe⟩ := Matrix.add_spec W wg'
    (by rw [hW]
        exact (Prod.ext (hwr.trans (hsr.trans (hgr.trans her)))
          (hwc.trans (htc.trans ha0r))).symm)
  have hWW : W1 = W' := Except.ok.inj (hW1.symm.trans hW')
  subst hWW
  intro r hr
  have hg_r : (g.multiply_scalar lr).get r 0 = e.get r 0 * d_sigmoid (a1.get r 0) * lr := by
    rw [hse r (by rw [hgr, her]; exact hr) 0 (by rw [hgc, hec]; exact Nat.one_pos),
      hge r (by rw [her]; exact hr) 0 (by rw [hec]; exact Nat.one_pos),
      (Matrix.apply_function_spec a1 d_sigmoid).2.2.2 r (by rw [ha1r]; exact hr) 0
        (by rw [ha1c]; exact Nat.one_pos)]
  have hbr : b.rows = o := congrArg Prod.fst hb
  have hbc : b.cols = 1 := congrArg Prod.snd hb
  have hWr : W.rows = o := congrArg Prod.fst hW
  have hWc : W.cols = n := congrArg Prod.snd hW
  refine ⟨?_, ?_⟩
  · rw [hbe r (by rw [hbr]; exact hr) 0 (by rw [hbc]; exact Nat.one_pos), hg_r]
  · intro c hc
    rw [hWe r (by rw [hWr]; exact hr) c (by rw [hWc]; exact hc),
      hwe r (by rw [hsr, hgr, her]; exact hr) c (by rw [htc, ha0r]; exact hc),
      hsc, hgc, hec, Finset.sum_range_one, hg_r,
      hte c (by rw [ha0r]; exact hc) 0 (by rw [ha0c]; exact Nat.one_pos)]

/-- Method `backprop` stops with a dimension mismatch, the object untouched, whenever the
target has another shape than the cached output. -/
theorem backprop_shape_mismatch_any (m : MLP α) (t y_hat : linalg.Matrix α) (last : Nat)
    (hl : m.units_per_layer.getLast? = some last)
    (hy : m.activations.getLast? = some y_hat) (hs : t.shape ≠ y_hat.shape) :
    backprop t m = .fail .dimensionMismatch m := by
  by_cases hr : t.rows = last
  · exact backprop_shape_mismatch m t y_hat last hl hr hy hs
  · exact backprop_rows_mismatch m t last hl hr

/-! ## The forward pass -/

/-- C1: on a network with widths `[w0, ..., wn]`, `n ≥ 1`, whose `weights[i]` are
`w(i+1) × w(i)` and whose `biases[i]` are `w(i+1) × 1`, and an input of shape `(w0, 1)`,
`forward` returns; afterwards `activations[0]` is the input, every entry of `activations[i+1]`
is `sigmoid` of the matching entry of `matmul(weights[i], activations[i]) + biases[i]` (the
row-by-column sum plus the bias entry), and the returned value is `activations[n]`. -/
theorem forward_cache_contract (exp : α → α) (m : MLP α) (x : linalg.Matrix α)
    (hm : m.WellShaped) (hx : m.ValidInput x) :
    ∃ y m', forward exp x m = .ok y m' ∧
      m'.activations[0]? = some x ∧
      m'.activations[m.units_per_layer.length - 1]? = some y ∧
      m'.weight_matrices = m.weight_matrices ∧ m'.bias_vectors = m.bias_vectors ∧
      ∀ i, i + 1 < m.units_per_layer.length →
        ∃ W b a p q a', m'.weight_matrices[i]? = some W ∧ m'.bias_vectors[i]? = some b ∧
          m'.activations[i]? = some a ∧ m'.activations[i + 1]? = some a' ∧
          W.matmul a = .ok p ∧ p.add b = .ok q ∧
          a'.shape = (m.units_per_layer.getD (i + 1) 0, 1) ∧ q.shape = a'.shape ∧
          ∀ r < m.units_per_layer.getD (i + 1) 0,
            a'.get r 0 = sigmoid exp (q.get r 0) ∧
            q.get r 0 = (∑ k in Finset.range (m.units_per_layer.getD i 0),
              W.get r k * a.get k 0) + b.get r 0 := by
  obtain ⟨m', hrun, hsame, hlen, h0, hcomp, hcached⟩ := forward_spec exp m x hm hx
  have hm' := hm
  obtain ⟨h2, h31, hnW, hnb, hnA, hsh⟩ := hm'
  refine ⟨_, m', hrun, h0, getElem?_of_getD _ _ _ (by omega), hsame.2.1, hsame.2.2.1, ?_⟩
  intro i hi
  obtain ⟨W, b, a, p, q, hW, hb, ha, hp, hq, ha'⟩ := hcomp i hi
  have hiW : i < m.weight_matrices.length := by omega
  obtain ⟨hWs, _, hbs, _⟩ := hsh i hiW
  rw [← hsame.2.1, getD_of_getElem? _ hW] at hWs
  rw [← hsame.2.2.1, getD_of_getElem? _ hb] at hbs
  have has := (hcached i (by omega)).1
  rw [getD_of_getElem? _ ha, hsame.1] at has
  obtain ⟨hqs, hent⟩ := layer_entries (sigmoid exp) _ _ W b a p q hWs hbs has hp hq
  refine ⟨W, b, a, p, q, _, hW, hb, ha, ha', hp, hq, ?_, ?_, hent⟩
  · rw [apply_function_shape]; exact hqs
  · rw [apply_function_shape]

/-- C4: on a well-shaped network with widths `[w0, ..., wn]`, `forward` on an input of shape
`(w0, 1)` returns a matrix of shape `(wn, 1)`, and `forward` on an input whose row count is not
`w0` stops with a dimension mismatch (leaving the object as it was). -/
theorem forward_shape_law (exp : α → α) (m : MLP α) (hm : m.WellShaped) :
    (∀ x : linalg.Matrix α, m.ValidInput x →
      ∃ y m', forward exp x m = .ok y m' ∧
        y.shape = (m.units_per_layer.getD (m.units_per_layer.length - 1) 0, 1)) ∧
    (∀ x : linalg.Matrix α, x.rows ≠ m.units_per_layer.getD 0 0 →
      forward exp x m = .fail .dimensionMismatch m) := by
  have hm' := hm
  obtain ⟨h2, h31, hnW, hnb, hnA, hsh⟩ := hm'
  constructor
  · intro x hx
    obtain ⟨m', hrun, hsame, hlen, h0, hcomp, hcached⟩ := forward_spec exp m x hm hx
    refine ⟨_, m', hrun, ?_⟩
    have := (hcached (m.units_per_layer.length - 1) (by omega)).1
    rw [hsame.1] at this
    exact this
  · intro x hx
    exact forward_rows_mismatch exp m x _ (getElem?_of_getD _ 0 0 (by omega)) hx

/-- The state a completed `forward` leaves is well-shaped, has a filled cache and the same
parameters. -/
theorem forward_ok_state (exp : α → α) (m0 m : MLP α) (x y : linalg.Matrix α)
    (hm : m0.WellShaped) (hx : m0.ValidInput x) (hf : forward exp x m0 = .ok y m) :
    m.WellShaped ∧ m.Cached ∧ SameParams m0 m := by
  obtain ⟨m', hrun, hsame, hlen, _, _, hcached⟩ := forward_spec exp m0 x hm hx
  rw [hrun] at hf
  have hmm : m' = m := by
    injection hf
  subst hmm
  exact ⟨hsame.wellShaped hlen hm, hcached, hsame⟩

/-- Two caches filled by the same layers from the same input agree slot by slot. -/
theorem cache_unique (exp : α → α) (m1 m2 : MLP α) (x : linalg.Matrix α)
    (hW : m2.weight_matrices = m1.weight_matrices) (hb : m2.bias_vectors = m1.bias_vectors)
    (h1 : m1.activations[0]? = some x) (h2 : m2.activations[0]? = some x) (n : Nat)
    (hc1 : ∀ j, j < n → LayerComputed exp m1 j) (hc2 : ∀ j, j < n → LayerComputed exp m2 j) :
    ∀ j, j ≤ n → m2.activations[j]? = m1.activations[j]? := by
  intro j
  induction j with
  | zero => intro _; rw [h1, h2]
  | succ j ih =>
    intro hj
    obtain ⟨W, b, a, p, q, e1, e2, e3, e4, e5, e6⟩ := hc1 j (by omega)
    obtain ⟨W', b', a', p', q', f1, f2, f3, f4, f5, f6⟩ := hc2 j (by omega)
    rw [hW, e1] at f1
    rw [hb, e2] at f2
    rw [ih (by omega), e3] at f3
    cases f1; cases f2; cases f3
    rw [e4] at f4
    cases f4
    rw [e5] at f5
    cases f5
    rw [e6, f6]

/-- C9: on a well-shaped network and a fitting input, `forward` leaves the layer widths, the
learning rate, every weight matrix and every bias vector as they were, and a second
`forward` of the same input on the resulting state returns the same value and leaves the whole
state, the activation cache included, identical. -/
theorem forward_idempotent (exp : α → α) (m : MLP α) (x : linalg.Matrix α)
    (hm : m.WellShaped) (hx : m.ValidInput x) :
    ∃ y m1, forward exp x m = .ok y m1 ∧
      m1.units_per_layer = m.units_per_layer ∧ m1.lr = m.lr ∧
      m1.weight_matrices = m.weight_matrices ∧ m1.bias_vectors = m.bias_vectors ∧
      forward exp x m1 = .ok y m1 := by
  obtain ⟨m1, hrun1, hsame1, hlen1, h01, hcomp1, hcached1⟩ := forward_spec exp m x hm hx
  have hm1 : m1.WellShaped := hsame1.wellShaped hlen1 hm
  have hx1 : m1.ValidInput x := by
    unfold ValidInput
    rw [hsame1.1]
    exact hx
  obtain ⟨m2, hrun2, hsame2, hlen2, h02, hcomp2, _⟩ := forward_spec exp m1 x hm1 hx1
  refine ⟨_, m1, hrun1, hsame1.1, hsame1.2.2.2, hsame1.2.1, hsame1.2.2.1, ?_⟩
  have hlenA : m1.activations.length = m1.units_per_layer.length := hm1.2.2.2.2.1
  have hacts : m2.activations = m1.activations := by
    apply List.ext_getElem?
    intro j
    rcases Nat.lt_or_ge j m1.units_per_layer.length with hj | hj
    · exact cache_unique exp m1 m2 x hsame2.2.1 hsame2.2.2.1 h01 h02
        (m1.units_per_layer.length - 1)
        (fun j hj => hcomp1 j (by rw [← hsame1.1]; omega))
        (fun j hj => hcomp2 j (by omega)) j (by omega)
    · rw [List.getElem?_eq_none (by omega), List.getElem?_eq_none (by omega)]
  have hmm : m2 = m1 := by
    obtain ⟨u2, b2, w2, a2, l2⟩ := m2
    obtain ⟨u1, b1, w1, a1, l1⟩ := m1
    obtain ⟨e1, e2, e3, e4⟩ := hsame2
    simp only at e1 e2 e3 e4 hacts
    rw [e1, e2, e3, e4, hacts]
  rw [hrun2, hmm, hsame1.1]

/-! ## The backward pass -/

/-- C2: after `forward(x)` has run on a well-shaped network and for a target of shape
`(wn, 1)`, `backprop` returns and has updated every layer `i` to
`biases[i] + g(i)` and `weights[i] + matmul(g(i), transpose(activations[i]))`, where
`g(i) = lr * (e(i) elementwise-times d_sigmoid(activations[i+1]))`, `e(n-1)` is
`target - activations[n]` and `e(i-1) = matmul(transpose(W(i)), e(i))` with `W(i)` the weight
matrix before the call and `e(i)` the error before it is multiplied by the local derivative;
entry by entry, `biases[i](r) += e(i)(r) * d_sigmoid(a(i+1)(r)) * lr` and
`weights[i](r, c) += e(i)(r) * d_sigmoid(a(i+1)(r)) * lr * a(i)(c)`. -/
theorem backprop_update_contract (exp : α → α) (m0 m : MLP α) (x y t : linalg.Matrix α)
    (hm : m0.WellShaped) (hx : m0.ValidInput x) (hf : forward exp x m0 = .ok y m)
    (ht : m.ValidTarget t) :
    ∃ m', backprop t m = .ok () m' ∧ m'.units_per_layer = m.units_per_layer ∧
      m'.activations = m.activations ∧ m'.lr = m.lr ∧
      ∀ i < m.weight_matrices.length, specLayerUpdate m m' t i ∧
        ∃ e, specError m t (m.units_per_layer.length - 2 - i) = .ok e ∧
          ∀ r < m.units_per_layer.getD (i + 1) 0,
            (m'.bias_vectors.getD i Matrix.empty).get r 0
              = (m.bias_vectors.getD i Matrix.empty).get r 0
                + e.get r 0 * d_sigmoid ((m.activations.getD (i + 1) Matrix.empty).get r 0)
                  * m.lr ∧
            ∀ c < m.units_per_layer.getD i 0,
              (m'.weight_matrices.getD i Matrix.empty).get r c
                = (m.weight_matrices.getD i Matrix.empty).get r c
                  + e.get r 0 * d_sigmoid ((m.activations.getD (i + 1) Matrix.empty).get r 0)
                    * m.lr * (m.activations.getD i Matrix.empty).get c 0 := by
  obtain ⟨hmw, hmc, _⟩ := forward_ok_state exp m0 m x y hm hx hf
  obtain ⟨m', hrun, _, hu, ha, hl, hupd⟩ := backprop_spec m hmw hmc t ht.1
  refine ⟨m', hrun, hu, ha, hl, ?_⟩
  intro i hi
  refine ⟨hupd i hi, ?_⟩
  obtain ⟨e, g0, wg, b', W', q1, q2, q3, q4, q5, q6, q7⟩ := hupd i hi
  obtain ⟨h2, h31, hnW, hnb, hnA, hsh⟩ := hmw
  obtain ⟨hWs, _, hbs, _⟩ := hsh i hi
  have ha1 := (hmc (i + 1) (by omega)).1
  have ha0 := (hmc i (by omega)).1
  refine ⟨e, q1, ?_⟩
  rw [getD_of_getElem? _ q5, getD_of_getElem? _ q7]
  exact update_entries _ _ m.lr _ _ _ _ e g0 wg b' W' hWs hbs ha1 ha0 q2 q3 q4 q6

/-- C3: on the one-layer network with widths `[1, 1]`, weight `w0`, bias `b0` and learning rate
`lr`, `forward` of the `1 × 1` input `x` followed by one `backprop` of the `1 × 1` target `t`
leaves `weights[0] = w0 + grad * x` and `biases[0] = b0 + grad`, where
`y_hat = sigmoid(w0 * x + b0)` and `grad = (t - y_hat) * y_hat * (1 - y_hat) * lr`. -/
theorem single_layer_update (exp : α → α) (w0 b0 lr x t : α) (a0 a1 : linalg.Matrix α) :
    let y_hat := sigmoid exp (w0 * x + b0)
    let grad := (t - y_hat) * y_hat * (1 - y_hat) * lr
    ∃ y m1 m2,
      forward exp ⟨1, 1, [x]⟩ ⟨[1, 1], [⟨1, 1, [b0]⟩], [⟨1, 1, [w0]⟩], [a0, a1], lr⟩
        = .ok y m1 ∧
      backprop ⟨1, 1, [t]⟩ m1 = .ok () m2 ∧
      m2.weight_matrices = [⟨1, 1, [w0 + grad * x]⟩] ∧
      m2.bias_vectors = [⟨1, 1, [b0 + grad]⟩] := by
  intro y_hat grad
  refine ⟨_, _, _, forward_1x1 exp w0 b0 lr x a0 a1, backprop_1x1 w0 b0 lr x y_hat t, ?_, ?_⟩
  · show [(⟨1, 1, [w0 + (t - y_hat) * d_sigmoid y_hat * lr * x]⟩ : linalg.Matrix α)] = _
    have : (t - y_hat) * d_sigmoid y_hat * lr = grad := by
      simp only [d_sigmoid, grad]; ring
    rw [this]
  · show [(⟨1, 1, [b0 + (t - y_hat) * d_sigmoid y_hat * lr]⟩ : linalg.Matrix α)] = _
    have : (t - y_hat) * d_sigmoid y_hat * lr = grad := by
      simp only [d_sigmoid, grad]; ring
    rw [this]

/-! ## The constructor -/

theorem resize_length {β : Type} (v : List β) (n : Nat) (d : β) : (resize v n d).length = n := by
  simp only [resize, List.length_append, List.length_take, List.length_replicate]
  omega

theorem resize_self {β : Type} (v : List β) (n : Nat) (d : β) (h : v.length = n) :
    resize v n d = v := by
  simp [resize, ← h]

theorem resize_nil {β : Type} (n : Nat) (d : β) : resize [] n d = List.replicate n d := by
  simp [resize]

/-- The constructor's loop runs to completion whenever its index stays inside the width list:
every iteration appends one weight matrix and one bias vector and resizes the cache. -/
theorem ctorLoop_spec (draw : Nat → Nat → α) (todo : Nat) :
    ∀ (i : Nat) (m : MLP α), i + todo < m.units_per_layer.length →
      ∃ m', ctorLoop draw todo i m = .ok m' ∧ m'.units_per_layer = m.units_per_layer ∧
        m'.lr = m.lr ∧ m'.weight_matrices.length = m.weight_matrices.length + todo ∧
        m'.bias_vectors.length = m.bias_vectors.length + todo ∧
        (todo = 0 → m'.activations = m.activations) ∧
        (0 < todo → m'.activations
          = resize m.activations m.units_per_layer.length Matrix.empty) := by
  induction todo with
  | zero =>
    intro i m _
    exact ⟨m, rfl, rfl, rfl, rfl, rfl, fun _ => rfl, fun h => absurd h (Nat.lt_irrefl 0)⟩
  | succ todo ih =>
    intro i m hi
    have h1 := getElem?_of_getD m.units_per_layer (i + 1) 0 (by omega)
    have h0 := getElem?_of_getD m.units_per_layer i 0 (by omega)
    obtain ⟨m', hrun, hu, hl, hW, hb, ha0, ha1⟩ := ih (i + 1)
      { m with
        weight_matrices := (m.weight_matrices ++ [mtx.randn (draw (2 * i))
          (m.units_per_layer.getD (i + 1) 0) (m.units_per_layer.getD i 0)]),
        bias_vectors := (m.bias_vectors ++ [mtx.randn (draw (2 * i + 1))
          (m.units_per_layer.getD (i + 1) 0) 1]),
        activations := (resize m.activations m.units_per_layer.length Matrix.empty) }
      (by simp only; omega)
    refine ⟨m', ?_, hu, hl, ?_, ?_, fun h => absurd h (Nat.succ_ne_zero _), fun _ => ?_⟩
    · rw [ctorLoop, h1, h0]
      exact hrun
    · rw [hW]; simp only [List.length_append, List.length_singleton]; omega
    · rw [hb]; simp only [List.length_append, List.length_singleton]; omega
    · rcases Nat.eq_zero_or_pos todo with hz | hp
      · exact ha0 hz
      · rw [ha1 hp]
        exact resize_self _ _ _ (resize_length _ _ _)

/-- The constructor returns on every non-empty width list: it keeps the widths and the
learning rate, creates one weight matrix and one bias vector per layer, and sizes the cache to
the number of widths when there is at least one layer, leaving it empty otherwise. -/
theorem new_spec (draw : Nat → Nat → α) (units : List Nat) (lr : α) (h1 : units ≠ [])
    (h2 : units.length < 2 ^ 64) :
    ∃ m, MLP.new draw units lr = .ok m ∧ m.units_per_layer = units ∧ m.lr = lr ∧
      m.weight_matrices.length = units.length - 1 ∧
      m.bias_vectors.length = units.length - 1 ∧
      (units.length = 1 → m.activations = []) ∧
      (2 ≤ units.length → m.activations = List.replicate units.length Matrix.empty) := by
  have hpos : 1 ≤ units.length := by
    rcases units with _ | ⟨a, l⟩
    · exact absurd rfl h1
    · simp
  obtain ⟨m, hrun, hu, hl, hW, hb, ha0, ha1⟩ := ctorLoop_spec draw (units.length - 1) 0
    ({ units_per_layer := units, lr := lr, bias_vectors := [], weight_matrices := [],
       activations := [] } : MLP α) (by simp only; omega)
  refine ⟨m, ?_, hu, hl, by simpa using hW, by simpa using hb, ?_, ?_⟩
  · unfold MLP.new
    rw [size_t_sub_one_lt _ hpos h2]
    exact hrun
  · intro h
    exact ha0 (by omega)
  · intro h
    rw [ha1 (by omega)]
    exact resize_nil _ _

/-- C6, counterexample: the constructor returns a network for the one-entry width list `[3]`
and for the width list `[4, 0, 1]`, which contains a zero. -/
theorem new_accepts_degenerate_widths :
    MLP.new (fun _ _ => (0 : ℚ)) [3] (1 / 1000) = .ok ⟨[3], [], [], [], 1 / 1000⟩ ∧
    ∃ m, MLP.new (fun _ _ => (0 : ℚ)) [4, 0, 1] (1 / 1000) = .ok m :=
  ⟨rfl, ⟨_, rfl⟩⟩

/-- C6, as amended: the constructor validates nothing and has no invalid-shape failure; for
every non-empty width list (of fewer than `2 ^ 64` entries), one-entry lists and lists with
zero widths included, it returns a network that stores the widths and the learning rate. -/
theorem new_never_rejects (draw : Nat → Nat → α) (units : List Nat) (lr : α)
    (h1 : units ≠ []) (h2 : units.length < 2 ^ 64) :
    ∃ m, MLP.new draw units lr = .ok m ∧ m.units_per_layer = units ∧ m.lr = lr := by
  obtain ⟨m, hrun, hu, hl, _⟩ := new_spec draw units lr h1 h2
  exact ⟨m, hrun, hu, hl⟩

/-- C6, as amended, at the width list `[0, 1]`. -/
theorem new_never_rejects_witness :
    ([0, 1] : List Nat) ≠ [] ∧ ([0, 1] : List Nat).length < 2 ^ 64 ∧
    ∃ m, MLP.new (fun _ _ => (0 : ℚ)) [0, 1] (1 / 1000) = .ok m ∧
      m.units_per_layer = [0, 1] ∧ m.lr = 1 / 1000 :=
  ⟨by decide, by decide,
    new_never_rejects (fun _ _ => (0 : ℚ)) [0, 1] (1 / 1000) (by decide) (by decide)⟩

/-- C10, at the width list `[w]`: the constructor's loop body never runs, so the network it
returns has no weight matrix, no bias vector and an activation cache of length `0`, not `1`. -/
theorem new_single_width (draw : Nat → Nat → α) (w : Nat) (lr : α) :
    ∃ m, MLP.new draw [w] lr = .ok m ∧ m.units_per_layer.length = 1 ∧
      m.weight_matrices.length = 0 ∧ m.bias_vectors.length = 0 ∧ m.activations.length = 0 := by
  refine ⟨⟨[w], [], [], [], lr⟩, ?_, rfl, rfl, rfl, rfl⟩
  unfold MLP.new
  rw [size_t_sub_one_lt [w].length (Nat.le_refl 1) (by norm_num)]
  rfl

/-! ## Failure of the backward pass -/

/-- One iteration of the loop of `backprop` stops, before it has written anything, when the
product of the gradients with the transposed cached input fails its shape check. -/
theorem backpropStep_fail_weight_gradients (i : Nat) (error : linalg.Matrix α) (m : MLP α)
    (W a1 a0 pe g0 : linalg.Matrix α) (e : Err)
    (hW : m.weight_matrices[i]? = some W) (hpe : W.transpose.matmul error = .ok pe)
    (ha1 : m.activations[i + 1]? = some a1)
    (hg0 : error.multiply_elementwise (a1.apply_function d_sigmoid) = .ok g0)
    (ha0 : m.activations[i]? = some a0)
    (hwg : (g0.multiply_scalar m.lr).matmul a0.transpose = .error e) :
    backpropStep i error m = .fail e m := by
  unfold backpropStep
  rw [Method.bind_ok (Method.index_ok hW), Method.bind_ok (Method.lift_ok hpe m),
    Method.bind_ok (Method.index_ok ha1), Method.bind_ok (Method.lift_ok hg0 m)]
  have hread : Method.read (fun m : MLP α => m.lr) m = .ok m.lr m := rfl
  rw [Method.bind_ok hread, Method.bind_ok (Method.index_ok ha0)]
  exact Method.bind_fail (Method.lift_error hwg m)

/-- C7, counterexample: a two-layer network with widths `[1, 1, 1]` whose cache slot `0` holds a
`1 × 2` matrix (the state `forward` leaves when it stops at the bias addition on a `1 × 2`
input).  With the correctly shaped target `[1]`, `backprop` updates layer `1`, then stops with
a dimension mismatch in layer `0`: the weight matrix and the bias of layer `1` have changed. -/
theorem backprop_fails_after_update :
    ∃ s, backprop (⟨1, 1, [1]⟩ : linalg.Matrix ℚ)
        ⟨[1, 1, 1], [⟨1, 1, [0]⟩, ⟨1, 1, [0]⟩], [⟨1, 1, [1]⟩, ⟨1, 1, [1]⟩],
          [⟨2, 1, [1, 1]⟩, ⟨1, 1, [1 / 2]⟩, ⟨1, 1, [1 / 2]⟩], 1⟩
        = .fail .dimensionMismatch s ∧
      s.weight_matrices = [⟨1, 1, [1]⟩, ⟨1, 1, [17 / 16]⟩] ∧
      s.bias_vectors = [⟨1, 1, [0]⟩, ⟨1, 1, [1 / 8]⟩] ∧
      s.weight_matrices ≠ [⟨1, 1, [1]⟩, ⟨1, 1, [1]⟩] ∧
      s.bias_vectors ≠ [⟨1, 1, [0]⟩, ⟨1, 1, [0]⟩] := by
  have hb : (0 : ℚ) + (1 - 1 / 2) * d_sigmoid (1 / 2) * 1 = 1 / 8 := by
    norm_num [d_sigmoid]
  have hw : (1 : ℚ) + (1 - 1 / 2) * d_sigmoid (1 / 2) * 1 * (1 / 2) = 17 / 16 := by
    norm_num [d_sigmoid]
  have hstep1 := backpropStep_ok 1 ⟨1, 1, [1 - 1 / 2]⟩
    (⟨[1, 1, 1], [⟨1, 1, [0]⟩, ⟨1, 1, [0]⟩], [⟨1, 1, [1]⟩, ⟨1, 1, [1]⟩],
      [⟨2, 1, [1, 1]⟩, ⟨1, 1, [1 / 2]⟩, ⟨1, 1, [1 / 2]⟩], 1⟩ : MLP ℚ)
    ⟨1, 1, [1]⟩ ⟨1, 1, [1 / 2]⟩ ⟨1, 1, [1 / 2]⟩ ⟨1, 1, [0]⟩
    ⟨1, 1, [1 * (1 - 1 / 2)]⟩ ⟨1, 1, [(1 - 1 / 2) * d_sigmoid (1 / 2)]⟩
    ⟨1, 1, [(1 - 1 / 2) * d_sigmoid (1 / 2) * 1 * (1 / 2)]⟩
    ⟨1, 1, [1 / 8]⟩ ⟨1, 1, [17 / 16]⟩
    rfl (by rw [transpose_1x1, matmul_1x1]) rfl
    (by rw [apply_function_1x1, multiply_elementwise_1x1]) rfl
    (by rw [multiply_scalar_1x1, transpose_1x1, matmul_1x1]) rfl
    (by rw [multiply_scalar_1x1, add_1x1, hb]) (by rw [add_1x1, hw])
  have hstep0 := backpropStep_fail_weight_gradients 0 ⟨1, 1, [1 * (1 - 1 / 2)]⟩
    (⟨[1, 1, 1], [⟨1, 1, [0]⟩, ⟨1, 1, [1 / 8]⟩], [⟨1, 1, [1]⟩, ⟨1, 1, [17 / 16]⟩],
      [⟨2, 1, [1, 1]⟩, ⟨1, 1, [1 / 2]⟩, ⟨1, 1, [1 / 2]⟩], 1⟩ : MLP ℚ)
    ⟨1, 1, [1]⟩ ⟨1, 1, [1 / 2]⟩ ⟨2, 1, [1, 1]⟩
    ⟨1, 1, [1 * (1 * (1 - 1 / 2))]⟩
    ⟨1, 1, [1 * (1 - 1 / 2) * d_sigmoid (1 / 2)]⟩ Err.dimensionMismatch
    rfl (by rw [transpose_1x1, matmul_1x1]) rfl
    (by rw [apply_function_1x1, multiply_elementwise_1x1]) rfl
    (by
      apply Matrix.matmul_err
      rw [(Matrix.multiply_scalar_spec _ _).2.1, (Matrix.transpose_spec _).1]
      decide)
  refine ⟨⟨[1, 1, 1], [⟨1, 1, [0]⟩, ⟨1, 1, [1 / 8]⟩], [⟨1, 1, [1]⟩, ⟨1, 1, [17 / 16]⟩],
      [⟨2, 1, [1, 1]⟩, ⟨1, 1, [1 / 2]⟩, ⟨1, 1, [1 / 2]⟩], 1⟩, ?_, rfl, rfl, ?_, ?_⟩
  · unfold backprop
    have hlast : Method.back (fun m : MLP ℚ => m.units_per_layer)
        (⟨[1, 1, 1], [⟨1, 1, [0]⟩, ⟨1, 1, [0]⟩], [⟨1, 1, [1]⟩, ⟨1, 1, [1]⟩],
          [⟨2, 1, [1, 1]⟩, ⟨1, 1, [1 / 2]⟩, ⟨1, 1, [1 / 2]⟩], 1⟩ : MLP ℚ)
        = .ok 1 ⟨[1, 1, 1], [⟨1, 1, [0]⟩, ⟨1, 1, [0]⟩], [⟨1, 1, [1]⟩, ⟨1, 1, [1]⟩],
          [⟨2, 1, [1, 1]⟩, ⟨1, 1, [1 / 2]⟩, ⟨1, 1, [1 / 2]⟩], 1⟩ := rfl
    have hassert : Method.assert (fun _ : MLP ℚ =>
        decide ((⟨1, 1, [1]⟩ : linalg.Matrix ℚ).shape.1 = 1))
        (⟨[1, 1, 1], [⟨1, 1, [0]⟩, ⟨1, 1, [0]⟩], [⟨1, 1, [1]⟩, ⟨1, 1, [1]⟩],
          [⟨2, 1, [1, 1]⟩, ⟨1, 1, [1 / 2]⟩, ⟨1, 1, [1 / 2]⟩], 1⟩ : MLP ℚ)
        = .ok () ⟨[1, 1, 1], [⟨1, 1, [0]⟩, ⟨1, 1, [0]⟩], [⟨1, 1, [1]⟩, ⟨1, 1, [1]⟩],
          [⟨2, 1, [1, 1]⟩, ⟨1, 1, [1 / 2]⟩, ⟨1, 1, [1 / 2]⟩], 1⟩ := rfl
    have hyhat : Method.back (fun m : MLP ℚ => m.activations)
        (⟨[1, 1, 1], [⟨1, 1, [0]⟩, ⟨1, 1, [0]⟩], [⟨1, 1, [1]⟩, ⟨1, 1, [1]⟩],
          [⟨2, 1, [1, 1]⟩, ⟨1, 1, [1 / 2]⟩, ⟨1, 1, [1 / 2]⟩], 1⟩ : MLP ℚ)
        = .ok ⟨1, 1, [1 / 2]⟩ ⟨[1, 1, 1], [⟨1, 1, [0]⟩, ⟨1, 1, [0]⟩],
          [⟨1, 1, [1]⟩, ⟨1, 1, [1]⟩],
          [⟨2, 1, [1, 1]⟩, ⟨1, 1, [1 / 2]⟩, ⟨1, 1, [1 / 2]⟩], 1⟩ := rfl
    have hread : Method.read
        (fun m : MLP ℚ => to_int (size_t_sub m.weight_matrices.length 1))
        (⟨[1, 1, 1], [⟨1, 1, [0]⟩, ⟨1, 1, [0]⟩], [⟨1, 1, [1]⟩, ⟨1, 1, [1]⟩],
          [⟨2, 1, [1, 1]⟩, ⟨1, 1, [1 / 2]⟩, ⟨1, 1, [1 / 2]⟩], 1⟩ : MLP ℚ)
        = .ok (to_int (size_t_sub 2 1)) ⟨[1, 1, 1], [⟨1, 1, [0]⟩, ⟨1, 1, [0]⟩],
          [⟨1, 1, [1]⟩, ⟨1, 1, [1]⟩],
          [⟨2, 1, [1, 1]⟩, ⟨1, 1, [1 / 2]⟩, ⟨1, 1, [1 / 2]⟩], 1⟩ := rfl
    rw [Method.bind_ok hlast, Method.bind_ok hassert, Method.bind_ok hyhat,
      Method.bind_ok (Method.lift_ok (sub_1x1 1 (1 / 2)) _), Method.bind_ok hread,
      backprop_start 2 (by decide) (by decide)]
    show (backpropStep 1 ⟨1, 1, [1 - 1 / 2]⟩ >>= fun prev_errors =>
      backpropLoop 1 prev_errors) _ = _
    rw [Method.bind_ok hstep1]
    show (backpropStep 0 ⟨1, 1, [1 * (1 - 1 / 2)]⟩ >>= fun prev_errors =>
      backpropLoop 0 prev_errors) _ = _
    exact Method.bind_fail hstep0
  · simp only [ne_eq, List.cons.injEq, Matrix.mk.injEq, and_true, true_and, not_and]
    norm_num
  · simp only [ne_eq, List.cons.injEq, Matrix.mk.injEq, and_true, true_and, not_and]
    norm_num

/-- C7, as amended: on every network with a non-empty width list, `backprop` with a target
whose row count differs from the last layer width, or whose shape differs from that of the
cached output, stops with a dimension mismatch before it has written anything; and on a
well-shaped network whose cache holds one well-formed column per layer boundary, whenever
`backprop` stops, it does so with a dimension mismatch and every weight matrix and bias vector
(the whole object) is as before the call. -/
theorem backprop_failure_contract (m : MLP α) (t : linalg.Matrix α) (last : Nat)
    (hl : m.units_per_layer.getLast? = some last) :
    (t.rows ≠ last → backprop t m = .fail .dimensionMismatch m) ∧
    (∀ y_hat, m.activations.getLast? = some y_hat → t.shape ≠ y_hat.shape →
      backprop t m = .fail .dimensionMismatch m) ∧
    (m.WellShaped → m.Cached →
      ∀ e s, backprop t m = .fail e s → e = .dimensionMismatch ∧ s = m) := by
  have hrows := backprop_rows_mismatch m t last hl
  have hshape : ∀ y_hat, m.activations.getLast? = some y_hat → t.shape ≠ y_hat.shape →
      backprop t m = .fail .dimensionMismatch m := by
    intro y_hat hy hs
    by_cases hr : t.rows = last
    · exact backprop_shape_mismatch m t y_hat last hl hr hy hs
    · exact hrows hr
  refine ⟨hrows, hshape, ?_⟩
  intro hm hc e s hfail
  have hm' := hm
  obtain ⟨h2, h31, hnW, hnb, hnA, hsh⟩ := hm'
  have hlast : last = m.units_per_layer.getD (m.units_per_layer.length - 1) 0 := by
    have := getLast?_of_getD m.units_per_layer 0 (by omega)
    rw [hl] at this
    exact Option.some.inj this
  have hy := getLast?_of_getD m.activations Matrix.empty (by omega)
  have hys := (hc (m.activations.length - 1) (by omega)).1
  rw [hnA] at hys
  by_cases hs : t.shape = (m.activations.getD (m.activations.length - 1) Matrix.empty).shape
  · rw [hnA, hys] at hs
    obtain ⟨m', hrun, _⟩ := backprop_spec m hm hc t hs
    rw [hrun] at hfail
    cases hfail
  · rw [hshape _ hy hs] at hfail
    injection hfail with h1 h2
    exact ⟨h1.symm, h2.symm⟩

/-- C7, as amended, at a network with widths `[2, 1]` and a target of three rows. -/
theorem backprop_failure_contract_witness :
    ([2, 1] : List Nat).getLast? = some 1 ∧
    (⟨1, 3, [1, 2, 3]⟩ : linalg.Matrix ℚ).rows ≠ 1 ∧
    backprop (⟨1, 3, [1, 2, 3]⟩ : linalg.Matrix ℚ)
        ⟨[2, 1], [⟨1, 1, [0]⟩], [⟨2, 1, [1, 1]⟩], [⟨1, 2, [1, 2]⟩, ⟨1, 1, [1 / 2]⟩], 1 / 5⟩
      = .fail .dimensionMismatch
        ⟨[2, 1], [⟨1, 1, [0]⟩], [⟨2, 1, [1, 1]⟩], [⟨1, 2, [1, 2]⟩, ⟨1, 1, [1 / 2]⟩], 1 / 5⟩ :=
  ⟨rfl, by decide,
    (backprop_failure_contract
      (⟨[2, 1], [⟨1, 1, [0]⟩], [⟨2, 1, [1, 1]⟩], [⟨1, 2, [1, 2]⟩, ⟨1, 1, [1 / 2]⟩], 1 / 5⟩ :
        MLP ℚ) ⟨1, 3, [1, 2, 3]⟩ 1 rfl).1 (by decide)⟩

/-- C8, counterexample: on the one-layer network with widths `[1, 1]`, weight `0`, bias `0` and
learning rate `1`, after `forward` of the input `[1]` a first `backprop` of the target `[1]`
returns, and a second `backprop` of the same target, with no `forward` in between, is not
rejected: it returns too and has moved the weight from `1/8` to `1/4`. -/
theorem second_backprop_accepted :
    ∃ y m1 m2 m3,
      forward Real.exp (⟨1, 1, [1]⟩ : linalg.Matrix ℝ)
        ⟨[1, 1], [⟨1, 1, [0]⟩], [⟨1, 1, [0]⟩], [Matrix.empty, Matrix.empty], 1⟩ = .ok y m1 ∧
      backprop ⟨1, 1, [1]⟩ m1 = .ok () m2 ∧
      backprop ⟨1, 1, [1]⟩ m2 = .ok () m3 ∧
      m2.weight_matrices = [⟨1, 1, [1 / 8]⟩] ∧ m3.weight_matrices = [⟨1, 1, [1 / 4]⟩] ∧
      m3.weight_matrices ≠ m2.weight_matrices := by
  have hy : sigmoid Real.exp ((0 : ℝ) * 1 + 0) = 1 / 2 := by
    simp only [sigmoid, zero_mul, add_zero, neg_zero, Real.exp_zero]
    norm_num
  have h1 := forward_1x1 Real.exp (0 : ℝ) 0 1 1 Matrix.empty Matrix.empty
  rw [hy] at h1
  have h2 := backprop_1x1 (0 : ℝ) 0 1 1 (1 / 2) 1
  have hg : (0 : ℝ) + (1 - 1 / 2) * d_sigmoid (1 / 2) * 1 = 1 / 8 := by
    norm_num [d_sigmoid]
  have hgw : (0 : ℝ) + (1 - 1 / 2) * d_sigmoid (1 / 2) * 1 * 1 = 1 / 8 := by
    norm_num [d_sigmoid]
  rw [hg, hgw] at h2
  have h3 := backprop_1x1 (1 / 8 : ℝ) (1 / 8) 1 1 (1 / 2) 1
  have hg' : (1 / 8 : ℝ) + (1 - 1 / 2) * d_sigmoid (1 / 2) * 1 = 1 / 4 := by
    norm_num [d_sigmoid]
  have hgw' : (1 / 8 : ℝ) + (1 - 1 / 2) * d_sigmoid (1 / 2) * 1 * 1 = 1 / 4 := by
    norm_num [d_sigmoid]
  rw [hg', hgw'] at h3
  refine ⟨_, _, _, _, h1, h2, h3, rfl, rfl, ?_⟩
  simp only [ne_eq, List.cons.injEq, Matrix.mk.injEq, and_true, true_and]
  norm_num

/-- C8, as amended: `backprop` has no ready-for-forward / ready-for-backprop guard.  On a
freshly constructed network (at least two widths) a `backprop` of a correctly shaped target
before any `forward` stops with a dimension mismatch and writes nothing, because the cached
output is still the default `0 × 0` matrix; but a second `backprop` made after a completed
`forward` and `backprop`, with no `forward` in between, is accepted: it returns and updates
every layer again from the same cached activations. -/
theorem backprop_unguarded (exp : α → α) :
    (∀ (draw : Nat → Nat → α) (units : List Nat) (lr : α) (m : MLP α) (t : linalg.Matrix α),
      2 ≤ units.length → units.length < 2 ^ 64 → MLP.new draw units lr = .ok m →
      m.ValidTarget t → backprop t m = .fail .dimensionMismatch m) ∧
    (∀ (m0 m1 m2 : MLP α) (x y t : linalg.Matrix α),
      m0.WellShaped → m0.ValidInput x → forward exp x m0 = .ok y m1 → m1.ValidTarget t →
      backprop t m1 = .ok () m2 →
      ∃ m3, backprop t m2 = .ok () m3 ∧
        ∀ i < m2.weight_matrices.length, specLayerUpdate m2 m3 t i) := by
  constructor
  · intro draw units lr m t h2 h64 hnew ht
    have hne : units ≠ [] := by
      intro h; rw [h] at h2; simp at h2
    obtain ⟨m', hrun, hu, _, _, _, _, hacts⟩ := new_spec draw units lr hne h64
    have hmm : m' = m := Except.ok.inj (hrun.symm.trans hnew)
    subst hmm
    have hl := getLast?_of_getD m'.units_per_layer 0 (by rw [hu]; omega)
    have hy : m'.activations.getLast? = some Matrix.empty := by
      rw [hacts h2, List.getLast?_replicate]
      simp only [ite_eq_right_iff]
      intro h0
      omega
    refine backprop_shape_mismatch_any m' t Matrix.empty _ hl hy ?_
    intro hs
    have h1 : t.cols = 1 := congrArg Prod.snd ht.1
    have h0 : t.cols = 0 := congrArg Prod.snd hs
    omega
  · intro m0 m1 m2 x y t hm hx hf ht hb
    obtain ⟨hm1, hc1, _⟩ := forward_ok_state exp m0 m1 x y hm hx hf
    obtain ⟨m2', hrun, hm2, hu, ha, _, _⟩ := backprop_spec m1 hm1 hc1 t ht.1
    rw [hrun] at hb
    have hmm : m2' = m2 := by injection hb
    subst hmm
    have hc2 : m2'.Cached := by
      unfold Cached
      rw [ha, hu]
      exact hc1
    obtain ⟨m3, hrun3, _, _, _, _, hupd⟩ := backprop_spec m2' hm2 hc2 t (by rw [hu]; exact ht.1)
    exact ⟨m3, hrun3, hupd⟩

/-! ## Worked instances -/

/-- C1 at the network with widths `[2, 1]`, weights `[1, 1]`, bias `0`, and the input
`(1, 2)`. -/
theorem forward_cache_contract_witness :
    (⟨[2, 1], [⟨1, 1, [0]⟩], [⟨2, 1, [1, 1]⟩], [Matrix.empty, Matrix.empty], 1 / 5⟩ : MLP ℝ).WellShaped ∧
    (⟨[2, 1], [⟨1, 1, [0]⟩], [⟨2, 1, [1, 1]⟩], [Matrix.empty, Matrix.empty], 1 / 5⟩ : MLP ℝ).ValidInput ⟨1, 2, [1, 2]⟩ ∧
    ∃ y m', forward Real.exp ⟨1, 2, [1, 2]⟩ (⟨[2, 1], [⟨1, 1, [0]⟩], [⟨2, 1, [1, 1]⟩], [Matrix.empty, Matrix.empty], 1 / 5⟩ : MLP ℝ) = .ok y m' ∧
      m'.activations[0]? = some ⟨1, 2, [1, 2]⟩ ∧ m'.activations[1]? = some y :=
  ⟨by decide, by decide,
    (forward_cache_contract Real.exp (⟨[2, 1], [⟨1, 1, [0]⟩], [⟨2, 1, [1, 1]⟩], [Matrix.empty, Matrix.empty], 1 / 5⟩ : MLP ℝ) ⟨1, 2, [1, 2]⟩ (by decide) (by decide)).imp
      fun _ h => h.imp fun _ h' => ⟨h'.1, h'.2.1, h'.2.2.1⟩⟩

/-- C4 at the network with widths `[2, 1]`: the input `(1, 2)` gives a `1 × 1` output, and an
input of three rows is refused. -/
theorem forward_shape_law_witness :
    (⟨[2, 1], [⟨1, 1, [0]⟩], [⟨2, 1, [1, 1]⟩], [Matrix.empty, Matrix.empty], 1 / 5⟩ : MLP ℝ).WellShaped ∧
    (∃ y m', forward Real.exp ⟨1, 2, [1, 2]⟩ (⟨[2, 1], [⟨1, 1, [0]⟩], [⟨2, 1, [1, 1]⟩], [Matrix.empty, Matrix.empty], 1 / 5⟩ : MLP ℝ) = .ok y m' ∧ y.shape = (1, 1)) ∧
    forward Real.exp ⟨1, 3, [1, 2, 3]⟩ (⟨[2, 1], [⟨1, 1, [0]⟩], [⟨2, 1, [1, 1]⟩], [Matrix.empty, Matrix.empty], 1 / 5⟩ : MLP ℝ) = .fail .dimensionMismatch ⟨[2, 1], [⟨1, 1, [0]⟩], [⟨2, 1, [1, 1]⟩], [Matrix.empty, Matrix.empty], 1 / 5⟩ :=
  ⟨by decide,
    (forward_shape_law Real.exp (⟨[2, 1], [⟨1, 1, [0]⟩], [⟨2, 1, [1, 1]⟩], [Matrix.empty, Matrix.empty], 1 / 5⟩ : MLP ℝ) (by decide)).1 ⟨1, 2, [1, 2]⟩ (by decide),
    (forward_shape_law Real.exp (⟨[2, 1], [⟨1, 1, [0]⟩], [⟨2, 1, [1, 1]⟩], [Matrix.empty, Matrix.empty], 1 / 5⟩ : MLP ℝ) (by decide)).2 ⟨1, 3, [1, 2, 3]⟩ (by decide)⟩

/-- C9 at the network with widths `[2, 1]` and the input `(1, 2)`. -/
theorem forward_idempotent_witness :
    (⟨[2, 1], [⟨1, 1, [0]⟩], [⟨2, 1, [1, 1]⟩], [Matrix.empty, Matrix.empty], 1 / 5⟩ : MLP ℝ).WellShaped ∧
    (⟨[2, 1], [⟨1, 1, [0]⟩], [⟨2, 1, [1, 1]⟩], [Matrix.empty, Matrix.empty], 1 / 5⟩ : MLP ℝ).ValidInput ⟨1, 2, [1, 2]⟩ ∧
    ∃ y m1, forward Real.exp ⟨1, 2, [1, 2]⟩ (⟨[2, 1], [⟨1, 1, [0]⟩], [⟨2, 1, [1, 1]⟩], [Matrix.empty, Matrix.empty], 1 / 5⟩ : MLP ℝ) = .ok y m1 ∧
      m1.weight_matrices = [⟨2, 1, [1, 1]⟩] ∧ m1.bias_vectors = [⟨1, 1, [0]⟩] ∧
      forward Real.exp ⟨1, 2, [1, 2]⟩ m1 = .ok y m1 :=
  ⟨by decide, by decide,
    (forward_idempotent Real.exp (⟨[2, 1], [⟨1, 1, [0]⟩], [⟨2, 1, [1, 1]⟩], [Matrix.empty, Matrix.empty], 1 / 5⟩ : MLP ℝ) ⟨1, 2, [1, 2]⟩ (by decide) (by decide)).imp
      fun _ h => h.imp fun _ h' => ⟨h'.1, h'.2.2.2.1, h'.2.2.2.2.1, h'.2.2.2.2.2⟩⟩

/-- C2 at the one-layer network with widths `[1, 1]`, weight `1/2`, bias `0`, learning rate
`1/5`, input `[1]` and target `[1]`. -/
theorem backprop_update_contract_witness :
    (⟨[1, 1], [⟨1, 1, [0]⟩], [⟨1, 1, [1 / 2]⟩], [Matrix.empty, Matrix.empty], 1 / 5⟩ : MLP ℝ).WellShaped ∧
    (⟨[1, 1], [⟨1, 1, [0]⟩], [⟨1, 1, [1 / 2]⟩], [Matrix.empty, Matrix.empty], 1 / 5⟩ : MLP ℝ).ValidInput ⟨1, 1, [1]⟩ ∧
    forward Real.exp ⟨1, 1, [1]⟩ (⟨[1, 1], [⟨1, 1, [0]⟩], [⟨1, 1, [1 / 2]⟩], [Matrix.empty, Matrix.empty], 1 / 5⟩ : MLP ℝ)
      = .ok ⟨1, 1, [sigmoid Real.exp (1 / 2 * 1 + 0)]⟩ ⟨[1, 1], [⟨1, 1, [0]⟩], [⟨1, 1, [1 / 2]⟩], [⟨1, 1, [1]⟩, ⟨1, 1, [sigmoid Real.exp (1 / 2 * 1 + 0)]⟩], 1 / 5⟩ ∧
    (⟨[1, 1], [⟨1, 1, [0]⟩], [⟨1, 1, [1 / 2]⟩], [⟨1, 1, [1]⟩, ⟨1, 1, [sigmoid Real.exp (1 / 2 * 1 + 0)]⟩], 1 / 5⟩ : MLP ℝ).ValidTarget ⟨1, 1, [1]⟩ ∧
    ∃ m', backprop ⟨1, 1, [1]⟩ (⟨[1, 1], [⟨1, 1, [0]⟩], [⟨1, 1, [1 / 2]⟩], [⟨1, 1, [1]⟩, ⟨1, 1, [sigmoid Real.exp (1 / 2 * 1 + 0)]⟩], 1 / 5⟩ : MLP ℝ) = .ok () m' ∧
      m'.activations = [⟨1, 1, [1]⟩, ⟨1, 1, [sigmoid Real.exp (1 / 2 * 1 + 0)]⟩] ∧
      specLayerUpdate ⟨[1, 1], [⟨1, 1, [0]⟩], [⟨1, 1, [1 / 2]⟩], [⟨1, 1, [1]⟩, ⟨1, 1, [sigmoid Real.exp (1 / 2 * 1 + 0)]⟩], 1 / 5⟩ m' ⟨1, 1, [1]⟩ 0 :=
  ⟨by decide, by decide, forward_1x1 Real.exp (1 / 2) 0 (1 / 5) 1 Matrix.empty Matrix.empty,
    by decide,
    (backprop_update_contract Real.exp (⟨[1, 1], [⟨1, 1, [0]⟩], [⟨1, 1, [1 / 2]⟩], [Matrix.empty, Matrix.empty], 1 / 5⟩ : MLP ℝ) ⟨[1, 1], [⟨1, 1, [0]⟩], [⟨1, 1, [1 / 2]⟩], [⟨1, 1, [1]⟩, ⟨1, 1, [sigmoid Real.exp (1 / 2 * 1 + 0)]⟩], 1 / 5⟩ ⟨1, 1, [1]⟩
      ⟨1, 1, [sigmoid Real.exp (1 / 2 * 1 + 0)]⟩ ⟨1, 1, [1]⟩ (by decide) (by decide)
      (forward_1x1 Real.exp (1 / 2) 0 (1 / 5) 1 Matrix.empty Matrix.empty) (by decide)).imp
      fun _ h => ⟨h.1, h.2.2.1, (h.2.2.2.2 0 (Nat.lt_add_one 0)).1⟩⟩

/-- C8, as amended, at the widths `[1, 1]`: a fresh network refuses `backprop`, and the one-layer
network of the counterexample accepts a second `backprop`. -/
theorem backprop_unguarded_witness :
    MLP.new (fun _ _ => (0 : ℝ)) [1, 1] 1 = .ok ⟨[1, 1], [⟨1, 1, [0]⟩], [⟨1, 1, [0]⟩], [Matrix.empty, Matrix.empty], 1⟩ ∧
    (⟨[1, 1], [⟨1, 1, [0]⟩], [⟨1, 1, [0]⟩], [Matrix.empty, Matrix.empty], 1⟩ : MLP ℝ).ValidTarget ⟨1, 1, [1]⟩ ∧
    backprop ⟨1, 1, [1]⟩ (⟨[1, 1], [⟨1, 1, [0]⟩], [⟨1, 1, [0]⟩], [Matrix.empty, Matrix.empty], 1⟩ : MLP ℝ) = .fail .dimensionMismatch ⟨[1, 1], [⟨1, 1, [0]⟩], [⟨1, 1, [0]⟩], [Matrix.empty, Matrix.empty], 1⟩ ∧
    ∃ m3, backprop ⟨1, 1, [1]⟩
        (⟨[1, 1], [⟨1, 1, [0 + (1 - sigmoid Real.exp (1 / 2 * 1 + 0))
            * d_sigmoid (sigmoid Real.exp (1 / 2 * 1 + 0)) * (1 / 5)]⟩],
          [⟨1, 1, [1 / 2 + (1 - sigmoid Real.exp (1 / 2 * 1 + 0))
            * d_sigmoid (sigmoid Real.exp (1 / 2 * 1 + 0)) * (1 / 5) * 1]⟩],
          [⟨1, 1, [1]⟩, ⟨1, 1, [sigmoid Real.exp (1 / 2 * 1 + 0)]⟩], 1 / 5⟩ : MLP ℝ)
      = .ok () m3 :=
  ⟨rfl, by decide,
    (backprop_unguarded Real.exp).1 (fun _ _ => (0 : ℝ)) [1, 1] 1 ⟨[1, 1], [⟨1, 1, [0]⟩], [⟨1, 1, [0]⟩], [Matrix.empty, Matrix.empty], 1⟩ ⟨1, 1, [1]⟩
      (by decide) (by norm_num) rfl (by decide),
    ((backprop_unguarded Real.exp).2 (⟨[1, 1], [⟨1, 1, [0]⟩], [⟨1, 1, [1 / 2]⟩], [Matrix.empty, Matrix.empty], 1 / 5⟩ : MLP ℝ) ⟨[1, 1], [⟨1, 1, [0]⟩], [⟨1, 1, [1 / 2]⟩], [⟨1, 1, [1]⟩, ⟨1, 1, [sigmoid Real.exp (1 / 2 * 1 + 0)]⟩], 1 / 5⟩ _ ⟨1, 1, [1]⟩
      ⟨1, 1, [sigmoid Real.exp (1 / 2 * 1 + 0)]⟩ ⟨1, 1, [1]⟩ (by decide) (by decide)
      (forward_1x1 Real.exp (1 / 2) 0 (1 / 5) 1 Matrix.empty Matrix.empty) (by decide)
      (backprop_1x1 (1 / 2) 0 (1 / 5) 1 (sigmoid Real.exp (1 / 2 * 1 + 0)) 1)).imp
      fun _ h => h.1⟩

/-! ## Which inputs `forward` accepts -/

/-- One layer of `forward` stops, before it has written anything, when the bias addition fails
its shape check. -/
theorem forwardStep_fail_add (exp : α → α) (i : Nat) (prev : linalg.Matrix α) (m : MLP α)
    (W b p : linalg.Matrix α) (e : Err)
    (hW : m.weight_matrices[i]? = some W) (hb : m.bias_vectors[i]? = some b)
    (hp : W.matmul prev = .ok p) (hq : p.add b = .error e) :
    forwardStep exp i prev m = .fail e m := by
  unfold forwardStep
  rw [Method.bind_ok (Method.index_ok hW), Method.bind_ok (Method.lift_ok hp m),
    Method.bind_ok (Method.index_ok hb)]
  exact Method.bind_fail (Method.lift_error hq m)

/-- Method `forward` stops at its `assert`, with the object untouched, when the input has no
column. -/
theorem forward_zero_cols (exp : α → α) (m : MLP α) (x : linalg.Matrix α) (w0 : Nat)
    (hw : m.units_per_layer[0]? = some w0) (hx : x.cols = 0) :
    forward exp x m = .fail .dimensionMismatch m := by
  unfold forward
  rw [Method.bind_ok (Method.index_ok hw)]
  apply Method.bind_fail
  apply Method.assert_fail
  simp [Matrix.shape, hx]

/-- Method `forward` on a well-shaped network returns for every input of shape `(w0, 1)`. -/
theorem forward_returns_of_shape (exp : α → α) (m : MLP α) (x : linalg.Matrix α)
    (hm : m.WellShaped) (hx : x.shape = (m.units_per_layer.getD 0 0, 1)) :
    ∃ y m', forward exp x m = .ok y m' := by
  have hm' := hm
  obtain ⟨h2, h31, hnW, hnb, hnA, hsh⟩ := hm'
  have hu0 : m.units_per_layer[0]? = some (m.units_per_layer.getD 0 0) :=
    getElem?_of_getD _ 0 0 (by omega)
  have hassert : Method.assert (fun _ : MLP α =>
      decide (x.shape.1 = m.units_per_layer.getD 0 0) && decide (x.shape.2 ≠ 0)) m
      = .ok () m := by
    apply Method.assert_ok
    simp [hx]
  have h0A : 0 < m.activations.length := by omega
  have hm0 : WellShaped { m with activations := (m.activations.set 0 x) } := by
    refine ⟨h2, h31, hnW, hnb, ?_, hsh⟩
    simpa using hnA
  have hx0 : ({ m with activations := (m.activations.set 0 x) } : MLP α).activations[0]?
      = some x := by
    simp [h0A]
  obtain ⟨m', hrun, _⟩ :=
    forwardLoop_spec exp (m.units_per_layer.length - 1) 0 x _ hm0
      (by simp only; omega) hx0 hx
  refine ⟨m'.activations.getD (0 + (m.units_per_layer.length - 1)) Matrix.empty, m', ?_⟩
  unfold forward
  rw [Method.bind_ok (Method.index_ok hu0), Method.bind_ok hassert,
    Method.bind_ok (Method.assign_ok h0A)]
  have hread : Method.read (fun m : MLP α => size_t_sub m.units_per_layer.length 1)
      ({ m with activations := (m.activations.set 0 x) } : MLP α)
      = .ok (m.units_per_layer.length - 1) { m with activations := (m.activations.set 0 x) } := by
    simp only [Method.read]
    rw [size_t_sub_one _ (by omega) h31]
  rw [Method.bind_ok hread, hrun]

/-- Method `forward` on a well-shaped network and an input of `w0` rows and two or more
columns passes its own `assert`, stores the input in slot `0`, multiplies it by the first
weight matrix and stops in the first bias addition. -/
theorem forward_wide_input (exp : α → α) (m : MLP α) (x : linalg.Matrix α)
    (hm : m.WellShaped) (hr : x.rows = m.units_per_layer.getD 0 0) (hc : 2 ≤ x.cols) :
    forward exp x m
        = .fail .dimensionMismatch { m with activations := (m.activations.set 0 x) } ∧
      ∃ W b p, m.weight_matrices[0]? = some W ∧ m.bias_vectors[0]? = some b ∧
        W.matmul x = .ok p ∧ p.add b = .error .dimensionMismatch := by
  have hm' := hm
  obtain ⟨h2, h31, hnW, hnb, hnA, hsh⟩ := hm'
  have hu0 : m.units_per_layer[0]? = some (m.units_per_layer.getD 0 0) :=
    getElem?_of_getD _ 0 0 (by omega)
  have hassert : Method.assert (fun _ : MLP α =>
      decide (x.shape.1 = m.units_per_layer.getD 0 0) && decide (x.shape.2 ≠ 0)) m
      = .ok () m := by
    apply Method.assert_ok
    have : x.cols ≠ 0 := by omega
    simp [Matrix.shape, hr, this]
  have h0A : 0 < m.activations.length := by omega
  have h0W : 0 < m.weight_matrices.length := by omega
  obtain ⟨hWs, _, hbs, _⟩ := hsh 0 h0W
  have hW := getElem?_of_getD m.weight_matrices 0 Matrix.empty h0W
  have hb := getElem?_of_getD m.bias_vectors 0 Matrix.empty (by omega)
  obtain ⟨p, hp, hpr, hpc, _, _⟩ := Matrix.matmul_spec
    (m.weight_matrices.getD 0 Matrix.empty) x ((congrArg Prod.snd hWs).trans hr.symm)
  have hq : p.add (m.bias_vectors.getD 0 Matrix.empty) = .error .dimensionMismatch := by
    apply Matrix.add_err
    intro hs
    have h1 : p.cols = (m.bias_vectors.getD 0 Matrix.empty).cols := congrArg Prod.snd hs
    have h3 : (m.bias_vectors.getD 0 Matrix.empty).cols = 1 := congrArg Prod.snd hbs
    omega
  refine ⟨?_, _, _, p, hW, hb, hp, hq⟩
  have hstep := forwardStep_fail_add exp 0 x
    ({ m with activations := (m.activations.set 0 x) } : MLP α) _ _ p .dimensionMismatch
    hW hb hp hq
  unfold forward
  rw [Method.bind_ok (Method.index_ok hu0), Method.bind_ok hassert,
    Method.bind_ok (Method.assign_ok h0A)]
  have hread : Method.read (fun m : MLP α => size_t_sub m.units_per_layer.length 1)
      ({ m with activations := (m.activations.set 0 x) } : MLP α)
      = .ok ((m.units_per_layer.length - 2) + 1)
          { m with activations := (m.activations.set 0 x) } := by
    simp only [Method.read]
    rw [size_t_sub_one _ (by omega) h31]
    congr 1
    omega
  rw [Method.bind_ok hread]
  show (forwardStep exp 0 x >>= fun y =>
    forwardLoop exp (m.units_per_layer.length - 2) (0 + 1) y) _ = _
  exact Method.bind_fail hstep

/-- C19: on a well-shaped network with widths `[w0, ..., wn]`, `forward(x)` returns exactly
when `x` has shape `(w0, 1)`.  An input of `w0` rows and no column is refused by the `assert`
of `forward` (nothing is written); an input of `w0` rows and two or more columns passes that
`assert`, which only asks for `w0` rows and a nonzero column count, is stored in slot `0` and
multiplied by the first weight matrix, and is refused by the shape check of the first bias
addition. -/
theorem forward_accepts_iff (exp : α → α) (m : MLP α) (x : linalg.Matrix α)
    (hm : m.WellShaped) :
    ((∃ y m', forward exp x m = .ok y m') ↔ x.shape = (m.units_per_layer.getD 0 0, 1)) ∧
    (x.rows = m.units_per_layer.getD 0 0 → x.cols = 0 →
      forward exp x m = .fail .dimensionMismatch m) ∧
    (x.rows = m.units_per_layer.getD 0 0 → 2 ≤ x.cols →
      forward exp x m
          = .fail .dimensionMismatch { m with activations := (m.activations.set 0 x) } ∧
        ∃ W b p, m.weight_matrices[0]? = some W ∧ m.bias_vectors[0]? = some b ∧
          W.matmul x = .ok p ∧ p.add b = .error .dimensionMismatch) := by
  have hu0 : m.units_per_layer[0]? = some (m.units_per_layer.getD 0 0) :=
    getElem?_of_getD _ 0 0 (by have := hm.1; omega)
  refine ⟨⟨?_, ?_⟩, ?_, ?_⟩
  · rintro ⟨y, m', hrun⟩
    by_cases hr : x.rows = m.units_per_layer.getD 0 0
    · rcases Nat.lt_or_ge x.cols 2 with hlt | hge
      · rcases Nat.eq_zero_or_pos x.cols with h0 | hpos
        · rw [forward_zero_cols exp m x _ hu0 h0] at hrun
          cases hrun
        · exact Prod.ext hr (by show x.cols = 1; omega)
      · rw [(forward_wide_input exp m x hm hr hge).1] at hrun
        cases hrun
    · rw [forward_rows_mismatch exp m x _ hu0 hr] at hrun
      cases hrun
  · exact forward_returns_of_shape exp m x hm
  · intro _ h0
    exact forward_zero_cols exp m x _ hu0 h0
  · intro hr hc
    exact forward_wide_input exp m x hm hr hc

/-- C19 at the network with widths `[2, 1]`: the `2 × 1` input is accepted, the `2 × 2` input
is refused after slot `0` has been written. -/
theorem forward_accepts_iff_witness :
    (⟨[2, 1], [⟨1, 1, [0]⟩], [⟨2, 1, [1, 1]⟩], [Matrix.empty, Matrix.empty], 1 / 5⟩ : MLP ℝ).WellShaped ∧
    (∃ y m', forward Real.exp ⟨1, 2, [1, 2]⟩ (⟨[2, 1], [⟨1, 1, [0]⟩], [⟨2, 1, [1, 1]⟩], [Matrix.empty, Matrix.empty], 1 / 5⟩ : MLP ℝ) = .ok y m') ∧
    forward Real.exp ⟨2, 2, [1, 2, 3, 4]⟩ (⟨[2, 1], [⟨1, 1, [0]⟩], [⟨2, 1, [1, 1]⟩], [Matrix.empty, Matrix.empty], 1 / 5⟩ : MLP ℝ)
      = .fail .dimensionMismatch
        ⟨[2, 1], [⟨1, 1, [0]⟩], [⟨2, 1, [1, 1]⟩], [⟨2, 2, [1, 2, 3, 4]⟩, Matrix.empty], 1 / 5⟩ :=
  ⟨by decide,
    (forward_accepts_iff Real.exp (⟨[2, 1], [⟨1, 1, [0]⟩], [⟨2, 1, [1, 1]⟩], [Matrix.empty, Matrix.empty], 1 / 5⟩ : MLP ℝ) ⟨1, 2, [1, 2]⟩ (by decide)).1.mpr rfl,
    ((forward_accepts_iff Real.exp (⟨[2, 1], [⟨1, 1, [0]⟩], [⟨2, 1, [1, 1]⟩], [Matrix.empty, Matrix.empty], 1 / 5⟩ : MLP ℝ) ⟨2, 2, [1, 2, 3, 4]⟩ (by decide)).2.2
      rfl (by decide)).1⟩

/-! ## Range of the activations -/

/-- C20, counterexample: in the `double` arithmetic of the program, on the well-shaped network
with widths `[2, 1]`, weights `(1, 1)` and bias `0`, and the valid input `(20, 20)`, `forward`
caches and returns exactly `1.0`, not a value below `1`.  The pre-activation is `40.0`; the
library value of `exp(-40.0)` is the double `0x1.39792499b1a24p-58`
(`1378669778355849 / 2 ^ 108`, within `10 ^ (-25)` of `e ^ (-40)`), below half a unit in the last
place of `1`, so `1 + exp(-40.0)` rounds to `1`. -/
theorem forward_double_saturates :
    (⟨[2, 1], [⟨1, 1, [Double.fin 0]⟩], [⟨2, 1, [Double.fin 1, Double.fin 1]⟩],
      [Matrix.empty, Matrix.empty], Double.fin (1 / 8)⟩ : MLP Double).WellShaped ∧
    (⟨[2, 1], [⟨1, 1, [Double.fin 0]⟩], [⟨2, 1, [Double.fin 1, Double.fin 1]⟩],
      [Matrix.empty, Matrix.empty], Double.fin (1 / 8)⟩ : MLP Double).ValidInput
        ⟨1, 2, [Double.fin 20, Double.fin 20]⟩ ∧
    Double.round (1378669778355849 / 2 ^ 108) = Double.fin (1378669778355849 / 2 ^ 108) ∧
    |((1378669778355849 / 2 ^ 108 : ℚ) : ℝ) - Real.exp (-40)| < 1 / 10 ^ 25 ∧
    forward (Double.single (Double.fin (-40)) (Double.fin (1378669778355849 / 2 ^ 108)))
      ⟨1, 2, [Double.fin 20, Double.fin 20]⟩
      (⟨[2, 1], [⟨1, 1, [Double.fin 0]⟩], [⟨2, 1, [Double.fin 1, Double.fin 1]⟩],
        [Matrix.empty, Matrix.empty], Double.fin (1 / 8)⟩ : MLP Double)
      = .ok ⟨1, 1, [Double.fin 1]⟩
          ⟨[2, 1], [⟨1, 1, [Double.fin 0]⟩], [⟨2, 1, [Double.fin 1, Double.fin 1]⟩],
            [⟨1, 2, [Double.fin 20, Double.fin 20]⟩, ⟨1, 1, [Double.fin 1]⟩],
            Double.fin (1 / 8)⟩ := by
  refine ⟨by decide, by decide, ?_, ?_, ?_⟩
  · exact Double.round_of_repr _ (-58) 5514679113423396 (by norm_num) (by norm_num)
      (by norm_num) (by norm_num) (by norm_num)
  · obtain ⟨h1, h2⟩ := exp_neg_nat_bounds 40 (by norm_num)
    have hc : ((40 : ℕ) : ℝ) = 40 := by norm_num
    rw [hc] at h1 h2
    have hlo : (1378669778355849 / 2 ^ 108 : ℝ) - 1 / 10 ^ 25
        < 1 / (2.7182818286 : ℝ) ^ 40 := by norm_num
    have hhi : 1 / (2.7182818283 : ℝ) ^ 40
        < (1378669778355849 / 2 ^ 108 : ℝ) + 1 / 10 ^ 25 := by norm_num
    rw [abs_lt]
    push_cast
    constructor <;> linarith
  · have h20 : Double.round 20 = Double.fin 20 :=
      Double.round_of_repr 20 4 (20 * 2 ^ 48) (by norm_num) (by norm_num) (by norm_num)
        (by norm_num) (by norm_num)
    have h40 : Double.round 40 = Double.fin 40 :=
      Double.round_of_repr 40 5 (40 * 2 ^ 47) (by norm_num) (by norm_num) (by norm_num)
        (by norm_num) (by norm_num)
    have hsum : (20 : ℚ) + 20 = 40 := by norm_num
    have hpre : (0 + (0 + Double.fin 1 * Double.fin 20 + Double.fin 1 * Double.fin 20
        + Double.fin 0) : Double) = Double.fin 40 := by
      simp only [Double.zero_def, Double.mul_def, Double.add_def, Double.mul, Double.add,
        one_mul, zero_add, add_zero, h20, h40, hsum]
    have hs : sigmoid (Double.single (Double.fin (-40))
        (Double.fin (1378669778355849 / 2 ^ 108))) (Double.fin 40) = Double.fin 1 :=
      sigmoid_double_one _ (Double.fin 40) (1378669778355849 / 2 ^ 108)
        (Double.single_self _ _) (by norm_num) (by norm_num)
    rw [forward_2x1, hpre, hs]

/-- C20, amended: in the `double` arithmetic of the program, with a library `exp` that never
returns a negative number, `forward(x)` on a well-shaped network and a valid input returns;
every cached activation `activations[i]` with `i ≥ 1` then holds `w(i)` entries, the returned
prediction holds `w(n)` entries, and every one of these entries is a number in the closed
interval `[0, 1]` or a NaN, whatever the weights, biases and input. -/
theorem activations_in_closed_unit_interval (exp : Double → Double) (hexp : Double.LibExp exp)
    (m : MLP Double) (x : linalg.Matrix Double) (hm : m.WellShaped) (hx : m.ValidInput x) :
    ∃ y m', forward exp x m = .ok y m' ∧
      (∀ i, 1 ≤ i → i < m'.activations.length →
        (m'.activations.getD i Matrix.empty).data.length = m.units_per_layer.getD i 0 ∧
        ∀ v ∈ (m'.activations.getD i Matrix.empty).data,
          (∃ q : ℚ, v = Double.fin q ∧ 0 ≤ q ∧ q ≤ 1) ∨ v = Double.nan) ∧
      y.data.length = m.units_per_layer.getD (m.units_per_layer.length - 1) 0 ∧
      ∀ v ∈ y.data, (∃ q : ℚ, v = Double.fin q ∧ 0 ≤ q ∧ q ≤ 1) ∨ v = Double.nan := by
  obtain ⟨m', hrun, hsame, hlen, _, hcomp, hcached⟩ := forward_spec exp m x hm hx
  obtain ⟨h2, _, _, _, hnA, _⟩ := hm
  have hall : ∀ i, 1 ≤ i → i < m'.activations.length →
      (m'.activations.getD i Matrix.empty).data.length = m.units_per_layer.getD i 0 ∧
      ∀ v ∈ (m'.activations.getD i Matrix.empty).data,
        (∃ q : ℚ, v = Double.fin q ∧ 0 ≤ q ∧ q ≤ 1) ∨ v = Double.nan := by
    intro i h1 hi
    constructor
    · obtain ⟨hs, hw⟩ := hcached i hi
      have hr : (m'.activations.getD i Matrix.empty).rows = m'.units_per_layer.getD i 0 :=
        congrArg Prod.fst hs
      have hc : (m'.activations.getD i Matrix.empty).cols = 1 := congrArg Prod.snd hs
      have hu : m'.units_per_layer = m.units_per_layer := hsame.1
      unfold Matrix.WF at hw
      rw [hw, hr, hc, hu, Nat.mul_one]
    · obtain ⟨j, rfl⟩ : ∃ j, i = j + 1 := ⟨i - 1, by omega⟩
      obtain ⟨W, b, a, p, q, _, _, _, _, _, ha'⟩ := hcomp j (by omega)
      rw [getD_of_getElem? _ ha']
      exact apply_function_data q (sigmoid exp)
        (fun v => (∃ q : ℚ, v = Double.fin q ∧ 0 ≤ q ∧ q ≤ 1) ∨ v = Double.nan)
        (fun v => sigmoid_double_range exp hexp v)
  have hlast := hall (m.units_per_layer.length - 1) (by omega) (by omega)
  exact ⟨_, m', hrun, hall, hlast.1, hlast.2⟩

/-- C20, amended, at the network with widths `[2, 1]` and the input `(20, 20)`, with the
library value of `exp(-40.0)`. -/
theorem activations_in_closed_unit_interval_witness :
    Double.LibExp (Double.single (Double.fin (-40)) (Double.fin (1378669778355849 / 2 ^ 108))) ∧
    (⟨[2, 1], [⟨1, 1, [Double.fin 0]⟩], [⟨2, 1, [Double.fin 1, Double.fin 1]⟩],
      [Matrix.empty, Matrix.empty], Double.fin (1 / 8)⟩ : MLP Double).WellShaped ∧
    (⟨[2, 1], [⟨1, 1, [Double.fin 0]⟩], [⟨2, 1, [Double.fin 1, Double.fin 1]⟩],
      [Matrix.empty, Matrix.empty], Double.fin (1 / 8)⟩ : MLP Double).ValidInput
        ⟨1, 2, [Double.fin 20, Double.fin 20]⟩ ∧
    ∃ y m', forward (Double.single (Double.fin (-40)) (Double.fin (1378669778355849 / 2 ^ 108)))
        ⟨1, 2, [Double.fin 20, Double.fin 20]⟩
        (⟨[2, 1], [⟨1, 1, [Double.fin 0]⟩], [⟨2, 1, [Double.fin 1, Double.fin 1]⟩],
          [Matrix.empty, Matrix.empty], Double.fin (1 / 8)⟩ : MLP Double) = .ok y m' ∧
      y.data.length = 1 ∧
      ∀ v ∈ y.data, (∃ q : ℚ, v = Double.fin q ∧ 0 ≤ q ∧ q ≤ 1) ∨ v = Double.nan :=
  ⟨Double.libExp_single _ _ (by norm_num), by decide, by decide,
    (activations_in_closed_unit_interval
      (Double.single (Double.fin (-40)) (Double.fin (1378669778355849 / 2 ^ 108)))
      (Double.libExp_single _ _ (by norm_num))
      (⟨[2, 1], [⟨1, 1, [Double.fin 0]⟩], [⟨2, 1, [Double.fin 1, Double.fin 1]⟩],
        [Matrix.empty, Matrix.empty], Double.fin (1 / 8)⟩ : MLP Double)
      ⟨1, 2, [Double.fin 20, Double.fin 20]⟩ (by decide) (by decide)).imp
      fun _ h => h.imp fun _ h' => ⟨h'.1, h'.2.2.1, h'.2.2.2⟩⟩

/-! ## The forward/backprop cycle -/

/-- One `forward` followed by one `backprop` on a well-shaped network, with a fitting input and
a fitting target, both return and leave a well-shaped network with the same widths. -/
theorem trainStep_ok (exp : α → α) (m : MLP α) (x t : linalg.Matrix α) (hm : m.WellShaped)
    (hx : m.ValidInput x) (ht : m.ValidTarget t) :
    ∃ y m1 m2, forward exp x m = .ok y m1 ∧ backprop t m1 = .ok () m2 ∧
      trainStep exp x t m = .ok y m2 ∧ m2.WellShaped ∧
      m2.units_per_layer = m.units_per_layer := by
  obtain ⟨m1, hrun1, hsame, hlen, _, _, hcached⟩ := forward_spec exp m x hm hx
  have hm1 : m1.WellShaped := hsame.wellShaped hlen hm
  obtain ⟨m2, hrun2, hm2, hu2, _⟩ := backprop_spec m1 hm1 hcached t
    (by rw [hsame.1]; exact ht.1)
  refine ⟨_, m1, m2, hrun1, hrun2, ?_, hm2, hu2.trans hsame.1⟩
  unfold trainStep
  rw [Method.bind_ok hrun1, Method.bind_ok hrun2]
  rfl

/-- The training loop runs to completion on every sequence of fitting samples and leaves a
well-shaped network with the same widths. -/
theorem trainLoop_ok (exp : α → α) (samples : List (linalg.Matrix α × linalg.Matrix α)) :
    ∀ m : MLP α, m.WellShaped →
      (∀ s ∈ samples, m.ValidInput s.1 ∧ m.ValidTarget s.2) →
      ∃ m', trainLoop exp samples m = .ok () m' ∧ m'.WellShaped ∧
        m'.units_per_layer = m.units_per_layer := by
  induction samples with
  | nil =>
    intro m hm _
    exact ⟨m, rfl, hm, rfl⟩
  | cons s rest ih =>
    intro m hm hs
    obtain ⟨x, t⟩ := s
    obtain ⟨hx, ht⟩ := hs (x, t) (List.mem_cons_self _ _)
    obtain ⟨y, m1, m2, _, _, hstep, hm2, hu2⟩ := trainStep_ok exp m x t hm hx ht
    obtain ⟨m', hrun, hm', hu'⟩ := ih m2 hm2 (by
      intro s hs'
      have := hs s (List.mem_cons_of_mem _ hs')
      unfold ValidInput ValidTarget at this ⊢
      rw [hu2]
      exact this)
    refine ⟨m', ?_, hm', hu'.trans hu2⟩
    show (trainStep exp x t >>= fun _ => trainLoop exp rest) m = _
    rw [Method.bind_ok hstep, hrun]

/-- C18: on a network with widths `[w0, ..., wn]`, `n ≥ 1`, whose `weights[i]` are
`w(i+1) × w(i)` and whose `biases[i]` are `w(i+1) × 1`, a `forward` on an input of shape
`(w0, 1)` followed by a `backprop` on a target of shape `(wn, 1)` both return (no shape
assertion fails), every `weights[i]` and `biases[i]` has the same shape afterwards, and the
network is well-shaped again, so that the cycle runs to completion on every sequence of such
samples. -/
theorem shape_invariant (exp : α → α) (m : MLP α) (x t : linalg.Matrix α) (hm : m.WellShaped)
    (hx : m.ValidInput x) (ht : m.ValidTarget t) :
    ∃ y m1 m2, forward exp x m = .ok y m1 ∧ backprop t m1 = .ok () m2 ∧
      m2.units_per_layer = m.units_per_layer ∧
      m2.weight_matrices.length = m.weight_matrices.length ∧
      m2.bias_vectors.length = m.bias_vectors.length ∧
      (∀ i < m.weight_matrices.length,
        (m2.weight_matrices.getD i Matrix.empty).shape
          = (m.weight_matrices.getD i Matrix.empty).shape ∧
        (m2.bias_vectors.getD i Matrix.empty).shape
          = (m.bias_vectors.getD i Matrix.empty).shape) ∧
      m2.WellShaped ∧
      ∀ samples : List (linalg.Matrix α × linalg.Matrix α),
        (∀ s ∈ samples, m.ValidInput s.1 ∧ m.ValidTarget s.2) →
        ∃ m', trainLoop exp samples m = .ok () m' ∧ m'.WellShaped ∧
          m'.units_per_layer = m.units_per_layer := by
  obtain ⟨y, m1, m2, h1, h2, _, hm2, hu2⟩ := trainStep_ok exp m x t hm hx ht
  have hm2' := hm2
  obtain ⟨_, _, hnW2, hnb2, _, hsh2⟩ := hm2'
  have hm' := hm
  obtain ⟨_, _, hnW, hnb, _, hsh⟩ := hm'
  rw [hu2] at hnW2 hnb2
  have hlW : m2.weight_matrices.length = m.weight_matrices.length := by omega
  refine ⟨y, m1, m2, h1, h2, hu2, hlW, by omega, ?_, hm2, fun samples hs =>
    trainLoop_ok exp samples m hm hs⟩
  intro i hi
  obtain ⟨a1, _, a3, _⟩ := hsh i hi
  obtain ⟨b1, _, b3, _⟩ := hsh2 i (by omega)
  rw [hu2] at b1 b3
  exact ⟨b1.trans a1.symm, b3.trans a3.symm⟩

/-- C18 at the network with widths `[2, 1]`, the input `(1, 2)` and the target `(1)`, run for one
cycle and for two. -/
theorem shape_invariant_witness :
    (⟨[2, 1], [⟨1, 1, [0]⟩], [⟨2, 1, [1, 1]⟩], [Matrix.empty, Matrix.empty], 1 / 5⟩ : MLP ℝ).WellShaped ∧
    (⟨[2, 1], [⟨1, 1, [0]⟩], [⟨2, 1, [1, 1]⟩], [Matrix.empty, Matrix.empty], 1 / 5⟩ : MLP ℝ).ValidInput ⟨1, 2, [1, 2]⟩ ∧
    (⟨[2, 1], [⟨1, 1, [0]⟩], [⟨2, 1, [1, 1]⟩], [Matrix.empty, Matrix.empty], 1 / 5⟩ : MLP ℝ).ValidTarget ⟨1, 1, [1]⟩ ∧
    ∃ y m1 m2, forward Real.exp ⟨1, 2, [1, 2]⟩ (⟨[2, 1], [⟨1, 1, [0]⟩], [⟨2, 1, [1, 1]⟩], [Matrix.empty, Matrix.empty], 1 / 5⟩ : MLP ℝ) = .ok y m1 ∧
      backprop ⟨1, 1, [1]⟩ m1 = .ok () m2 ∧ m2.WellShaped ∧
      ∃ m', trainLoop Real.exp
          [(⟨1, 2, [1, 2]⟩, ⟨1, 1, [1]⟩), (⟨1, 2, [3, 4]⟩, ⟨1, 1, [0]⟩)] (⟨[2, 1], [⟨1, 1, [0]⟩], [⟨2, 1, [1, 1]⟩], [Matrix.empty, Matrix.empty], 1 / 5⟩ : MLP ℝ)
        = .ok () m' :=
  ⟨by decide, by decide, by decide,
    (shape_invariant Real.exp (⟨[2, 1], [⟨1, 1, [0]⟩], [⟨2, 1, [1, 1]⟩], [Matrix.empty, Matrix.empty], 1 / 5⟩ : MLP ℝ) ⟨1, 2, [1, 2]⟩ ⟨1, 1, [1]⟩
      (by decide) (by decide) (by decide)).imp
      fun _ h => h.imp fun _ h' => h'.imp fun _ h'' =>
        ⟨h''.1, h''.2.1, h''.2.2.2.2.2.2.1,
          (h''.2.2.2.2.2.2.2
            [(⟨1, 2, [1, 2]⟩, ⟨1, 1, [1]⟩), (⟨1, 2, [3, 4]⟩, ⟨1, 1, [0]⟩)]
            (by decide)).imp fun _ h3 => h3.1⟩⟩

/-! ## The update as a gradient step -/

/-- Derivative of the squared error `(t - sigmoid(g(p)))^2` along a parameter `p` that enters
the pre-activation `g` with slope `g'`. -/
theorem squared_error_hasDerivAt (t p g' : ℝ) (g : ℝ → ℝ) (hg : HasDerivAt g g' p) :
    HasDerivAt (fun q => (t - sigmoid Real.exp (g q)) ^ 2)
      (-2 * (t - sigmoid Real.exp (g p)) * d_sigmoid (sigmoid Real.exp (g p)) * g') p := by
  have h1 : HasDerivAt (fun q => sigmoid Real.exp (g q))
      (d_sigmoid (sigmoid Real.exp (g p)) * g') p :=
    (sigmoid_hasDerivAt (g p)).comp p hg
  have h2 := (h1.const_sub t).pow 2
  convert h2 using 1
  simp only [Nat.cast_ofNat, Nat.add_one_sub_one, pow_one]
  ring

/-- C17: on the one-layer network with widths `[1, 1]`, weight `w`, bias `b` and learning rate
`lr > 0`, `forward(x)` followed by `backprop(t)` adds to the weight and to the bias
`-(lr / 2)` times the partial derivatives, with respect to `w` and to `b`, of the squared error
`E(w, b) = (t - sigmoid(w * x + b))^2`; the factor `-(lr / 2)` is negative, so the parameters
move along the negative gradient. -/
theorem update_is_gradient_step (w b lr x t : ℝ) (a0 a1 : linalg.Matrix ℝ) (hlr : 0 < lr) :
    ∃ y m1 m2 dEw dEb,
      forward Real.exp ⟨1, 1, [x]⟩ ⟨[1, 1], [⟨1, 1, [b]⟩], [⟨1, 1, [w]⟩], [a0, a1], lr⟩
        = .ok y m1 ∧
      backprop ⟨1, 1, [t]⟩ m1 = .ok () m2 ∧
      HasDerivAt (fun w' => (t - sigmoid Real.exp (w' * x + b)) ^ 2) dEw w ∧
      HasDerivAt (fun b' => (t - sigmoid Real.exp (w * x + b')) ^ 2) dEb b ∧
      m2.weight_matrices = [⟨1, 1, [w + -(lr / 2) * dEw]⟩] ∧
      m2.bias_vectors = [⟨1, 1, [b + -(lr / 2) * dEb]⟩] ∧
      -(lr / 2) < 0 := by
  have hw : HasDerivAt (fun w' : ℝ => w' * x + b) x w := by
    simpa using ((hasDerivAt_id w).mul_const x).add_const b
  have hb : HasDerivAt (fun b' : ℝ => w * x + b') 1 b := by
    simpa using (hasDerivAt_id b).const_add (w * x)
  refine ⟨_, _, _, _, _, forward_1x1 Real.exp w b lr x a0 a1,
    backprop_1x1 w b lr x (sigmoid Real.exp (w * x + b)) t,
    squared_error_hasDerivAt t w x (fun w' => w' * x + b) hw,
    squared_error_hasDerivAt t b 1 (fun b' => w * x + b') hb, ?_, ?_, by linarith⟩
  · show [(⟨1, 1, [w + (t - sigmoid Real.exp (w * x + b))
      * d_sigmoid (sigmoid Real.exp (w * x + b)) * lr * x]⟩ : linalg.Matrix ℝ)] = _
    congr 3
    ring
  · show [(⟨1, 1, [b + (t - sigmoid Real.exp (w * x + b))
      * d_sigmoid (sigmoid Real.exp (w * x + b)) * lr]⟩ : linalg.Matrix ℝ)] = _
    congr 3
    ring

/-- C17 at `w = 1/2`, `b = 0`, `lr = 1/5`, `x = 1`, `t = 1`. -/
theorem update_is_gradient_step_witness :
    (0 : ℝ) < 1 / 5 ∧
    ∃ y m1 m2 dEw dEb,
      forward Real.exp ⟨1, 1, [1]⟩
        ⟨[1, 1], [⟨1, 1, [0]⟩], [⟨1, 1, [1 / 2]⟩], [Matrix.empty, Matrix.empty], 1 / 5⟩
        = .ok y m1 ∧
      backprop ⟨1, 1, [1]⟩ m1 = .ok () m2 ∧
      HasDerivAt (fun w' => (1 - sigmoid Real.exp (w' * 1 + 0)) ^ 2) dEw (1 / 2) ∧
      HasDerivAt (fun b' => (1 - sigmoid Real.exp (1 / 2 * 1 + b')) ^ 2) dEb 0 ∧
      m2.weight_matrices = [⟨1, 1, [1 / 2 + -(1 / 5 / 2) * dEw]⟩] ∧
      m2.bias_vectors = [⟨1, 1, [0 + -(1 / 5 / 2) * dEb]⟩] ∧
      -((1 : ℝ) / 5 / 2) < 0 :=
  ⟨by norm_num,
    update_is_gradient_step (1 / 2) 0 (1 / 5) 1 1 Matrix.empty Matrix.empty (by norm_num)⟩

end MLP

end nn
